import Mathlib

/-!
# locc: a shallow embedding of `cmd/root.go` and `cmd/config.go`

The file follows the Go sources function by function.

* Go strings and byte slices are lists of bytes (`GoString`), the bytes being natural
  numbers below 256.
* A Go map is nil or an association list with distinct keys (`GoMap`); the order of its
  cells stands for the order in which a `range` loop happens to enumerate the map.
  Theorems quantify over all maps, hence over all enumeration orders.
* A value of type `interface{}` is a `Value`.
* A run-time panic is the `error` case of `Except Panic`.
* What lies outside the program (the files that can be read, the Unicode lower-casing
  tables) is a `World`; what the operating system answers during the counting pass (the
  working directory, the tree that `filepath.Walk` finds, the writes) is a `Disk`.
* `runInit` and the loaders of the configuration ask for single files: what the operating
  system answers them is a `FileSystem`, and they report the calls of `os.WriteFile` they
  make. The YAML library and the two embedded templates, which are not part of the
  sources, are parameters (`Yaml`, `template`).
* The functions of the Go standard library that the program calls (`strings`, `unicode/utf8`,
  `path/filepath` with `/` as separator, `bufio.Scanner`) are modelled from their
  documented behaviour.
-/

namespace Locc

/-! ## Strings -/

/-- A Go string, or a byte slice: the sequence of its bytes. -/
abbrev GoString := List Nat

/-- The UTF-8 encoding of one character. -/
def utf8Char (c : Char) : List Nat :=
  let n := c.toNat
  if n < 0x80 then [n]
  else if n < 0x800 then [0xC0 + n / 64, 0x80 + n % 64]
  else if n < 0x10000 then [0xE0 + n / 4096, 0x80 + n / 64 % 64, 0x80 + n % 64]
  else [0xF0 + n / 262144, 0x80 + n / 4096 % 64, 0x80 + n / 64 % 64, 0x80 + n % 64]

/-- The bytes of a string literal of the Go source (UTF-8). -/
def lit (s : String) : GoString :=
  s.data.flatMap utf8Char

/-- Go `strings.HasPrefix`. -/
def hasPrefix (s pre : GoString) : Bool :=
  pre.isPrefixOf s

/-- Go `strings.HasSuffix`. -/
def hasSuffix (s suf : GoString) : Bool :=
  suf.isSuffixOf s

/-- Go `strings.TrimSuffix`: `s` without the given trailing string, or `s` itself. -/
def trimSuffix (s suf : GoString) : GoString :=
  if hasSuffix s suf then s.take (s.length - suf.length) else s

/-- Go `strings.Contains`: `sub` occurs in `s` as a run of consecutive bytes. -/
def contains (s sub : GoString) : Bool :=
  s.tails.any (fun t => sub.isPrefixOf t)

/-- Go `strings.ToLower` on a string of ASCII bytes: `A`..`Z` become `a`..`z`. -/
def lowerASCII (s : GoString) : GoString :=
  s.map (fun c => if 65 ≤ c ∧ c ≤ 90 then c + 32 else c)

/-! ## `unicode/utf8` and `strings.TrimSpace` -/

/-- The constant `utf8.RuneError`. -/
def runeError : Nat := 0xFFFD

/-- The table `first` of `unicode/utf8` for a leading byte of a multi-byte sequence: the
length of the sequence and the accepted range of the second byte; `none` for the bytes that
do not start a multi-byte sequence. -/
def leadInfo (b : Nat) : Option (Nat × Nat × Nat) :=
  if 0xC2 ≤ b ∧ b ≤ 0xDF then some (2, 0x80, 0xBF)
  else if b = 0xE0 then some (3, 0xA0, 0xBF)
  else if (0xE1 ≤ b ∧ b ≤ 0xEC) ∨ b = 0xEE ∨ b = 0xEF then some (3, 0x80, 0xBF)
  else if b = 0xED then some (3, 0x80, 0x9F)
  else if b = 0xF0 then some (4, 0x90, 0xBF)
  else if 0xF1 ≤ b ∧ b ≤ 0xF3 then some (4, 0x80, 0xBF)
  else if b = 0xF4 then some (4, 0x80, 0x8F)
  else none

/-- Go `utf8.DecodeRuneInString`: the first rune of `s` and its width in bytes;
`(RuneError, 0)` on the empty string and `(RuneError, 1)` on an invalid encoding. -/
def decodeRune (s : GoString) : Nat × Nat :=
  match s with
  | [] => (runeError, 0)
  | s0 :: rest =>
    if s0 < 0x80 then (s0, 1)
    else
      match leadInfo s0 with
      | none => (runeError, 1)
      | some (sz, lo, hi) =>
        if s.length < sz then (runeError, 1)
        else
          match rest with
          | [] => (runeError, 1)
          | s1 :: rest1 =>
            if s1 < lo ∨ hi < s1 then (runeError, 1)
            else if sz ≤ 2 then (s0 % 32 * 64 + s1 % 64, 2)
            else
              match rest1 with
              | [] => (runeError, 1)
              | s2 :: rest2 =>
                if s2 < 0x80 ∨ 0xBF < s2 then (runeError, 1)
                else if sz ≤ 3 then (s0 % 16 * 4096 + s1 % 64 * 64 + s2 % 64, 3)
                else
                  match rest2 with
                  | [] => (runeError, 1)
                  | s3 :: _ =>
                    if s3 < 0x80 ∨ 0xBF < s3 then (runeError, 1)
                    else (s0 % 8 * 262144 + s1 % 64 * 4096 + s2 % 64 * 64 + s3 % 64, 4)

/-- Go `utf8.RuneStart`: the byte is not a continuation byte. -/
def runeStart (b : Nat) : Bool :=
  !(0x80 ≤ b && b ≤ 0xBF)

/-- The backward loop of `utf8.DecodeLastRuneInString`
(`for start--; start >= lim; start-- { if RuneStart(s[start]) { break } }`, then
`if start < 0 { start = 0 }`), entered with the given value of `start`. -/
def backToRuneStart (s : GoString) (lim : Nat) : Nat → Nat
  | 0 => 0
  | start + 1 =>
    if start < lim then start
    else if runeStart (s.getD start 0) then start
    else backToRuneStart s lim start

/-- Go `utf8.DecodeLastRuneInString`: the last rune of `s` and its width in bytes. -/
def decodeLastRune (s : GoString) : Nat × Nat :=
  let n := s.length
  if n = 0 then (runeError, 0)
  else
    let last := s.getD (n - 1) 0
    if last < 0x80 then (last, 1)
    else
      let start := backToRuneStart s (n - 4) (n - 1)
      let d := decodeRune (s.drop start)
      if start + d.2 ≠ n then (runeError, 1) else d

/-- Go `unicode.IsSpace`: the Latin-1 spaces `\t \n \v \f \r`, space, U+0085, U+00A0, and
the other code points of the Unicode property White_Space. -/
def isSpace (r : Nat) : Bool :=
  if r ≤ 0xFF then
    r = 9 ∨ r = 10 ∨ r = 11 ∨ r = 12 ∨ r = 13 ∨ r = 32 ∨ r = 0x85 ∨ r = 0xA0
  else
    r = 0x1680 ∨ (0x2000 ≤ r ∧ r ≤ 0x200A) ∨ r = 0x2028 ∨ r = 0x2029 ∨ r = 0x202F
      ∨ r = 0x205F ∨ r = 0x3000

/-- The loop of `strings.TrimLeftFunc(s, unicode.IsSpace)`, at most `fuel` runes. -/
def trimLeftLoop : Nat → GoString → GoString
  | 0, s => s
  | fuel + 1, s =>
    if s = [] then []
    else
      let d := decodeRune s
      if isSpace d.1 then trimLeftLoop fuel (s.drop d.2) else s

/-- The loop of `strings.TrimRightFunc(s, unicode.IsSpace)`, at most `fuel` runes. -/
def trimRightLoop : Nat → GoString → GoString
  | 0, s => s
  | fuel + 1, s =>
    if s = [] then []
    else
      let d := decodeLastRune s
      if isSpace d.1 then trimRightLoop fuel (s.take (s.length - d.2)) else s

/-- Go `strings.TrimSpace`, that is `TrimFunc(s, unicode.IsSpace)`: the leading and the
trailing white space removed.  A rune takes at least one byte, so the length of the string
is fuel enough for either loop. -/
def trimSpace (s : GoString) : GoString :=
  let t := trimLeftLoop s.length s
  trimRightLoop t.length t

/-! ## `bufio.Scanner` with `bufio.ScanLines` -/

/-- The constant `bufio.MaxScanTokenSize`, the size up to which a scanner made by
`bufio.NewScanner` lets its buffer grow. -/
def maxScanTokenSize : Nat := 64 * 1024

/-- The helper `dropCR` of `bufio`: one trailing carriage return removed. -/
def dropCR (data : GoString) : GoString :=
  if data.getLast? = some 13 then data.dropLast else data

/-- Go `bytes.IndexByte`: the index of the first occurrence of `c`. -/
def indexByte : GoString → Nat → Option Nat
  | [], _ => none
  | b :: rest, c => if b = c then some 0 else (indexByte rest c).map (· + 1)

/-- One call of `Scanner.Scan` with the split function `ScanLines`, on the input that has
not been consumed yet: `none` when `Scan` returns false, otherwise the token and the input
left.  `Scan` returns false at the end of the input, and also (with `ErrTooLong`) when the
buffer, grown to `maxTok` bytes and filled from the start of the line, holds no newline:
the line and its newline must fit in the buffer, and so must a last line without newline,
since the scanner learns of the end of the input only by reading past it. -/
def scanStep (maxTok : Nat) (data : GoString) : Option (GoString × GoString) :=
  if data = [] then none
  else
    match indexByte data 10 with
    | some i => if i < maxTok then some (dropCR (data.take i), data.drop (i + 1)) else none
    | none => if data.length < maxTok then some (dropCR data, []) else none

/-- The loop `for scanner.Scan() { if len(strings.TrimSpace(scanner.Text())) > 0
{ lineCount++ } }` of `countNonEmptyLines`.  Every call of `Scan` that returns true consumes
at least one byte, so the length of the content is fuel enough. -/
def countLoop (maxTok : Nat) : Nat → GoString → Nat → Nat
  | 0, _, lineCount => lineCount
  | fuel + 1, data, lineCount =>
    match scanStep maxTok data with
    | none => lineCount
    | some (text, rest) =>
      countLoop maxTok fuel rest
        (if 0 < (trimSpace text).length then lineCount + 1 else lineCount)

/-- Go `countNonEmptyLines` (root.go): the number of scanned lines that are not empty once
trimmed. -/
def countNonEmptyLines (content : GoString) : Nat :=
  countLoop maxScanTokenSize content.length content 0

/-- The count that the specification describes: the content is split into lines at the
line breaks, and a line counts when its length after trimming is not zero. -/
def specNonEmptyLines (content : GoString) : Nat :=
  ((content.splitOn 10).filter (fun line => 0 < (trimSpace line).length)).length

/-! ## `path/filepath` -/

/-- The last element of a path that does not end in a slash: what follows its last
slash, or the whole path when it holds none. -/
def lastElement (path : GoString) : GoString :=
  (path.reverse.takeWhile (fun c => c != 47)).reverse

/-- Go `filepath.Base`: the last element of the path, trailing slashes removed first;
`.` for the empty path and `/` for a path of slashes only. -/
def filepathBase (path : GoString) : GoString :=
  if path = [] then [46]
  else
    let stripped := (path.reverse.dropWhile (fun c => c == 47)).reverse
    let last := lastElement stripped
    if last = [] then [47] else last

/-- The loop of `filepath.Ext`, from the last byte backwards: `acc` holds the bytes
already passed. -/
def extLoop : GoString → GoString → GoString
  | [], _ => []
  | c :: before, acc =>
    if c = 47 then []
    else if c = 46 then 46 :: acc
    else extLoop before (c :: acc)

/-- Go `filepath.Ext`: the suffix that starts at the last dot of the last element of the
path, the dot included; empty when there is no dot. -/
def filepathExt (path : GoString) : GoString :=
  extLoop path.reverse []

/-! ## The world outside the program -/

/-- What the program finds outside itself. -/
structure World where
  /-- Go `os.ReadFile`: the content of the file at a path, `none` when the read fails. -/
  readFile : GoString → Option GoString
  /-- Go `strings.Map(unicode.ToLower, s)`, which `strings.ToLower` applies to a string that
  holds a byte outside ASCII. -/
  mapLower : GoString → GoString

/-- Go `strings.ToLower`. -/
def toLower (w : World) (s : GoString) : GoString :=
  if s.all (fun c => c < 0x80) then lowerASCII s else w.mapLower s

/-! ## Maps, dynamic values, panics -/

/-- The run-time panics of the program. -/
inductive Panic where
  /-- The panic `assignment to entry in nil map`. -/
  | nilMapAssignment
  /-- A failed type assertion `x.(T)`. -/
  | typeAssertion
  deriving DecidableEq, Repr

/-- A Go map with string keys: nil, or made, with its cells in enumeration order. -/
inductive GoMap (V : Type) where
  | nil : GoMap V
  | made (cells : AList (fun _ : GoString => V)) : GoMap V

namespace GoMap

/-- The empty map `make(map[string]V)`. -/
def empty {V : Type} : GoMap V :=
  made ∅

/-- The test `m != nil`. -/
def isSet {V : Type} : GoMap V → Bool
  | nil => false
  | made _ => true

/-- The read `v, ok := m[k]`: `none` when `ok` is false. -/
def get? {V : Type} : GoMap V → GoString → Option V
  | nil, _ => none
  | made cells, k => cells.lookup k

/-- The pairs that `for k, v := range m` enumerates, in order. -/
def entries {V : Type} : GoMap V → List ((_ : GoString) × V)
  | nil => []
  | made cells => cells.entries

/-- The assignment `m[k] = v`, which panics on the nil map. -/
def set {V : Type} : GoMap V → GoString → V → Except Panic (GoMap V)
  | nil, _, _ => .error .nilMapAssignment
  | made cells, k, v => .ok (made (cells.insert k v))

end GoMap

/-- Go `ExclusionWordlists` (config.go). -/
structure ExclusionWordlists where
  Exclude : List GoString
  Include : List GoString
  deriving DecidableEq, Repr

/-- Go `FileExclusion` (config.go). -/
structure FileExclusion where
  Wordlists : ExclusionWordlists
  deriving DecidableEq, Repr

/-- A value of type `interface{}`, by dynamic type: what the YAML decoder produces (nil,
scalars, `[]interface{}`, `map[interface{}]interface{}`), what `processFilter` stores
(`map[string][]string`), and the other types that the type switches of `matchesFilter` and
`containsPath` name. -/
inductive Value where
  | null : Value
  | bool (b : Bool) : Value
  | int (n : Int) : Value
  | float (bits : Nat) : Value
  | str (s : GoString) : Value
  | list (items : List Value) : Value
  | dict (pairs : List (Value × Value)) : Value
  | filter (m : GoMap (List GoString)) : Value
  | strings (items : List GoString) : Value
  | fileExclusions (m : GoMap FileExclusion) : Value
  | mapping (pairs : List (GoString × Value)) : Value

/-! ## config.go -/

/-- Go `LanguageConfig` (config.go). -/
structure LanguageConfig where
  Extensions : List GoString
  Comment : List GoString
  deriving DecidableEq, Repr

/-- Go `Config` (config.go). -/
structure Config where
  Languages : GoMap LanguageConfig
  Stores : GoMap LanguageConfig
  Documents : GoMap LanguageConfig
  Excludes : GoMap Value
  Includes : GoMap Value
  MaxFileSize : Int

/-- The loop `for k, v := range src { dst[k] = v }` of `mergeConfigs`. -/
def assignAll {V : Type} (dst : GoMap V) (src : List ((_ : GoString) × V)) :
    Except Panic (GoMap V) :=
  src.foldlM (fun m e => m.set e.1 e.2) dst

/-- One merging block of `mergeConfigs`:
`if local.X != nil { for k, v := range local.X { global.X[k] = v } }`. -/
def mergeInto {V : Type} (dst src : GoMap V) : Except Panic (GoMap V) :=
  if src.isSet then assignAll dst src.entries else .ok dst

/-- Go `mergeConfigs` (config.go); `none` is the nil pointer.  The Go function writes
into the global configuration and returns it. -/
def mergeConfigs (globalConfig localConfig : Option Config) : Except Panic (Option Config) :=
  match globalConfig, localConfig with
  | none, _ => .ok localConfig
  | some g, none => .ok (some g)
  | some g, some l => do
    let languages ← mergeInto g.Languages l.Languages
    let excludes ← mergeInto g.Excludes l.Excludes
    let includes ← mergeInto g.Includes l.Includes
    let maxFileSize := if l.MaxFileSize > 0 then l.MaxFileSize else g.MaxFileSize
    .ok (some
      { g with
        Languages := languages, Excludes := excludes, Includes := includes,
        MaxFileSize := maxFileSize })

/-- Go `processSimpleFilter` (config.go): the cells of the map it returns. -/
def processSimpleFilter (rules : List Value) : AList (fun _ : GoString => List GoString) :=
  rules.foldl
    (fun filterMap item =>
      match item with
      | .str filename => filterMap.insert filename []
      | _ => filterMap)
    ∅

/-- The inner loop of `processDetailedFilter`: the strings among the details. -/
def wordlistOf (detailsSlice : List Value) : List GoString :=
  detailsSlice.filterMap
    (fun word =>
      match word with
      | .str s => some s
      | _ => none)

/-- Go `processDetailedFilter` (config.go): the cells of the map it returns.  The
assertion `filename.(string)` panics on a key that is not a string. -/
def processDetailedFilter (rules : List (Value × Value)) :
    Except Panic (AList (fun _ : GoString => List GoString)) :=
  rules.foldlM
    (fun filterMap rule =>
      match rule.2 with
      | .list detailsSlice =>
        match rule.1 with
        | .str filename => .ok (filterMap.insert filename (wordlistOf detailsSlice))
        | _ => .error .typeAssertion
      | _ => .ok filterMap)
    ∅

/-- Go `processFilter` (config.go): every rule-set of one of the two shapes is replaced,
under its key, by its normal form. -/
def processFilter (filter : GoMap Value) : Except Panic (GoMap Value) :=
  match filter with
  | .nil => .ok .nil
  | .made cells =>
    (cells.entries.foldlM
      (fun (acc : AList (fun _ : GoString => Value)) (e : (_ : GoString) × Value) =>
        match e.2 with
        | Value.list v =>
          Except.ok (acc.insert e.1 (Value.filter (GoMap.made (processSimpleFilter v))))
        | Value.dict v =>
          (processDetailedFilter v).map
            (fun m => acc.insert e.1 (Value.filter (GoMap.made m)))
        | _ => Except.ok acc)
      cells).map GoMap.made

/-- Go `processFilters` (config.go). -/
def processFilters (config : Config) : Except Panic Config := do
  let excludes ← processFilter config.Excludes
  let includes ← processFilter config.Includes
  .ok { config with Excludes := excludes, Includes := includes }

/-! ## root.go -/

/-- Go `matchesExclusion` (root.go). -/
def matchesExclusion (pattern path : GoString) : Bool :=
  if hasSuffix pattern (lit "/") then
    hasPrefix path pattern || path == trimSuffix pattern (lit "/")
  else
    pattern == path

/-- Go `containsPath` (root.go): a type switch on the rule-set. -/
def containsPath (exclusions : Value) (path : GoString) : Bool :=
  match exclusions with
  | .fileExclusions v => v.entries.any (fun e => matchesExclusion e.1 path)
  | .mapping v => v.any (fun e => matchesExclusion e.1 path)
  | .list v =>
    v.any
      (fun item =>
        match item with
        | .str s => matchesExclusion s path
        | _ => false)
  | _ => false

/-- Go `shouldExcludeDir` (root.go). -/
def shouldExcludeDir (config : Config) (relPath : GoString) : Bool :=
  if (match config.Excludes.get? (lit "locc") with
      | some exclusions => containsPath exclusions relPath
      | none => false) then true
  else if config.Excludes.entries.any (fun e => containsPath e.2 relPath) then true
  else false

/-- Go `matchesFilter` (root.go): a type switch on the filter. -/
def matchesFilter (w : World) (filter : Value) (fileName relPath : GoString) : Bool :=
  match filter with
  | .filter v =>
    match v.get? fileName with
    | some wordlist =>
      if wordlist.length = 0 then true
      else
        match w.readFile relPath with
        | none => false
        | some content => wordlist.any (fun word => contains content word)
    | none => false
  | .strings v => v.any (fun pattern => matchesExclusion pattern fileName)
  | _ => false

/-- One of the three loops of `detectLanguage`: the first entry of the table, in
enumeration order, that lists the extension. -/
def searchTable (table : GoMap LanguageConfig) (ext : GoString) :
    Option (GoString × List GoString) :=
  (table.entries.find? (fun e => e.2.Extensions.contains ext)).map
    (fun e => (e.1, e.2.Comment))

/-- Go `detectLanguage` (root.go): the type and its comment tokens. -/
def detectLanguage (w : World) (filename : GoString) (config : Config)
    (enableStores enableDocuments : Bool) : GoString × List GoString :=
  let ext := toLower w (filepathExt filename)
  match searchTable config.Languages ext with
  | some found => found
  | none =>
    match (if enableStores then searchTable config.Stores ext else none) with
    | some found => found
    | none =>
      match (if enableDocuments then searchTable config.Documents ext else none) with
      | some found => found
      | none => ([], [])

/-- Go `shouldIncludeFile` (root.go); `size` is `info.Size()`. -/
def shouldIncludeFile (w : World) (config : Config) (relPath : GoString) (size : Int)
    (enableStores enableDocuments : Bool) : Bool :=
  if config.MaxFileSize > 0 ∧ size > config.MaxFileSize then false
  else
    let fileName := filepathBase relPath
    let lang := (detectLanguage w relPath config enableStores enableDocuments).1
    if (match config.Includes.get? (lit "locc") with
        | some globalIncludes => matchesFilter w globalIncludes fileName relPath
        | none => false) then true
    else if (match config.Includes.get? lang with
        | some includes => matchesFilter w includes fileName relPath
        | none => false) then true
    else if (match config.Excludes.get? (lit "locc") with
        | some globalExcludes => matchesFilter w globalExcludes fileName relPath
        | none => false) then false
    else if (match config.Excludes.get? lang with
        | some excludes => matchesFilter w excludes fileName relPath
        | none => false) then false
    else decide (lang ≠ [])

/-! ## Sample inputs -/

/-- A world with one readable file, `src/c.txt`, and no Unicode lower-casing. -/
def sampleWorld : World where
  readFile := fun path => if path = lit "src/c.txt" then some (lit "fix: TODO later") else none
  mapLower := fun s => s

/-- A normalized filter: `a.txt` without condition, `c.txt` and `d.txt` on the word `TODO`. -/
def sampleFilter : GoMap (List GoString) :=
  GoMap.made
    ((((∅ : AList (fun _ : GoString => List GoString)).insert (lit "a.txt") []).insert
      (lit "c.txt") [lit "TODO"]).insert (lit "d.txt") [lit "TODO"])

/-- A configuration whose global include and global exclude rule-sets both name `x.go`,
with Go as its only language and a size limit of 100 bytes. -/
def sampleConfig : Config where
  Languages :=
    GoMap.made ((∅ : AList (fun _ : GoString => LanguageConfig)).insert (lit "Go")
      { Extensions := [lit ".go"], Comment := [lit "//"] })
  Stores := GoMap.empty
  Documents := GoMap.empty
  Excludes :=
    GoMap.made ((∅ : AList (fun _ : GoString => Value)).insert (lit "locc")
      (Value.filter (GoMap.made ((∅ : AList (fun _ : GoString => List GoString)).insert
        (lit "x.go") []))))
  Includes :=
    GoMap.made ((∅ : AList (fun _ : GoString => Value)).insert (lit "locc")
      (Value.filter (GoMap.made ((∅ : AList (fun _ : GoString => List GoString)).insert
        (lit "x.go") []))))
  MaxFileSize := 100

/-- A configuration without include rules, whose global exclude rule-set names `gen.go`. -/
def plainConfig : Config where
  Languages :=
    GoMap.made ((∅ : AList (fun _ : GoString => LanguageConfig)).insert (lit "Go")
      { Extensions := [lit ".go"], Comment := [lit "//"] })
  Stores := GoMap.empty
  Documents := GoMap.empty
  Excludes :=
    GoMap.made ((∅ : AList (fun _ : GoString => Value)).insert (lit "locc")
      (Value.filter (GoMap.made ((∅ : AList (fun _ : GoString => List GoString)).insert
        (lit "gen.go") []))))
  Includes := GoMap.empty
  MaxFileSize := 0

/-- All five mappings of a configuration are set (none is the nil map). -/
def Config.allSet (c : Config) : Bool :=
  c.Languages.isSet && c.Stores.isSet && c.Documents.isSet && c.Excludes.isSet
    && c.Includes.isSet

/-- The empty configuration: five empty mappings and `maxFileSize` zero. -/
def emptyConfig : Config where
  Languages := GoMap.empty
  Stores := GoMap.empty
  Documents := GoMap.empty
  Excludes := GoMap.empty
  Includes := GoMap.empty
  MaxFileSize := 0

/-- A global configuration: Go and C as languages, a limit of 1000 bytes. -/
def sampleGlobal : Config where
  Languages :=
    GoMap.made (((∅ : AList (fun _ : GoString => LanguageConfig)).insert (lit "Go")
      { Extensions := [lit ".go"], Comment := [lit "//"] }).insert (lit "C")
      { Extensions := [lit ".c", lit ".h"], Comment := [lit "//", lit "/*"] })
  Stores := GoMap.empty
  Documents := GoMap.empty
  Excludes :=
    GoMap.made ((∅ : AList (fun _ : GoString => Value)).insert (lit "locc")
      (Value.list [Value.str (lit "vendor/")]))
  Includes := GoMap.empty
  MaxFileSize := 1000

/-- A local configuration: Go with another extension list and no comment tokens, a store,
an exclude rule-set for Go, and `max_file_size` zero. -/
def sampleLocal : Config where
  Languages :=
    GoMap.made ((∅ : AList (fun _ : GoString => LanguageConfig)).insert (lit "Go")
      { Extensions := [lit ".go", lit ".tmpl"], Comment := [] })
  Stores :=
    GoMap.made ((∅ : AList (fun _ : GoString => LanguageConfig)).insert (lit "JSON")
      { Extensions := [lit ".json"], Comment := [] })
  Documents := GoMap.empty
  Excludes :=
    GoMap.made ((∅ : AList (fun _ : GoString => Value)).insert (lit "Go")
      (Value.list [Value.str (lit "gen.go")]))
  Includes := GoMap.empty
  MaxFileSize := 0

/-- A global configuration whose `includes` mapping is nil, as the decoder leaves a
mapping that the document does not mention. -/
def unsetGlobal : Config where
  Languages := GoMap.empty
  Stores := GoMap.empty
  Documents := GoMap.empty
  Excludes := GoMap.empty
  Includes := GoMap.nil
  MaxFileSize := 1000

/-- A local configuration with one global include rule and a limit of 5 bytes. -/
def includeLocal : Config where
  Languages := GoMap.empty
  Stores := GoMap.empty
  Documents := GoMap.empty
  Excludes := GoMap.empty
  Includes :=
    GoMap.made ((∅ : AList (fun _ : GoString => Value)).insert (lit "locc")
      (Value.list [Value.str (lit "x.go")]))
  MaxFileSize := 5

/-- A local configuration with a store named JSON and a negative `max_file_size`. -/
def storeLocal : Config where
  Languages := GoMap.empty
  Stores :=
    GoMap.made ((∅ : AList (fun _ : GoString => LanguageConfig)).insert (lit "JSON")
      { Extensions := [lit ".json"], Comment := [] })
  Documents := GoMap.empty
  Excludes := GoMap.empty
  Includes := GoMap.empty
  MaxFileSize := -1

/-- The configuration decoded from `excludes: {locc: ["vendor/"]}`, Go as its language. -/
def vendorConfig : Config where
  Languages :=
    GoMap.made ((∅ : AList (fun _ : GoString => LanguageConfig)).insert (lit "Go")
      { Extensions := [lit ".go"], Comment := [lit "//"] })
  Stores := GoMap.empty
  Documents := GoMap.empty
  Excludes :=
    GoMap.made ((∅ : AList (fun _ : GoString => Value)).insert (lit "locc")
      (Value.list [Value.str (lit "vendor/")]))
  Includes := GoMap.empty
  MaxFileSize := 0

/-- A file of one line of 70000 letters `a`, without line break. -/
def longLine : GoString :=
  List.replicate 70000 97

/-- A global configuration whose `languages` mapping is nil. -/
def bareGlobal : Config where
  Languages := GoMap.nil
  Stores :=
    GoMap.made ((∅ : AList (fun _ : GoString => LanguageConfig)).insert (lit "YAML")
      { Extensions := [lit ".yaml"], Comment := [lit "#"] })
  Documents := GoMap.empty
  Excludes := GoMap.empty
  Includes := GoMap.empty
  MaxFileSize := 0

/-- A configuration in which the extension `.go` is listed by the language Go and by the
store Templates, `.json` by the store JSON and `.md` by the document type Markdown. -/
def tablesConfig : Config where
  Languages :=
    GoMap.made ((∅ : AList (fun _ : GoString => LanguageConfig)).insert (lit "Go")
      { Extensions := [lit ".go"], Comment := [lit "//"] })
  Stores :=
    GoMap.made (((∅ : AList (fun _ : GoString => LanguageConfig)).insert (lit "JSON")
      { Extensions := [lit ".json"], Comment := [] }).insert (lit "Templates")
      { Extensions := [lit ".go"], Comment := [lit "#"] })
  Documents :=
    GoMap.made ((∅ : AList (fun _ : GoString => LanguageConfig)).insert (lit "Markdown")
      { Extensions := [lit ".md"], Comment := [] })
  Excludes := GoMap.empty
  Includes := GoMap.empty
  MaxFileSize := 0

/-- A configuration whose only language, Go, lists its extension without the dot, as the
doc comment of `LanguageConfig.Extensions` writes it. -/
def dotFreeConfig : Config where
  Languages :=
    GoMap.made ((∅ : AList (fun _ : GoString => LanguageConfig)).insert (lit "Go")
      { Extensions := [lit "go"], Comment := [lit "//"] })
  Stores := GoMap.empty
  Documents := GoMap.empty
  Excludes := GoMap.empty
  Includes := GoMap.empty
  MaxFileSize := 0

/-! ## Auxiliary notions for the normalization -/

/-- The body of the loop of `processDetailedFilter`. -/
def detailedStep (filterMap : AList (fun _ : GoString => List GoString))
    (rule : Value × Value) : Except Panic (AList (fun _ : GoString => List GoString)) :=
  match rule.2 with
  | .list detailsSlice =>
    match rule.1 with
    | .str filename => .ok (filterMap.insert filename (wordlistOf detailsSlice))
    | _ => .error .typeAssertion
  | _ => .ok filterMap

/-- The body of the loop of `processFilter`. -/
def filterStep (acc : AList (fun _ : GoString => Value)) (e : (_ : GoString) × Value) :
    Except Panic (AList (fun _ : GoString => Value)) :=
  match e.2 with
  | Value.list v =>
    Except.ok (acc.insert e.1 (Value.filter (GoMap.made (processSimpleFilter v))))
  | Value.dict v =>
    (processDetailedFilter v).map (fun m => acc.insert e.1 (Value.filter (GoMap.made m)))
  | _ => Except.ok acc

/-- What `processFilter` leaves under a key that held the value `v`: the normal form of a
list or of a mapping, and any other value as it is. -/
def normalized (v : Value) : Except Panic Value :=
  match v with
  | Value.list rules => Except.ok (Value.filter (GoMap.made (processSimpleFilter rules)))
  | Value.dict rules =>
    (processDetailedFilter rules).map (fun m => Value.filter (GoMap.made m))
  | other => Except.ok other

/-- The pair has a string as its key, or its value is not a list. -/
def stringKeyedRule (rule : Value × Value) : Bool :=
  match rule.2, rule.1 with
  | .list _, .str _ => true
  | .list _, _ => false
  | _, _ => true

/-- Every pair of the mapping whose value is a list has a string as its key. -/
def stringKeyed (pairs : List (Value × Value)) : Bool :=
  pairs.all stringKeyedRule

/-- Every rule-set of the map that is a mapping is string-keyed. -/
def stringKeyedSets (filter : GoMap Value) : Bool :=
  filter.entries.all
    (fun e =>
      match e.2 with
      | .dict pairs => stringKeyed pairs
      | _ => true)

/-- The dynamic type of the value is `string`. -/
def Value.isStr : Value → Bool
  | .str _ => true
  | _ => false

/-- The value is nil or a scalar of the YAML decoder: neither a list nor a mapping. -/
def Value.isScalar : Value → Bool
  | .null => true
  | .bool _ => true
  | .int _ => true
  | .float _ => true
  | .str _ => true
  | _ => false

/-- The raw list `["a.txt", "b.txt"]`. -/
def abList : List Value :=
  [Value.str (lit "a.txt"), Value.str (lit "b.txt")]

/-- The raw mapping `{"c.txt": ["TODO", 7], "d.txt": [7]}`. -/
def todoRules : List (Value × Value) :=
  [(Value.str (lit "c.txt"), Value.list [Value.str (lit "TODO"), Value.int 7]),
   (Value.str (lit "d.txt"), Value.list [Value.int 7])]

/-- A world in which `src/c.txt` and `src/d.txt` can be read, neither holding `TODO`. -/
def plainWorld : World where
  readFile := fun path =>
    if path = lit "src/c.txt" ∨ path = lit "src/d.txt" then some (lit "nothing to do") else none
  mapLower := fun s => s

/-- The configuration decoded from `excludes: {locc: {1: ["TODO"]}}`: a mapping rule-set
with a number as key. -/
def numberKeyConfig : Config where
  Languages := GoMap.empty
  Stores := GoMap.empty
  Documents := GoMap.empty
  Excludes :=
    GoMap.made ((∅ : AList (fun _ : GoString => Value)).insert (lit "locc")
      (Value.dict [(Value.int 1, Value.list [Value.str (lit "TODO")])]))
  Includes := GoMap.empty
  MaxFileSize := 0

/-- A configuration with raw rule-sets of several shapes: under `Go` a list with a number
in it, under `locc` a mapping with a number key on a scalar and a string key on a scalar,
under `C` a scalar string, under `Rust` null; and an include list. -/
def shapesConfig : Config where
  Languages := GoMap.empty
  Stores := GoMap.empty
  Documents := GoMap.empty
  Excludes :=
    GoMap.made (((((∅ : AList (fun _ : GoString => Value)).insert (lit "Go")
      (Value.list [Value.str (lit "a.txt"), Value.int 3])).insert (lit "locc")
      (Value.dict
        [(Value.str (lit "c.txt"), Value.list [Value.str (lit "TODO")]),
         (Value.int 5, Value.str (lit "x")),
         (Value.str (lit "e.txt"), Value.str (lit "y"))])).insert (lit "C")
      (Value.str (lit "vendor"))).insert (lit "Rust") Value.null)
  Includes :=
    GoMap.made ((∅ : AList (fun _ : GoString => Value)).insert (lit "locc")
      (Value.list [Value.str (lit "keep.txt")]))
  MaxFileSize := 0

/-- The configuration decoded from `excludes: {locc: ["src/gen/main.go", "gen.go"]}`, Go
as its language. -/
def pathExcludeConfig : Config where
  Languages :=
    GoMap.made ((∅ : AList (fun _ : GoString => LanguageConfig)).insert (lit "Go")
      { Extensions := [lit ".go"], Comment := [lit "//"] })
  Stores := GoMap.empty
  Documents := GoMap.empty
  Excludes :=
    GoMap.made ((∅ : AList (fun _ : GoString => Value)).insert (lit "locc")
      (Value.list [Value.str (lit "src/gen/main.go"), Value.str (lit "gen.go")]))
  Includes := GoMap.empty
  MaxFileSize := 0

/-! ## The counting pass (root.go) -/

/-- What `filepath.Walk` finds at a path: a file with its size, a directory with its
entries in the order of the walk, or an entry that cannot be examined (`Lstat` fails, or
it is a directory that cannot be listed), for which the callback receives the error. -/
inductive FileTree where
  | file (name : GoString) (size : Int) : FileTree
  | dir (name : GoString) (children : List FileTree) : FileTree
  | failed (name : GoString) : FileTree

/-- The name of an entry. -/
def FileTree.name : FileTree → GoString
  | .file name _ => name
  | .dir name _ => name
  | .failed name => name

/-- Go `filepath.Join(dir, name)` for a clean directory path and the name of an entry. -/
def joinPath (dir name : GoString) : GoString :=
  if hasSuffix dir (lit "/") then dir ++ name else dir ++ lit "/" ++ name

/-- Go `filepath.Rel(base, target)` on the paths that the walk passes, which are the base
or lie under it: `.` for the base itself, otherwise what follows the base and its slash. -/
def filepathRel (base target : GoString) : GoString :=
  if target = base then lit "."
  else
    let pre := if hasSuffix base (lit "/") then base else base ++ lit "/"
    if hasPrefix target pre then target.drop pre.length else []

/-- Go `fmt` verb `%d` on a number that is not negative. -/
def decimal (n : Nat) : GoString :=
  (Nat.toDigits 10 n).map Char.toNat

/-- The flag variables of the package (root.go). -/
structure Flags where
  outputFile : GoString
  enableStores : Bool
  enableDocuments : Bool
  verbose : Bool

/-- What the operating system answers during the counting pass. -/
structure Disk where
  /-- Go `os.Getwd`: the working directory, `none` when the call fails. -/
  getwd : Option GoString
  /-- What `filepath.Walk` finds at the working directory. -/
  tree : FileTree
  /-- Go `os.WriteFile`: whether writing the data under the name succeeds. -/
  writeFile : GoString → GoString → Bool

/-- The errors that `countLinesOfCode` returns. -/
inductive RunError where
  | getwd
  | buildFileList
  | readFile (path : GoString)
  | writeOutput
  deriving DecidableEq, Repr

mutual
/-- `filepath.Walk` at one entry with the callback of `buildFileList`: an error stops the
walk, a file is appended when `shouldIncludeFile` selects it, a directory is skipped with
its subtree (`filepath.SkipDir`) when `shouldExcludeDir` says so and walked otherwise. -/
def walkTree (w : World) (flags : Flags) (config : Config) (rootDir : GoString) :
    GoString → FileTree → List GoString → Except RunError (List GoString)
  | _, .failed _, _ => .error .buildFileList
  | path, .file _ size, filesToProcess =>
    if shouldIncludeFile w config (filepathRel rootDir path) size flags.enableStores
        flags.enableDocuments then
      .ok (filesToProcess ++ [path])
    else .ok filesToProcess
  | path, .dir _ children, filesToProcess =>
    if shouldExcludeDir config (filepathRel rootDir path) then .ok filesToProcess
    else walkChildren w flags config rootDir path children filesToProcess
/-- The walk over the entries of a directory, in order. -/
def walkChildren (w : World) (flags : Flags) (config : Config) (rootDir : GoString) :
    GoString → List FileTree → List GoString → Except RunError (List GoString)
  | _, [], filesToProcess => .ok filesToProcess
  | path, child :: rest, filesToProcess =>
    match walkTree w flags config rootDir (joinPath path child.name) child filesToProcess with
    | .error e => .error e
    | .ok more => walkChildren w flags config rootDir path rest more
end

/-- Go `buildFileList` (root.go): the paths of the selected files, in the order of the
walk. -/
def buildFileList (w : World) (flags : Flags) (tree : FileTree) (config : Config)
    (rootDir : GoString) : Except RunError (List GoString) :=
  walkTree w flags config rootDir rootDir tree []

/-- The record `fmt.Sprintf("%s,%s,%d\n", relPath, lang, lineCount)`. -/
def formatRecord (relPath lang : GoString) (lineCount : Nat) : GoString :=
  relPath ++ lit "," ++ lang ++ lit "," ++ decimal lineCount ++ lit "\n"

/-- The local variables of `countLinesOfCode` and what it has printed.  The counts are
far below the range of the Go type `int` and are kept as natural numbers. -/
structure Report where
  totalLines : Nat
  output : GoString
  stdout : GoString
  written : Option (GoString × GoString)

/-- The body of the loop of `countLinesOfCode` for one path of the work list. -/
def countFile (w : World) (flags : Flags) (config : Config)
    (enableStores enableDocuments : Bool) (cwd : GoString) (st : Report) (path : GoString) :
    Except RunError Report :=
  let relPath := filepathRel cwd path
  let lang := (detectLanguage w path config enableStores enableDocuments).1
  if lang = [] then .ok st
  else
    match w.readFile path with
    | none => .error (.readFile path)
    | some content =>
      let lineCount := countNonEmptyLines content
      .ok
        { st with
          totalLines := st.totalLines + lineCount,
          stdout :=
            if flags.verbose then
              st.stdout ++ (lit "File: " ++ relPath ++ lit ", Language: " ++ lang
                ++ lit ", Lines: " ++ decimal lineCount ++ lit "\n")
            else st.stdout,
          output := st.output ++ formatRecord relPath lang lineCount }

/-- Go `countLinesOfCode` (root.go).  On success the result holds the final values of
`totalLines` and `output`, what was printed, and the file written if any; on failure only
the error is kept. -/
def countLinesOfCode (w : World) (d : Disk) (flags : Flags) (config : Config)
    (enableStores enableDocuments : Bool) : Except RunError Report :=
  match d.getwd with
  | none => .error .getwd
  | some cwd =>
    match buildFileList w flags d.tree config cwd with
    | .error _ => .error .buildFileList
    | .ok filesToProcess =>
      match filesToProcess.foldlM (countFile w flags config enableStores enableDocuments cwd)
          { totalLines := 0, output := [], stdout := [], written := none } with
      | .error e => .error e
      | .ok st =>
        let printed := st.stdout ++ (lit "Total lines of code: " ++ decimal st.totalLines
          ++ lit "\n")
        if flags.outputFile ≠ [] then
          if d.writeFile flags.outputFile st.output then
            .ok
              { st with
                stdout := printed ++ (lit "Output written to " ++ flags.outputFile ++ lit "\n"),
                written := some (flags.outputFile, st.output) }
          else .error .writeOutput
        else .ok { st with stdout := printed }

/-- A world in which `/work/Makefile` and `/work/main.go` can be read. -/
def workWorld : World where
  readFile := fun path =>
    if path = lit "/work/Makefile" then some (lit "all:\n\tgo build\n")
    else if path = lit "/work/main.go" then some (lit "package main\n\nfunc main() {}\n")
    else none
  mapLower := fun s => s

/-- The working directory `/work` with the files `Makefile` and `main.go`. -/
def workDisk : Disk where
  getwd := some (lit "/work")
  tree := FileTree.dir (lit "work") [FileTree.file (lit "Makefile") 18, FileTree.file (lit "main.go") 30]
  writeFile := fun _ _ => true

/-- Flags at their default values: no output file, no toggle, not verbose. -/
def defaultFlags : Flags where
  outputFile := []
  enableStores := false
  enableDocuments := false
  verbose := false

/-- A normalized configuration with Go as its language and the global include rule
`Makefile`. -/
def makefileConfig : Config where
  Languages :=
    GoMap.made ((∅ : AList (fun _ : GoString => LanguageConfig)).insert (lit "Go")
      { Extensions := [lit ".go"], Comment := [lit "//"] })
  Stores := GoMap.empty
  Documents := GoMap.empty
  Excludes := GoMap.empty
  Includes :=
    GoMap.made ((∅ : AList (fun _ : GoString => Value)).insert (lit "locc")
      (Value.filter (GoMap.made ((∅ : AList (fun _ : GoString => List GoString)).insert
        (lit "Makefile") []))))
  MaxFileSize := 0

mutual
/-- The walk meets no entry that cannot be examined anywhere in the tree. -/
def FileTree.readable : FileTree → Bool
  | .failed _ => false
  | .file _ _ => true
  | .dir _ children => readableAll children
/-- Every tree of the list is readable. -/
def readableAll : List FileTree → Bool
  | [] => true
  | child :: rest => child.readable && readableAll rest
end

mutual
/-- The files that `filepath.Walk` passes to the callback at and below an entry, each with
its path and its size, in the order of the walk: all files of the tree, except those that
lie in a directory for which `skip` holds, which the walk does not enter. -/
def visitedFiles (skip : GoString → Bool) : GoString → FileTree → List (GoString × Int)
  | _, .failed _ => []
  | path, .file _ size => [(path, size)]
  | path, .dir _ children => if skip path then [] else visitedChildren skip path children
/-- The same for the entries of a directory. -/
def visitedChildren (skip : GoString → Bool) :
    GoString → List FileTree → List (GoString × Int)
  | _, [] => []
  | path, child :: rest =>
    visitedFiles skip (joinPath path child.name) child ++ visitedChildren skip path rest
end

/-- The files that the walk of `buildFileList` meets under the root directory: those of
the tree that do not lie in a directory excluded by `shouldExcludeDir`. -/
def walkedFiles (config : Config) (rootDir : GoString) (tree : FileTree) :
    List (GoString × Int) :=
  visitedFiles (fun path => shouldExcludeDir config (filepathRel rootDir path)) rootDir tree

/-- A world in which `/work/main.go`, `/work/sub/b.go` and `/work/sub/Makefile` can be
read. -/
def nestedWorld : World where
  readFile := fun path =>
    if path = lit "/work/main.go" then some (lit "package main\n\nfunc main() {}\n")
    else if path = lit "/work/sub/b.go" then some (lit "package sub\n")
    else if path = lit "/work/sub/Makefile" then some (lit "all:\n\tgo build\n")
    else none
  mapLower := fun s => s

/-- The working directory `/work` with the file `main.go` and the directory `sub`, which
holds `b.go` and `Makefile`. -/
def nestedDisk : Disk where
  getwd := some (lit "/work")
  tree :=
    FileTree.dir (lit "work")
      [FileTree.file (lit "main.go") 30,
        FileTree.dir (lit "sub") [FileTree.file (lit "b.go") 12, FileTree.file (lit "Makefile") 18]]
  writeFile := fun _ _ => true

/-- The sample tables with, besides, an exclude rule-set for the language Go that names
`main.go` and an include rule-set for the store JSON. -/
def keyedConfig : Config where
  Languages := tablesConfig.Languages
  Stores := tablesConfig.Stores
  Documents := tablesConfig.Documents
  Excludes :=
    GoMap.made ((∅ : AList (fun _ : GoString => Value)).insert (lit "Go")
      (Value.filter (GoMap.made ((∅ : AList (fun _ : GoString => List GoString)).insert
        (lit "main.go") []))))
  Includes :=
    GoMap.made ((∅ : AList (fun _ : GoString => Value)).insert (lit "JSON")
      (Value.filter (GoMap.made ((∅ : AList (fun _ : GoString => List GoString)).insert
        (lit "data.json") []))))
  MaxFileSize := 0

/-- The sample tables with the two stores enumerated in the other order. -/
def tablesConfigReordered : Config where
  Languages := tablesConfig.Languages
  Stores :=
    GoMap.made (((∅ : AList (fun _ : GoString => LanguageConfig)).insert (lit "Templates")
      { Extensions := [lit ".go"], Comment := [lit "#"] }).insert (lit "JSON")
      { Extensions := [lit ".json"], Comment := [] })
  Documents := tablesConfig.Documents
  Excludes := GoMap.empty
  Includes := GoMap.empty
  MaxFileSize := 0

/-- The dynamic type of the value is one of the two that `processFilter` rewrites:
`[]interface{}` or `map[interface{}]interface{}`. -/
def Value.isListOrDict : Value → Bool
  | .list _ => true
  | .dict _ => true
  | _ => false

/-! ## The files of the configuration: `runInit` and the loaders -/

/-- The three outcomes of `os.Stat(path)` that the program tells apart: `err == nil`, an
error for which `os.IsNotExist(err)` holds, any other error. -/
inductive StatResult where
  | found
  | notExist
  | failed
  deriving DecidableEq, Repr

/-- What the operating system answers to `runInit` and to the loaders: the outcome of
`os.Stat` at a path, what `os.ReadFile` reads there (`none` when the read fails), and
whether `os.WriteFile(path, data, 0644)` returns without error. What a write does to the
file system is the business of the operating system and is not modelled: the functions
below report the calls of `os.WriteFile` that they make. -/
structure FileSystem where
  stat : GoString → StatResult
  readFile : GoString → Option GoString
  writeFile : GoString → GoString → Bool

/-- The errors that `runInit` returns. The first carries its whole message; the messages of
the other two end with the text of the error they wrap. -/
inductive InitError where
  | alreadyExists (message : GoString)
  | readTemplate
  | writeFailed
  deriving DecidableEq, Repr

/-- What a call of `runInit` leaves: the error it returns (`none` for nil), the calls of
`os.WriteFile` it made, each with the path and the data passed, and what it printed on
standard output. `runInit` makes no other call that changes the file system. -/
structure InitResult where
  err : Option InitError
  writes : List (GoString × GoString)
  stdout : GoString

/-- Go `runInit` (root.go). `template` is what `defaultLocalConfig.ReadFile` returns for the
embedded `default_local_config.yaml`, `none` when that read fails. -/
def runInit (template : Option GoString) (fs : FileSystem) (filename : GoString) :
    InitResult :=
  match fs.stat filename with
  | .found =>
    { err := some (.alreadyExists (lit "local config file already exists at " ++ filename))
      writes := []
      stdout := [] }
  | _ =>
    match template with
    | none => { err := some .readTemplate, writes := [], stdout := [] }
    | some defaultLocalConfigContent =>
      if fs.writeFile filename defaultLocalConfigContent then
        { err := none
          writes := [(filename, defaultLocalConfigContent)]
          stdout :=
            lit "Successfully initialized local configuration file at " ++ filename
              ++ lit "\n" }
      else
        { err := some .writeFailed
          writes := [(filename, defaultLocalConfigContent)]
          stdout := [] }

/-- The YAML library, which is not part of the program: `unmarshal data` is the `Config`
that `yaml.Unmarshal(data, &config)` leaves in a zero `config` (`none` when it returns an
error), `marshal` is `yaml.Marshal` on a `*Config`. -/
structure Yaml where
  unmarshal : GoString → Option Config
  marshal : Config → Option GoString

/-- The errors that the loaders return, one for each `return nil, ...` statement. -/
inductive LoadError where
  | readGlobal
  | parseGlobal
  | readDefault
  | parseDefault
  | marshalDefault
  | writeDefault
  | stat
  | readLocal
  | parseLocal
  deriving DecidableEq, Repr

/-- The statement `if m == nil { m = make(map[string]V) }`. -/
def GoMap.orEmpty {V : Type} : GoMap V → GoMap V
  | .nil => GoMap.empty
  | .made cells => .made cells

/-- The five statements under the comment "Initialize maps if they are nil", which stand in
`loadGlobalConfig` (branch of the existing file) and in `loadLocalConfig`. -/
def fillNilMaps (config : Config) : Config :=
  { Languages := config.Languages.orEmpty
    Stores := config.Stores.orEmpty
    Documents := config.Documents.orEmpty
    Excludes := config.Excludes.orEmpty
    Includes := config.Includes.orEmpty
    MaxFileSize := config.MaxFileSize }

/-- Go `retrieveDefaultConfig` (config.go). `template` is what `defaultConfig.ReadFile`
returns for the embedded `default_config.yaml`, `none` when that read fails. -/
def retrieveDefaultConfig (yaml : Yaml) (template : Option GoString) :
    Except LoadError Config :=
  match template with
  | none => .error .readDefault
  | some defaultConfigContent =>
    match yaml.unmarshal defaultConfigContent with
    | none => .error .parseDefault
    | some config => .ok config

/-- Go `loadGlobalConfig` (config.go), with the calls of `os.WriteFile` it made.
`globalConfigPath` is what `getGlobalConfigPath()` returns; that call ends the process when
the home directory is not known, and then `loadGlobalConfig` returns nothing. -/
def loadGlobalConfig (yaml : Yaml) (template : Option GoString) (fs : FileSystem)
    (globalConfigPath : GoString) : Except LoadError Config × List (GoString × GoString) :=
  match fs.stat globalConfigPath with
  | .found =>
    match fs.readFile globalConfigPath with
    | none => (.error .readGlobal, [])
    | some globalConfigData =>
      match yaml.unmarshal globalConfigData with
      | none => (.error .parseGlobal, [])
      | some config => (.ok (fillNilMaps config), [])
  | .notExist =>
    match retrieveDefaultConfig yaml template with
    | .error err => (.error err, [])
    | .ok defaultConfig =>
      match yaml.marshal defaultConfig with
      | none => (.error .marshalDefault, [])
      | some defaultConfigData =>
        if fs.writeFile globalConfigPath defaultConfigData then
          (.ok defaultConfig, [(globalConfigPath, defaultConfigData)])
        else (.error .writeDefault, [(globalConfigPath, defaultConfigData)])
  | .failed => (.error .stat, [])

/-- Go `loadLocalConfig` (config.go): `ok none` is the return `nil, nil` for a file that
`os.Stat` does not find. -/
def loadLocalConfig (yaml : Yaml) (fs : FileSystem) (filename : GoString) :
    Except LoadError (Option Config) :=
  let localConfigPath := if filename ≠ [] then filename else lit "./.locc.yaml"
  match fs.stat localConfigPath with
  | .found =>
    match fs.readFile localConfigPath with
    | none => .error .readLocal
    | some localConfigData =>
      match yaml.unmarshal localConfigData with
      | none => .error .parseLocal
      | some localConfig => .ok (some (fillNilMaps localConfig))
  | _ => .ok none

/-- A file system without any file, in which every write succeeds. -/
def freshFs : FileSystem where
  stat := fun _ => StatResult.notExist
  readFile := fun _ => none
  writeFile := fun _ _ => true

/-- A file system without any file, in which every write fails (a directory that is
read-only, say). -/
def lockedFs : FileSystem where
  stat := fun _ => StatResult.notExist
  readFile := fun _ => none
  writeFile := fun _ _ => false

/-- A file system that holds a local configuration at `./.locc.yaml` and a note. -/
def projectFs : FileSystem where
  stat := fun p =>
    if p = lit "./.locc.yaml" ∨ p = lit "./notes.md" then StatResult.found
    else StatResult.notExist
  readFile := fun p =>
    if p = lit "./.locc.yaml" then some (lit "max_file_size: 5\n")
    else if p = lit "./notes.md" then some (lit "# notes\n")
    else none
  writeFile := fun _ _ => true

/-- A file system in which the global configuration file `/home/u/.locc.yaml` exists and
holds the given bytes. -/
def homeFs (content : GoString) : FileSystem where
  stat := fun p =>
    if p = lit "/home/u/.locc.yaml" then StatResult.found else StatResult.notExist
  readFile := fun p => if p = lit "/home/u/.locc.yaml" then some content else none
  writeFile := fun _ _ => true

/-- A default local template. -/
def sampleLocalTemplate : GoString :=
  lit "excludes:\n  locc:\n    - vendor/\n"

/-- A default global template in the shape that the specification describes: tables,
excludes and a size limit, no `includes` key. -/
def seedTemplate : GoString :=
  lit "languages:\n  Go:\n    extensions: [\".go\"]\n    comment: [\"//\"]\nstores: {}\ndocuments: {}\nexcludes:\n  locc: [\"vendor/\"]\nmax_file_size: 1000\n"

/-- The configuration that the YAML decoder makes of `seedTemplate`: the mappings that
the document names are made, `Includes`, which it does not name, stays nil. -/
def seedConfig : Config where
  Languages :=
    GoMap.made ((∅ : AList (fun _ : GoString => LanguageConfig)).insert (lit "Go")
      { Extensions := [lit ".go"], Comment := [lit "//"] })
  Stores := GoMap.empty
  Documents := GoMap.empty
  Excludes :=
    GoMap.made ((∅ : AList (fun _ : GoString => Value)).insert (lit "locc")
      (Value.list [Value.str (lit "vendor/")]))
  Includes := GoMap.nil
  MaxFileSize := 1000

/-- The document that the YAML encoder writes for `seedConfig`: the nil mapping comes out as
an empty one. -/
def seedDocument : GoString :=
  lit "languages:\n  Go:\n    extensions:\n    - .go\n    comment:\n    - //\nstores: {}\ndocuments: {}\nexcludes:\n  locc:\n  - vendor/\nincludes: {}\nmax_file_size: 1000\n"

/-- A stand-in for the YAML library on the documents of the examples: it decodes
`seedTemplate` to `seedConfig`, the document `max_file_size: 5` to a configuration with
five nil mappings, rejects every other document, and encodes every configuration as
`seedDocument`. -/
def sampleYaml : Yaml where
  unmarshal := fun data =>
    if data = seedTemplate then some seedConfig
    else if data = lit "max_file_size: 5\n" then
      some
        { Languages := GoMap.nil, Stores := GoMap.nil, Documents := GoMap.nil
          Excludes := GoMap.nil, Includes := GoMap.nil, MaxFileSize := 5 }
    else none
  marshal := fun _ => some seedDocument

/-! # Theorems -/

/-! ## Lemmas on the string functions -/

theorem lit_slash : lit "/" = [47] := by decide

theorem hasSuffix_slash_iff (pattern : GoString) :
    hasSuffix pattern (lit "/") = true ↔ ∃ stem, pattern = stem ++ [47] := by
  rw [lit_slash]
  unfold hasSuffix
  rw [List.isSuffixOf_iff_suffix]
  constructor
  · rintro ⟨t, ht⟩
    exact ⟨t, ht.symm⟩
  · rintro ⟨t, ht⟩
    exact ⟨t, ht.symm⟩

theorem trimSuffix_slash (stem : GoString) : trimSuffix (stem ++ [47]) (lit "/") = stem := by
  have h : hasSuffix (stem ++ [47]) (lit "/") = true :=
    (hasSuffix_slash_iff _).2 ⟨stem, rfl⟩
  unfold trimSuffix
  rw [if_pos h, lit_slash]
  simp

theorem contains_iff (s sub : GoString) : contains s sub = true ↔ sub <:+: s := by
  unfold contains
  rw [List.any_eq_true]
  constructor
  · rintro ⟨t, ht, hp⟩
    rw [List.isPrefixOf_iff_prefix] at hp
    exact List.infix_iff_prefix_suffix.2 ⟨t, hp, (List.mem_tails _ _).1 ht⟩
  · intro h
    obtain ⟨t, hp, hs⟩ := List.infix_iff_prefix_suffix.1 h
    exact ⟨t, (List.mem_tails _ _).2 hs, List.isPrefixOf_iff_prefix.2 hp⟩

theorem not_slash_end (pattern : GoString) (h : pattern.getLast? ≠ some 47) :
    ¬ ∃ stem, pattern = stem ++ lit "/" := by
  rintro ⟨stem, hs⟩
  apply h
  rw [hs, lit_slash]
  simp

theorem matchesExclusion_dir (stem path : GoString) :
    matchesExclusion (stem ++ [47]) path = true ↔ (stem ++ [47]) <+: path ∨ path = stem := by
  have h : hasSuffix (stem ++ [47]) (lit "/") = true :=
    (hasSuffix_slash_iff _).2 ⟨stem, rfl⟩
  unfold matchesExclusion
  rw [if_pos h, trimSuffix_slash, Bool.or_eq_true, beq_iff_eq]
  unfold hasPrefix
  rw [List.isPrefixOf_iff_prefix]

theorem matchesExclusion_file (pattern path : GoString)
    (h : ¬ ∃ stem, pattern = stem ++ [47]) :
    matchesExclusion pattern path = true ↔ path = pattern := by
  have h1 : ¬ hasSuffix pattern (lit "/") = true := fun hs => h ((hasSuffix_slash_iff _).1 hs)
  unfold matchesExclusion
  rw [if_neg h1, beq_iff_eq]
  exact eq_comm

/-- C6. `matchesExclusion`: a pattern that ends in a slash matches the paths that start
with it and the path equal to the pattern without its last slash; a pattern without a
trailing slash matches the path equal to it and no other.  So `vendor/` matches `vendor`
and `vendor/pkg/x.go`, and `main.go` matches no path of which it is a proper prefix. -/
theorem matchesExclusion_spec (pattern path : GoString) :
    (∀ stem, pattern = stem ++ lit "/" →
        (matchesExclusion pattern path = true ↔ pattern <+: path ∨ path = stem))
    ∧ ((¬ ∃ stem, pattern = stem ++ lit "/") →
        (matchesExclusion pattern path = true ↔ path = pattern))
    ∧ matchesExclusion (lit "vendor/") (lit "vendor") = true
    ∧ matchesExclusion (lit "vendor/") (lit "vendor/pkg/x.go") = true
    ∧ (lit "main.go" <+: path → path ≠ lit "main.go" →
        matchesExclusion (lit "main.go") path = false) := by
  refine ⟨?_, ?_, by decide, by decide, ?_⟩
  · intro stem hp
    rw [lit_slash] at hp
    subst hp
    exact matchesExclusion_dir stem path
  · intro h
    rw [lit_slash] at h
    exact matchesExclusion_file pattern path h
  · intro _ hne
    have hno : ¬ ∃ stem, lit "main.go" = stem ++ [47] := by
      have := not_slash_end (lit "main.go") (by decide)
      rwa [lit_slash] at this
    have := matchesExclusion_file (lit "main.go") path hno
    cases hm : matchesExclusion (lit "main.go") path
    · rfl
    · exact absurd (this.1 hm) hne

/-- Witness for C6: the patterns `vendor/` and `main.go` on concrete paths. -/
theorem matchesExclusion_spec_witness :
    (matchesExclusion (lit "vendor/") (lit "vendor/pkg") = true ↔
        lit "vendor/" <+: lit "vendor/pkg" ∨ lit "vendor/pkg" = lit "vendor")
    ∧ (matchesExclusion (lit "main.go") (lit "main.go") = true ↔ lit "main.go" = lit "main.go")
    ∧ matchesExclusion (lit "main.go") (lit "main.go.bak") = false :=
  ⟨(matchesExclusion_spec (lit "vendor/") (lit "vendor/pkg")).1 (lit "vendor") (by decide),
   (matchesExclusion_spec (lit "main.go") (lit "main.go")).2.1 
      (not_slash_end _ (by decide)),
   (matchesExclusion_spec (lit "main.go") (lit "main.go.bak")).2.2.2.2 (by decide) (by decide)⟩

/-- C7. `matchesFilter` on a normalized filter is true exactly when the file name is a
key of the filter and either the word list of that key is empty or the file at the path
can be read and its content holds one of the listed words as a substring; when the word
list is not empty and the read fails the result is false.  The function returns a plain
boolean: a failed read raises no error. -/
theorem matchesFilter_normalized (w : World) (m : GoMap (List GoString))
    (fileName relPath : GoString) :
    (matchesFilter w (Value.filter m) fileName relPath = true ↔
      ∃ wordlist, m.get? fileName = some wordlist ∧
        (wordlist = [] ∨
          ∃ content, w.readFile relPath = some content ∧
            ∃ word ∈ wordlist, word <:+: content))
    ∧ (∀ wordlist, m.get? fileName = some wordlist → wordlist ≠ [] →
        w.readFile relPath = none →
        matchesFilter w (Value.filter m) fileName relPath = false) := by
  constructor
  · cases hk : m.get? fileName with
    | none => simp [matchesFilter, hk]
    | some wordlist =>
      simp only [matchesFilter, hk, Option.some.injEq, exists_eq_left']
      by_cases hw : wordlist = []
      · simp [hw]
      · have hlen : ¬ wordlist.length = 0 := fun h => hw (List.length_eq_zero.1 h)
        rw [if_neg hlen]
        cases hr : w.readFile relPath with
        | none => simp [hw]
        | some content =>
          simp only [hw, false_or, Option.some.injEq, exists_eq_left', List.any_eq_true,
            contains_iff]
  · intro wordlist hk hw hr
    have hlen : ¬ wordlist.length = 0 := fun h => hw (List.length_eq_zero.1 h)
    simp [matchesFilter, hk, hlen, hr]

/-- Witness for C7: in the sample world, `c.txt` at the readable path `src/c.txt` matches
through its word `TODO`, and `d.txt` at a path that cannot be read does not match. -/
theorem matchesFilter_normalized_witness :
    matchesFilter sampleWorld (Value.filter sampleFilter) (lit "c.txt") (lit "src/c.txt") = true
    ∧ matchesFilter sampleWorld (Value.filter sampleFilter) (lit "d.txt") (lit "src/d.txt")
        = false :=
  ⟨(matchesFilter_normalized sampleWorld sampleFilter (lit "c.txt") (lit "src/c.txt")).1.2
      ⟨[lit "TODO"], by decide,
        Or.inr ⟨lit "fix: TODO later", by decide, lit "TODO", by decide, by decide⟩⟩,
   (matchesFilter_normalized sampleWorld sampleFilter (lit "d.txt") (lit "src/d.txt")).2
      [lit "TODO"] (by decide) (by decide) (by decide)⟩

/-- C2. A file that passes the size check and that the global (`locc`) include rule-set
matches is included, whatever the exclude rule-sets hold: the include rules are evaluated
before the exclude rules. -/
theorem shouldIncludeFile_global_include (w : World) (config : Config) (relPath : GoString)
    (size : Int) (enableStores enableDocuments : Bool) (globalIncludes : Value)
    (hsize : ¬ (config.MaxFileSize > 0 ∧ size > config.MaxFileSize))
    (hset : config.Includes.get? (lit "locc") = some globalIncludes)
    (hmatch : matchesFilter w globalIncludes (filepathBase relPath) relPath = true) :
    shouldIncludeFile w config relPath size enableStores enableDocuments = true := by
  unfold shouldIncludeFile
  rw [if_neg hsize]
  simp only [hset, hmatch, if_true]

/-- Witness for C2: in the sample configuration `x.go` is named by the global include
rule-set and by the global exclude rule-set, and it is included. -/
theorem shouldIncludeFile_global_include_witness :
    (match sampleConfig.Excludes.get? (lit "locc") with
      | some globalExcludes =>
        matchesFilter sampleWorld globalExcludes (filepathBase (lit "src/x.go")) (lit "src/x.go")
      | none => false) = true
    ∧ shouldIncludeFile sampleWorld sampleConfig (lit "src/x.go") 100 false false = true :=
  ⟨by decide,
   shouldIncludeFile_global_include sampleWorld sampleConfig (lit "src/x.go") 100 false false
    (Value.filter (GoMap.made ((∅ : AList (fun _ : GoString => List GoString)).insert
      (lit "x.go") [])))
    (by decide) rfl (by decide)⟩

/-- C3. With a positive `maxFileSize`, a file whose size exceeds it is excluded, whatever
its type and the include rules; a file whose size does not exceed it gets the decision it
would get without any limit; and with `maxFileSize` zero the decision is the same for all
sizes. -/
theorem shouldIncludeFile_size (w : World) (config : Config) (relPath : GoString)
    (size : Int) (enableStores enableDocuments : Bool) :
    (0 < config.MaxFileSize → config.MaxFileSize < size →
      shouldIncludeFile w config relPath size enableStores enableDocuments = false)
    ∧ (size ≤ config.MaxFileSize →
      shouldIncludeFile w config relPath size enableStores enableDocuments =
        shouldIncludeFile w { config with MaxFileSize := 0 } relPath size
          enableStores enableDocuments)
    ∧ (config.MaxFileSize = 0 → ∀ size2 : Int,
      shouldIncludeFile w config relPath size enableStores enableDocuments =
        shouldIncludeFile w config relPath size2 enableStores enableDocuments) := by
  refine ⟨?_, ?_, ?_⟩
  · intro hpos hgt
    unfold shouldIncludeFile
    rw [if_pos ⟨hpos, hgt⟩]
  · intro hle
    have h1 : ¬ (config.MaxFileSize > 0 ∧ size > config.MaxFileSize) :=
      fun h => absurd hle (not_le.2 h.2)
    have h2 : ¬ ((0 : Int) > 0 ∧ size > 0) := fun h => absurd h.1 (lt_irrefl 0)
    unfold shouldIncludeFile
    rw [if_neg h1, if_neg h2]
    rfl
  · intro hzero size2
    have h1 : ∀ s : Int, ¬ (config.MaxFileSize > 0 ∧ s > config.MaxFileSize) := by
      intro s h
      rw [hzero] at h
      exact absurd h.1 (lt_irrefl 0)
    unfold shouldIncludeFile
    rw [if_neg (h1 size), if_neg (h1 size2)]

/-- Witness for C3: with a limit of 100 bytes, `x.go` of 101 bytes is excluded although
the global include rule-set names it, and at 100 bytes it is decided as without limit;
without limit, sizes 5 and 5000000 give the same decision. -/
theorem shouldIncludeFile_size_witness :
    shouldIncludeFile sampleWorld sampleConfig (lit "src/x.go") 101 false false = false
    ∧ shouldIncludeFile sampleWorld sampleConfig (lit "src/x.go") 100 false false =
        shouldIncludeFile sampleWorld { sampleConfig with MaxFileSize := 0 } (lit "src/x.go") 100
          false false
    ∧ shouldIncludeFile sampleWorld plainConfig (lit "main.go") 5 false false =
        shouldIncludeFile sampleWorld plainConfig (lit "main.go") 5000000 false false :=
  ⟨(shouldIncludeFile_size sampleWorld sampleConfig (lit "src/x.go") 101 false false).1
      (by decide) (by decide),
   (shouldIncludeFile_size sampleWorld sampleConfig (lit "src/x.go") 100 false false).2.1
      (by decide),
   (shouldIncludeFile_size sampleWorld plainConfig (lit "main.go") 5 false false).2.2
      (by decide) 5000000⟩

theorem plainConfig_includes (k : GoString) : plainConfig.Includes.get? k = none := rfl

theorem plainConfig_excludes_locc :
    plainConfig.Excludes.get? (lit "locc") =
      some (Value.filter (GoMap.made ((∅ : AList (fun _ : GoString => List GoString)).insert
        (lit "gen.go") []))) := rfl

theorem plainConfig_excludes_Go : plainConfig.Excludes.get? (lit "Go") = none := rfl

theorem plainConfig_excludes_none : plainConfig.Excludes.get? [] = none := rfl

/-- C4. For a file that passes the size check and that no include rule-set (global or of
its detected type) matches: if the global exclude rule-set or the exclude rule-set of the
detected type matches, the file is excluded; otherwise it is included exactly when a type
was detected. -/
theorem shouldIncludeFile_exclude_or_default (w : World) (config : Config)
    (relPath : GoString) (size : Int) (enableStores enableDocuments : Bool)
    (hsize : ¬ (config.MaxFileSize > 0 ∧ size > config.MaxFileSize))
    (hglobal : ∀ f, config.Includes.get? (lit "locc") = some f →
      matchesFilter w f (filepathBase relPath) relPath = false)
    (htype : ∀ f,
      config.Includes.get? (detectLanguage w relPath config enableStores enableDocuments).1
        = some f →
      matchesFilter w f (filepathBase relPath) relPath = false) :
    ((∃ f, (config.Excludes.get? (lit "locc") = some f ∨
          config.Excludes.get? (detectLanguage w relPath config enableStores enableDocuments).1
            = some f) ∧
        matchesFilter w f (filepathBase relPath) relPath = true) →
      shouldIncludeFile w config relPath size enableStores enableDocuments = false)
    ∧ ((∀ f, (config.Excludes.get? (lit "locc") = some f ∨
          config.Excludes.get? (detectLanguage w relPath config enableStores enableDocuments).1
            = some f) →
        matchesFilter w f (filepathBase relPath) relPath = false) →
      (shouldIncludeFile w config relPath size enableStores enableDocuments = true ↔
        (detectLanguage w relPath config enableStores enableDocuments).1 ≠ [])) := by
  have hg : (match config.Includes.get? (lit "locc") with
      | some globalIncludes => matchesFilter w globalIncludes (filepathBase relPath) relPath
      | none => false) = false := by
    cases h : config.Includes.get? (lit "locc") with
    | none => rfl
    | some f => exact hglobal f h
  have ht : (match config.Includes.get?
        (detectLanguage w relPath config enableStores enableDocuments).1 with
      | some includes => matchesFilter w includes (filepathBase relPath) relPath
      | none => false) = false := by
    cases h : config.Includes.get?
        (detectLanguage w relPath config enableStores enableDocuments).1 with
    | none => rfl
    | some f => exact htype f h
  unfold shouldIncludeFile
  rw [if_neg hsize]
  simp only [hg, ht, Bool.false_eq_true, if_false]
  constructor
  · rintro ⟨f, hf | hf, hm⟩
    · simp [hf, hm]
    · simp only [hf, hm, if_true]
      split <;> rfl
  · intro hno
    have he : (match config.Excludes.get? (lit "locc") with
        | some globalExcludes => matchesFilter w globalExcludes (filepathBase relPath) relPath
        | none => false) = false := by
      cases h : config.Excludes.get? (lit "locc") with
      | none => rfl
      | some f => exact hno f (Or.inl h)
    have hl : (match config.Excludes.get?
          (detectLanguage w relPath config enableStores enableDocuments).1 with
        | some excludes => matchesFilter w excludes (filepathBase relPath) relPath
        | none => false) = false := by
      cases h : config.Excludes.get?
          (detectLanguage w relPath config enableStores enableDocuments).1 with
      | none => rfl
      | some f => exact hno f (Or.inr h)
    simp only [he, hl, Bool.false_eq_true, if_false, decide_eq_true_eq]

/-- Witness for C4: in the configuration without include rules, `gen.go` is excluded by
the global exclude rule-set, `main.go` is included as Go source, and `README`, which has
no recognized extension, is excluded. -/
theorem shouldIncludeFile_exclude_or_default_witness :
    shouldIncludeFile sampleWorld plainConfig (lit "gen.go") 7 false false = false
    ∧ shouldIncludeFile sampleWorld plainConfig (lit "main.go") 7 false false = true
    ∧ ¬ shouldIncludeFile sampleWorld plainConfig (lit "README") 7 false false = true :=
  ⟨(shouldIncludeFile_exclude_or_default sampleWorld plainConfig (lit "gen.go") 7 false false
      (by decide) (fun f h => by rw [plainConfig_includes] at h; cases h)
      (fun f h => by rw [plainConfig_includes] at h; cases h)).1
      ⟨_, Or.inl plainConfig_excludes_locc, by decide⟩,
   ((shouldIncludeFile_exclude_or_default sampleWorld plainConfig (lit "main.go") 7 false false
      (by decide) (fun f h => by rw [plainConfig_includes] at h; cases h)
      (fun f h => by rw [plainConfig_includes] at h; cases h)).2
      (fun f h => by
        rcases h with h | h
        · rw [plainConfig_excludes_locc] at h
          cases h
          decide
        · rw [show (detectLanguage sampleWorld (lit "main.go") plainConfig false false).1
            = lit "Go" from by decide, plainConfig_excludes_Go] at h
          cases h)).2 (by decide),
   fun hinc =>
    ((shouldIncludeFile_exclude_or_default sampleWorld plainConfig (lit "README") 7 false false
      (by decide) (fun f h => by rw [plainConfig_includes] at h; cases h)
      (fun f h => by rw [plainConfig_includes] at h; cases h)).2
      (fun f h => by
        rcases h with h | h
        · rw [plainConfig_excludes_locc] at h
          cases h
          decide
        · rw [show (detectLanguage sampleWorld (lit "README") plainConfig false false).1
            = [] from by decide, plainConfig_excludes_none] at h
          cases h)).1 hinc (by decide)⟩

/-! ## Lemmas on `mergeConfigs` -/

theorem GoMap.isSet_iff {V : Type} (m : GoMap V) : m.isSet = true ↔ ∃ cells, m = GoMap.made cells := by
  cases m with
  | nil => simp [GoMap.isSet]
  | made cells => simp [GoMap.isSet]

theorem assignAll_made {V : Type} (src : List ((_ : GoString) × V))
    (d : AList (fun _ : GoString => V)) :
    assignAll (GoMap.made d) src =
      Except.ok (GoMap.made (src.foldl (fun m e => m.insert e.1 e.2) d)) := by
  induction src generalizing d with
  | nil => rfl
  | cons e rest ih =>
    unfold assignAll at ih ⊢
    rw [List.foldlM_cons, List.foldl_cons]
    exact ih (d.insert e.1 e.2)

theorem lookup_foldl_insert {V : Type} (src : List ((_ : GoString) × V))
    (hnd : src.NodupKeys) (d : AList (fun _ : GoString => V)) (k : GoString) :
    (src.foldl (fun m e => m.insert e.1 e.2) d).lookup k =
      (src.dlookup k).or (d.lookup k) := by
  induction src generalizing d with
  | nil => simp
  | cons e rest ih =>
    obtain ⟨e1, e2⟩ := e
    rw [List.nodupKeys_cons] at hnd
    rw [List.foldl_cons, ih hnd.2]
    by_cases hk : k = e1
    · subst hk
      have hnone : List.dlookup k rest = none := List.dlookup_eq_none.2 hnd.1
      rw [hnone, List.dlookup_cons_eq, AList.lookup_insert]
      rfl
    · rw [List.dlookup_cons_ne _ _ hk, AList.lookup_insert_ne hk]

/-- The assignments of `mergeConfigs` into a map that is set: the result is set, and it
holds the source's value under every key of the source and the old value elsewhere. -/
theorem assignAll_get {V : Type} (d s : AList (fun _ : GoString => V)) :
    ∃ r, assignAll (GoMap.made d) (GoMap.made s).entries = Except.ok (GoMap.made r) ∧
      ∀ k, (GoMap.made r).get? k = ((GoMap.made s).get? k).or ((GoMap.made d).get? k) :=
  ⟨_, assignAll_made _ d, fun k => lookup_foldl_insert s.entries s.nodupKeys d k⟩

theorem assignAll_nil_src {V : Type} (dst : GoMap V) :
    assignAll dst (GoMap.nil : GoMap V).entries = Except.ok dst := rfl

/-- One merging block of `mergeConfigs` when the global mapping is set. -/
theorem merge_step {V : Type} (src : GoMap V) (d : AList (fun _ : GoString => V)) :
    ∃ r, mergeInto (GoMap.made d) src = Except.ok (GoMap.made r) ∧
      ∀ k, (GoMap.made r).get? k = (src.get? k).or ((GoMap.made d).get? k) := by
  cases src with
  | nil => exact ⟨d, rfl, fun k => rfl⟩
  | made s =>
    obtain ⟨r, hr, hk⟩ := assignAll_get d s
    exact ⟨r, hr, hk⟩

/-- The result of `mergeConfigs` on two configurations, the global one with its
`languages`, `excludes` and `includes` mappings set. -/
theorem mergeConfigs_of_set (g l : Config) (hL : g.Languages.isSet = true)
    (hE : g.Excludes.isSet = true) (hI : g.Includes.isSet = true) :
    ∃ m, mergeConfigs (some g) (some l) = Except.ok (some m) ∧
      (∀ k, m.Languages.get? k = (l.Languages.get? k).or (g.Languages.get? k)) ∧
      (∀ k, m.Excludes.get? k = (l.Excludes.get? k).or (g.Excludes.get? k)) ∧
      (∀ k, m.Includes.get? k = (l.Includes.get? k).or (g.Includes.get? k)) ∧
      m.Stores = g.Stores ∧ m.Documents = g.Documents ∧
      m.MaxFileSize = (if l.MaxFileSize > 0 then l.MaxFileSize else g.MaxFileSize) := by
  obtain ⟨gL, gS, gD, gE, gI, gM⟩ := g
  obtain ⟨dL, rfl⟩ := (GoMap.isSet_iff gL).1 hL
  obtain ⟨dE, rfl⟩ := (GoMap.isSet_iff gE).1 hE
  obtain ⟨dI, rfl⟩ := (GoMap.isSet_iff gI).1 hI
  obtain ⟨rL, hrL, hkL⟩ := merge_step l.Languages dL
  obtain ⟨rE, hrE, hkE⟩ := merge_step l.Excludes dE
  obtain ⟨rI, hrI, hkI⟩ := merge_step l.Includes dI
  refine ⟨{ Languages := GoMap.made rL, Stores := gS, Documents := gD,
            Excludes := GoMap.made rE, Includes := GoMap.made rI,
            MaxFileSize := if l.MaxFileSize > 0 then l.MaxFileSize else gM },
          ?_, hkL, hkE, hkI, rfl, rfl, rfl⟩
  unfold mergeConfigs
  simp only [hrL, hrE, hrI]
  rfl

/-- C8. For a global and a local configuration with all mappings set, `mergeConfigs`
returns a configuration in which each of `languages`, `excludes` and `includes` holds,
under every key, local's value when local has the key and global's value otherwise (so no
key comes from elsewhere); a language defined on both sides has local's whole entry. -/
theorem mergeConfigs_overlay (g l : Config) (hg : g.allSet = true) (_hl : l.allSet = true) :
    ∃ m, mergeConfigs (some g) (some l) = Except.ok (some m) ∧
      (∀ k, m.Languages.get? k = (l.Languages.get? k).or (g.Languages.get? k)) ∧
      (∀ k, m.Excludes.get? k = (l.Excludes.get? k).or (g.Excludes.get? k)) ∧
      (∀ k, m.Includes.get? k = (l.Includes.get? k).or (g.Includes.get? k)) ∧
      (∀ k entry other, l.Languages.get? k = some entry → g.Languages.get? k = some other →
        m.Languages.get? k = some entry) := by
  simp only [Config.allSet, Bool.and_eq_true] at hg
  obtain ⟨m, hm, hL, hE, hI, _⟩ := mergeConfigs_of_set g l hg.1.1.1.1 hg.1.2 hg.2
  refine ⟨m, hm, hL, hE, hI, ?_⟩
  intro k entry other hle _
  rw [hL k, hle]
  rfl

/-- Witness for C8: merging the sample local configuration into the sample global one,
the language Go gets local's entry (extensions and comment list), the language C keeps
global's entry, and the exclude rule-sets of both sides are present. -/
theorem mergeConfigs_overlay_witness :
    ∃ m, mergeConfigs (some sampleGlobal) (some sampleLocal) = Except.ok (some m) ∧
      m.Languages.get? (lit "Go") = some { Extensions := [lit ".go", lit ".tmpl"], Comment := [] } ∧
      m.Languages.get? (lit "C") =
        some { Extensions := [lit ".c", lit ".h"], Comment := [lit "//", lit "/*"] } ∧
      m.Languages.get? (lit "Rust") = none ∧
      m.Excludes.get? (lit "Go") = sampleLocal.Excludes.get? (lit "Go") ∧
      m.Excludes.get? (lit "locc") = sampleGlobal.Excludes.get? (lit "locc") := by
  obtain ⟨m, hm, hL, hE, _, _⟩ :=
    mergeConfigs_overlay sampleGlobal sampleLocal (by decide) (by decide)
  exact ⟨m, hm, (hL _).trans (by decide), (hL _).trans (by decide), (hL _).trans (by decide),
    (hE _).trans rfl, (hE _).trans rfl⟩

/-- An assignment into the nil map panics, whatever follows. -/
theorem assignAll_nil_cons {V : Type} (e : (_ : GoString) × V)
    (rest : List ((_ : GoString) × V)) :
    assignAll (GoMap.nil : GoMap V) (e :: rest) = Except.error Panic.nilMapAssignment := rfl

/-- One merging block of `mergeConfigs` completes exactly when the global mapping is set
or the local one has no entry to assign. -/
theorem mergeInto_returns_iff {V : Type} (dst src : GoMap V) :
    (∃ r, mergeInto dst src = Except.ok r) ↔ (dst.isSet = true ∨ src.entries = []) := by
  cases dst with
  | made d =>
    constructor
    · intro _
      exact Or.inl rfl
    · intro _
      obtain ⟨r, hr, _⟩ := merge_step src d
      exact ⟨_, hr⟩
  | nil =>
    cases src with
    | nil =>
      constructor
      · intro _
        exact Or.inr rfl
      · intro _
        exact ⟨GoMap.nil, rfl⟩
    | made s =>
      have hm : mergeInto (GoMap.nil : GoMap V) (GoMap.made s)
          = assignAll (GoMap.nil : GoMap V) s.entries := rfl
      cases hs : s.entries with
      | nil =>
        constructor
        · intro _
          exact Or.inr hs
        · intro _
          refine ⟨GoMap.nil, ?_⟩
          rw [hm, hs]
          rfl
      | cons e rest =>
        constructor
        · rintro ⟨r, hr⟩
          rw [hm, hs, assignAll_nil_cons] at hr
          cases hr
        · intro h
          rcases h with h | h
          · cases h
          · have h2 : s.entries = [] := h
            rw [hs] at h2
            cases h2

/-- The condition under which `mergeConfigs` returns for two configurations: it panics
exactly when an entry of local's `languages`, `excludes` or `includes` has to be assigned
into a mapping of global that is nil. -/
theorem mergeConfigs_returns_iff (g l : Config) :
    (∃ m, mergeConfigs (some g) (some l) = Except.ok (some m)) ↔
      (g.Languages.isSet = true ∨ l.Languages.entries = []) ∧
      (g.Excludes.isSet = true ∨ l.Excludes.entries = []) ∧
      (g.Includes.isSet = true ∨ l.Includes.entries = []) := by
  constructor
  · rintro ⟨m, h⟩
    unfold mergeConfigs at h
    simp only [bind, Except.bind] at h
    cases hL : mergeInto g.Languages l.Languages with
    | error e => rw [hL] at h; cases h
    | ok rL =>
      cases hE : mergeInto g.Excludes l.Excludes with
      | error e => rw [hL, hE] at h; cases h
      | ok rE =>
        cases hI : mergeInto g.Includes l.Includes with
        | error e => rw [hL, hE, hI] at h; cases h
        | ok rI =>
          exact ⟨(mergeInto_returns_iff _ _).1 ⟨rL, hL⟩, (mergeInto_returns_iff _ _).1 ⟨rE, hE⟩,
            (mergeInto_returns_iff _ _).1 ⟨rI, hI⟩⟩
  · rintro ⟨hL, hE, hI⟩
    obtain ⟨rL, hrL⟩ := (mergeInto_returns_iff _ _).2 hL
    obtain ⟨rE, hrE⟩ := (mergeInto_returns_iff _ _).2 hE
    obtain ⟨rI, hrI⟩ := (mergeInto_returns_iff _ _).2 hI
    refine ⟨{ g with
        Languages := rL, Excludes := rE, Includes := rI,
        MaxFileSize := if l.MaxFileSize > 0 then l.MaxFileSize else g.MaxFileSize }, ?_⟩
    unfold mergeConfigs
    simp only [hrL, hrE, hrI]
    rfl

/-- Whenever `mergeConfigs` returns a configuration for two configurations, its
`maxFileSize` is local's value if that is positive and global's value otherwise. -/
theorem mergeConfigs_limit (g l m : Config)
    (h : mergeConfigs (some g) (some l) = Except.ok (some m)) :
    m.MaxFileSize = if l.MaxFileSize > 0 then l.MaxFileSize else g.MaxFileSize := by
  unfold mergeConfigs at h
  simp only [bind, Except.bind] at h
  cases hL : mergeInto g.Languages l.Languages with
  | error e => rw [hL] at h; cases h
  | ok rL =>
    cases hE : mergeInto g.Excludes l.Excludes with
    | error e => rw [hL, hE] at h; cases h
    | ok rE =>
      cases hI : mergeInto g.Includes l.Includes with
      | error e => rw [hL, hE, hI] at h; cases h
      | ok rI =>
        rw [hL, hE, hI] at h
        cases h
        rfl

/-- With a global configuration whose `includes` mapping is nil and a local configuration
that has an include rule, `mergeConfigs` panics on the assignment into the nil map and
returns no configuration. -/
theorem mergeConfigs_nil_includes :
    mergeConfigs (some unsetGlobal) (some includeLocal) = Except.error Panic.nilMapAssignment
    ∧ ¬ ∃ m, mergeConfigs (some unsetGlobal) (some includeLocal) = Except.ok (some m) := by
  have h : mergeConfigs (some unsetGlobal) (some includeLocal)
      = Except.error Panic.nilMapAssignment := rfl
  refine ⟨h, ?_⟩
  rintro ⟨m, hm⟩
  rw [h] at hm
  cases hm

/-- C9. For every global and local configuration, the configuration that `mergeConfigs`
returns has as `maxFileSize` local's value when that is strictly positive and global's
value otherwise: a local value of zero (or below) never overrides, a positive local value
overrides any global value. `mergeConfigs` returns such a configuration exactly when no
entry of local's `languages`, `excludes` or `includes` has to be assigned into a nil
mapping of global; in that one case it panics before it reaches the size limit. -/
theorem mergeConfigs_maxFileSize (g l : Config) :
    (∀ m, mergeConfigs (some g) (some l) = Except.ok (some m) →
      (0 < l.MaxFileSize → m.MaxFileSize = l.MaxFileSize) ∧
      (l.MaxFileSize ≤ 0 → m.MaxFileSize = g.MaxFileSize)) ∧
    ((∃ m, mergeConfigs (some g) (some l) = Except.ok (some m)) ↔
      (g.Languages.isSet = true ∨ l.Languages.entries = []) ∧
      (g.Excludes.isSet = true ∨ l.Excludes.entries = []) ∧
      (g.Includes.isSet = true ∨ l.Includes.entries = [])) := by
  refine ⟨?_, mergeConfigs_returns_iff g l⟩
  intro m hm
  have hM := mergeConfigs_limit g l m hm
  constructor
  · intro hpos
    rw [hM, if_pos hpos]
  · intro hle
    rw [hM, if_neg (not_lt.2 hle)]

/-- Witness for C9: the sample local configuration has `max_file_size` zero and leaves
the global limit of 1000 bytes, also when global's `includes` mapping is nil (local has no
include rule to assign); the local limit of 5 bytes replaces the global one. -/
theorem mergeConfigs_maxFileSize_witness :
    (∃ m, mergeConfigs (some sampleGlobal) (some sampleLocal) = Except.ok (some m) ∧
      m.MaxFileSize = 1000)
    ∧ (∃ m, mergeConfigs (some unsetGlobal) (some sampleLocal) = Except.ok (some m) ∧
      m.MaxFileSize = 1000)
    ∧ (∃ m, mergeConfigs (some sampleGlobal) (some includeLocal) = Except.ok (some m) ∧
      m.MaxFileSize = 5) := by
  obtain ⟨m1, h1⟩ := (mergeConfigs_maxFileSize sampleGlobal sampleLocal).2.2
    ⟨Or.inl rfl, Or.inl rfl, Or.inl rfl⟩
  obtain ⟨m2, h2⟩ := (mergeConfigs_maxFileSize unsetGlobal sampleLocal).2.2
    ⟨Or.inl rfl, Or.inl rfl, Or.inr rfl⟩
  obtain ⟨m3, h3⟩ := (mergeConfigs_maxFileSize sampleGlobal includeLocal).2.2
    ⟨Or.inl rfl, Or.inl rfl, Or.inl rfl⟩
  exact ⟨⟨m1, h1, ((mergeConfigs_maxFileSize sampleGlobal sampleLocal).1 m1 h1).2 (by decide)⟩,
    ⟨m2, h2, ((mergeConfigs_maxFileSize unsetGlobal sampleLocal).1 m2 h2).2 (by decide)⟩,
    ⟨m3, h3, ((mergeConfigs_maxFileSize sampleGlobal includeLocal).1 m3 h3).1 (by decide)⟩⟩

/-- C10, counterexample. Merging a local configuration that has a store named JSON and
`max_file_size` -1 into the empty global configuration gives a configuration without that
store and with `maxFileSize` 0: the result is not the local configuration in its `stores`
field nor in its `maxFileSize`. -/
theorem mergeConfigs_into_empty_counterexample :
    storeLocal.allSet = true ∧
    ∃ m, mergeConfigs (some emptyConfig) (some storeLocal) = Except.ok (some m) ∧
      m.Stores.get? (lit "JSON") = none ∧
      storeLocal.Stores.get? (lit "JSON") = some { Extensions := [lit ".json"], Comment := [] } ∧
      m.MaxFileSize = 0 ∧ storeLocal.MaxFileSize = -1 :=
  ⟨by decide, _, rfl, by decide, by decide, by decide, by decide⟩

/-- C10, amended. Merging a local configuration with all mappings set into the empty
global configuration gives a configuration whose `languages`, `excludes` and `includes`
hold local's value under every key and nothing else, and whose `maxFileSize` is local's
when that is not negative (zero otherwise); `stores` and `documents` are not merged and
stay empty. -/
theorem mergeConfigs_into_empty (l : Config) (_hl : l.allSet = true) :
    ∃ m, mergeConfigs (some emptyConfig) (some l) = Except.ok (some m) ∧
      (∀ k, m.Languages.get? k = l.Languages.get? k) ∧
      (∀ k, m.Excludes.get? k = l.Excludes.get? k) ∧
      (∀ k, m.Includes.get? k = l.Includes.get? k) ∧
      (0 ≤ l.MaxFileSize → m.MaxFileSize = l.MaxFileSize) ∧
      (l.MaxFileSize < 0 → m.MaxFileSize = 0) ∧
      m.Stores = GoMap.empty ∧ m.Documents = GoMap.empty := by
  obtain ⟨m, hm, hL, hE, hI, hS, hD, hM⟩ := mergeConfigs_of_set emptyConfig l rfl rfl rfl
  have hnone : ∀ {V : Type} (o : Option V), o.or none = o := by
    intro V o
    cases o <;> rfl
  refine ⟨m, hm, ?_, ?_, ?_, ?_, ?_, hS, hD⟩
  · intro k
    rw [hL k]
    exact hnone _
  · intro k
    rw [hE k]
    exact hnone _
  · intro k
    rw [hI k]
    exact hnone _
  · intro h0
    rw [hM]
    split
    · rfl
    · rename_i hn
      have : l.MaxFileSize = 0 := le_antisymm (not_lt.1 hn) h0
      rw [this]
      rfl
  · intro hneg
    rw [hM, if_neg (not_lt.2 (le_of_lt hneg))]
    rfl

/-- Witness for C10: the sample local configuration merged into the empty global one
keeps its language Go and its exclude rule-set, and the result has no stores. -/
theorem mergeConfigs_into_empty_witness :
    ∃ m, mergeConfigs (some emptyConfig) (some sampleLocal) = Except.ok (some m) ∧
      m.Languages.get? (lit "Go") = some { Extensions := [lit ".go", lit ".tmpl"], Comment := [] } ∧
      m.MaxFileSize = 0 ∧ m.Stores = GoMap.empty := by
  obtain ⟨m, hm, hL, _, _, hM, _, hS, _⟩ := mergeConfigs_into_empty sampleLocal (by decide)
  exact ⟨m, hm, (hL _).trans (by decide), hM (by decide), hS⟩

/-! ## Lemmas on the line scanner -/

theorem indexByte_eq_none (data : GoString) (c : Nat) (h : c ∉ data) :
    indexByte data c = none := by
  induction data with
  | nil => rfl
  | cons b rest ih =>
    rw [List.mem_cons, not_or] at h
    unfold indexByte
    rw [if_neg (fun hb => h.1 hb.symm), ih h.2]
    rfl

/-- `Scan` returns false on a line that has no newline within the buffer. -/
theorem scanStep_too_long (maxTok : Nat) (data : GoString) (hnl : 10 ∉ data)
    (hlen : maxTok ≤ data.length) : scanStep maxTok data = none := by
  unfold scanStep
  rw [indexByte_eq_none data 10 hnl]
  simp only [if_neg (not_lt.2 hlen), ite_self]

theorem countLoop_stop (maxTok : Nat) (data : GoString) (h : scanStep maxTok data = none)
    (fuel lineCount : Nat) : countLoop maxTok fuel data lineCount = lineCount := by
  cases fuel with
  | zero => rfl
  | succ n =>
    unfold countLoop
    rw [h]

theorem trimLeftLoop_keep (fuel : Nat) (b : Nat) (rest : GoString) (hb : b < 0x80)
    (hs : isSpace b = false) : trimLeftLoop fuel (b :: rest) = b :: rest := by
  cases fuel with
  | zero => rfl
  | succ n =>
    unfold trimLeftLoop
    simp [decodeRune, hb, hs]

theorem trimRightLoop_keep (fuel : Nat) (b : Nat) (front : GoString) (hb : b < 0x80)
    (hs : isSpace b = false) : trimRightLoop fuel (front ++ [b]) = front ++ [b] := by
  cases fuel with
  | zero => rfl
  | succ n =>
    unfold trimRightLoop
    have hd : decodeLastRune (front ++ [b]) = (b, 1) := by
      unfold decodeLastRune
      simp [List.getD_eq_getElem?_getD, hb]
    simp [hd, hs]

/-- A string that begins and ends with ASCII bytes that are not white space is left as it
is by `trimSpace`. -/
theorem trimSpace_keep (a b : Nat) (mid : GoString) (ha : a < 0x80) (hb : b < 0x80)
    (hsa : isSpace a = false) (hsb : isSpace b = false) :
    trimSpace (a :: (mid ++ [b])) = a :: (mid ++ [b]) := by
  unfold trimSpace
  simp only [trimLeftLoop_keep _ a _ ha hsa]
  exact trimRightLoop_keep _ b (a :: mid) hb hsb

theorem longLine_eq : longLine = 97 :: (List.replicate 69998 97 ++ [97]) := by
  unfold longLine
  rw [show (70000 : Nat) = 69998 + 1 + 1 from rfl, List.replicate_succ, List.replicate_succ']

theorem longLine_no_newline : 10 ∉ longLine := by
  intro h
  have := List.eq_of_mem_replicate h
  omega

/-- C1, the failing input. On a file of one line of 70000 letters `a`, the scanner of
`countNonEmptyLines` stops with its buffer of 64 KiB full and no line read, so the function
returns 0, while the file has one line and that line is not blank: the count the
specification describes is 1.  On the short examples of the specification the function
gives the described count: 0 on the empty content and on blank lines only, 3 on five lines
of which two are blank. -/
theorem countNonEmptyLines_long_line :
    longLine.length = 70000 ∧ countNonEmptyLines longLine = 0 ∧ specNonEmptyLines longLine = 1
    ∧ countNonEmptyLines [] = 0
    ∧ countNonEmptyLines (lit " \n\t\n  \r\n") = 0
    ∧ countNonEmptyLines (lit "a\n\n  \t\nb\r\nc") = 3 := by
  have hlen : longLine.length = 70000 := List.length_replicate _ _
  refine ⟨hlen, ?_, ?_, by decide, by decide, by decide⟩
  · unfold countNonEmptyLines
    apply countLoop_stop
    apply scanStep_too_long _ _ longLine_no_newline
    rw [hlen]
    decide
  · unfold specNonEmptyLines
    have hsplit : longLine.splitOn 10 = [longLine] := by
      unfold List.splitOn
      apply List.splitOnP_eq_single
      intro x hx
      have := List.eq_of_mem_replicate hx
      subst this
      decide
    have htrim : trimSpace longLine = longLine := by
      rw [longLine_eq]
      exact trimSpace_keep 97 97 _ (by decide) (by decide) (by decide) (by decide)
    rw [hsplit]
    simp [htrim, hlen]

/-- C5, the failing input. The raw rule-set `locc: ["vendor/"]` prunes the directory
`vendor` as long as it is not normalized; `processFilters`, which the program runs before
the walk, turns it into a filename mapping, a shape that `containsPath` does not handle:
after it `shouldExcludeDir` is false on `vendor` and on `vendor/pkg`, although the
rule-set still holds the entry `vendor/`, which matches `vendor`. -/
theorem shouldExcludeDir_after_processFilters :
    ∃ c, processFilters vendorConfig = Except.ok c ∧
      c.Excludes.get? (lit "locc") =
        some (Value.filter (GoMap.made
          ((∅ : AList (fun _ : GoString => List GoString)).insert (lit "vendor/") []))) ∧
      matchesExclusion (lit "vendor/") (lit "vendor") = true ∧
      shouldExcludeDir c (lit "vendor") = false ∧
      shouldExcludeDir c (lit "vendor/pkg") = false ∧
      shouldExcludeDir vendorConfig (lit "vendor") = true :=
  ⟨_, rfl, rfl, by decide, by decide, by decide, by decide⟩

/-! ## `mergeConfigs`: frame and absent sides -/

/-- Whenever `mergeConfigs` returns a configuration for two configurations, its `stores`
and `documents` are the global ones. -/
theorem mergeConfigs_keeps_tables (g l m : Config)
    (h : mergeConfigs (some g) (some l) = Except.ok (some m)) :
    m.Stores = g.Stores ∧ m.Documents = g.Documents := by
  unfold mergeConfigs at h
  simp only [bind, Except.bind] at h
  cases hL : mergeInto g.Languages l.Languages with
  | error e => rw [hL] at h; cases h
  | ok rL =>
    cases hE : mergeInto g.Excludes l.Excludes with
    | error e => rw [hL, hE] at h; cases h
    | ok rE =>
      cases hI : mergeInto g.Includes l.Includes with
      | error e => rw [hL, hE, hI] at h; cases h
      | ok rI =>
        rw [hL, hE, hI] at h
        cases h
        exact ⟨rfl, rfl⟩

/-- With a global configuration whose `languages` mapping is nil and the sample local
configuration, which defines a language, `mergeConfigs` panics on the assignment into the
nil map and returns no configuration. -/
theorem mergeConfigs_nil_languages :
    mergeConfigs (some bareGlobal) (some sampleLocal) = Except.error Panic.nilMapAssignment
    ∧ ¬ ∃ m, mergeConfigs (some bareGlobal) (some sampleLocal) = Except.ok (some m) := by
  have h : mergeConfigs (some bareGlobal) (some sampleLocal)
      = Except.error Panic.nilMapAssignment := rfl
  refine ⟨h, ?_⟩
  rintro ⟨m, hm⟩
  rw [h] at hm
  cases hm

/-- C11. For every global and local configuration, the configuration that `mergeConfigs`
returns has the `stores` and `documents` mappings of the global configuration, whatever
the local configuration holds in its own. `mergeConfigs` returns such a configuration
exactly when no entry of local's `languages`, `excludes` or `includes` has to be assigned
into a nil mapping of global; in that one case it panics. -/
theorem mergeConfigs_stores_documents (g l : Config) :
    (∀ m, mergeConfigs (some g) (some l) = Except.ok (some m) →
      m.Stores = g.Stores ∧ m.Documents = g.Documents) ∧
    ((∃ m, mergeConfigs (some g) (some l) = Except.ok (some m)) ↔
      (g.Languages.isSet = true ∨ l.Languages.entries = []) ∧
      (g.Excludes.isSet = true ∨ l.Excludes.entries = []) ∧
      (g.Includes.isSet = true ∨ l.Includes.entries = [])) :=
  ⟨fun m hm => mergeConfigs_keeps_tables g l m hm, mergeConfigs_returns_iff g l⟩

/-- Witness for C11: merging the sample local configuration, which has a store named
JSON, into the sample global configuration leaves the global (empty) `stores` and
`documents`; merged into a global configuration with a store YAML and a nil `languages`
mapping, a local configuration without languages leaves that store. -/
theorem mergeConfigs_stores_documents_witness :
    (∃ m, mergeConfigs (some sampleGlobal) (some sampleLocal) = Except.ok (some m) ∧
      m.Stores = sampleGlobal.Stores ∧ m.Documents = sampleGlobal.Documents ∧
      m.Stores.get? (lit "JSON") = none) ∧
    (∃ m, mergeConfigs (some bareGlobal) (some storeLocal) = Except.ok (some m) ∧
      m.Stores = bareGlobal.Stores ∧ m.Stores.get? (lit "JSON") = none) := by
  obtain ⟨m1, h1⟩ := (mergeConfigs_stores_documents sampleGlobal sampleLocal).2.2
    ⟨Or.inl rfl, Or.inl rfl, Or.inl rfl⟩
  obtain ⟨m2, h2⟩ := (mergeConfigs_stores_documents bareGlobal storeLocal).2.2
    ⟨Or.inr rfl, Or.inl rfl, Or.inl rfl⟩
  have k1 := (mergeConfigs_stores_documents sampleGlobal sampleLocal).1 m1 h1
  have k2 := (mergeConfigs_stores_documents bareGlobal storeLocal).1 m2 h2
  exact ⟨⟨m1, h1, k1.1, k1.2, by rw [k1.1]; rfl⟩, ⟨m2, h2, k2.1, by rw [k2.1]; rfl⟩⟩

/-- C19. `mergeConfigs` with an absent global configuration returns the local one
unchanged, and with an absent local configuration it returns the global one unchanged;
neither case can panic. -/
theorem mergeConfigs_absent (c : Config) :
    mergeConfigs none (some c) = Except.ok (some c)
    ∧ mergeConfigs (some c) none = Except.ok (some c)
    ∧ mergeConfigs none none = Except.ok none :=
  ⟨rfl, rfl, rfl⟩

/-! ## `detectLanguage` -/

theorem searchTable_some (table : GoMap LanguageConfig) (ext : GoString)
    (found : GoString × List GoString) (h : searchTable table ext = some found) :
    ∃ e ∈ table.entries, ext ∈ e.2.Extensions ∧ found = (e.1, e.2.Comment) := by
  unfold searchTable at h
  cases hf : table.entries.find? (fun e => e.2.Extensions.contains ext) with
  | none => rw [hf] at h; cases h
  | some e =>
    rw [hf] at h
    cases h
    have hp := List.find?_some hf
    exact ⟨e, List.mem_of_find?_eq_some hf, List.elem_iff.1 hp, rfl⟩

theorem searchTable_none (table : GoMap LanguageConfig) (ext : GoString)
    (h : ¬ ∃ e ∈ table.entries, ext ∈ e.2.Extensions) : searchTable table ext = none := by
  cases hs : searchTable table ext with
  | none => rfl
  | some found =>
    obtain ⟨e, he, hext, _⟩ := searchTable_some table ext found hs
    exact absurd ⟨e, he, hext⟩ h

theorem searchTable_listed (table : GoMap LanguageConfig) (ext : GoString)
    (h : ∃ e ∈ table.entries, ext ∈ e.2.Extensions) :
    ∃ e ∈ table.entries, ext ∈ e.2.Extensions ∧ searchTable table ext = some (e.1, e.2.Comment) := by
  cases hs : searchTable table ext with
  | none =>
    exfalso
    obtain ⟨e, he, hext⟩ := h
    unfold searchTable at hs
    rw [Option.map_eq_none', List.find?_eq_none] at hs
    exact hs e he (List.elem_iff.2 hext)
  | some found =>
    obtain ⟨e, he, hext, hf⟩ := searchTable_some table ext found hs
    exact ⟨e, he, hext, by rw [hf]⟩

/-- C12. `detectLanguage` decides on the lower-cased extension `ext` of the file name.
If a `languages` entry lists `ext`, the result is the name and the comment tokens of a
`languages` entry that lists it, whatever the other tables and the toggles.  Otherwise, if
the stores toggle is on and a `stores` entry lists `ext`, the result is such a `stores`
entry.  Otherwise, if the documents toggle is on and a `documents` entry lists `ext`, the
result is such a `documents` entry.  Otherwise the result is the empty type without
comment tokens.  With a toggle off, the content of its table has no effect. -/
theorem detectLanguage_spec (w : World) (filename : GoString) (config : Config)
    (enableStores enableDocuments : Bool) (ext : GoString)
    (hext : ext = toLower w (filepathExt filename)) :
    ((∃ e ∈ config.Languages.entries, ext ∈ e.2.Extensions) →
      ∃ e ∈ config.Languages.entries, ext ∈ e.2.Extensions ∧
        detectLanguage w filename config enableStores enableDocuments = (e.1, e.2.Comment))
    ∧ ((¬ ∃ e ∈ config.Languages.entries, ext ∈ e.2.Extensions) →
      enableStores = true →
      (∃ e ∈ config.Stores.entries, ext ∈ e.2.Extensions) →
      ∃ e ∈ config.Stores.entries, ext ∈ e.2.Extensions ∧
        detectLanguage w filename config enableStores enableDocuments = (e.1, e.2.Comment))
    ∧ ((¬ ∃ e ∈ config.Languages.entries, ext ∈ e.2.Extensions) →
      (enableStores = true → ¬ ∃ e ∈ config.Stores.entries, ext ∈ e.2.Extensions) →
      enableDocuments = true →
      (∃ e ∈ config.Documents.entries, ext ∈ e.2.Extensions) →
      ∃ e ∈ config.Documents.entries, ext ∈ e.2.Extensions ∧
        detectLanguage w filename config enableStores enableDocuments = (e.1, e.2.Comment))
    ∧ ((¬ ∃ e ∈ config.Languages.entries, ext ∈ e.2.Extensions) →
      (enableStores = true → ¬ ∃ e ∈ config.Stores.entries, ext ∈ e.2.Extensions) →
      (enableDocuments = true → ¬ ∃ e ∈ config.Documents.entries, ext ∈ e.2.Extensions) →
      detectLanguage w filename config enableStores enableDocuments = ([], []))
    ∧ (∀ stores2 : GoMap LanguageConfig,
      detectLanguage w filename { config with Stores := stores2 } false enableDocuments =
        detectLanguage w filename config false enableDocuments)
    ∧ (∀ documents2 : GoMap LanguageConfig,
      detectLanguage w filename { config with Documents := documents2 } enableStores false =
        detectLanguage w filename config enableStores false) := by
  subst hext
  have hS : (enableStores = true →
      ¬ ∃ e ∈ config.Stores.entries, toLower w (filepathExt filename) ∈ e.2.Extensions) →
      (if enableStores = true then searchTable config.Stores (toLower w (filepathExt filename))
        else none) = none := by
    intro h
    cases enableStores with
    | false => rfl
    | true => exact searchTable_none _ _ (h rfl)
  have hD : (enableDocuments = true →
      ¬ ∃ e ∈ config.Documents.entries, toLower w (filepathExt filename) ∈ e.2.Extensions) →
      (if enableDocuments = true then
          searchTable config.Documents (toLower w (filepathExt filename))
        else none) = none := by
    intro h
    cases enableDocuments with
    | false => rfl
    | true => exact searchTable_none _ _ (h rfl)
  refine ⟨?_, ?_, ?_, ?_, ?_, ?_⟩
  · intro h
    obtain ⟨e, he, hl, hs⟩ := searchTable_listed _ _ h
    refine ⟨e, he, hl, ?_⟩
    simp only [detectLanguage, hs]
  · intro hno hes h
    obtain ⟨e, he, hl, hs⟩ := searchTable_listed _ _ h
    refine ⟨e, he, hl, ?_⟩
    simp only [detectLanguage, searchTable_none _ _ hno, hes, if_true, hs]
  · intro hno hst hed h
    obtain ⟨e, he, hl, hs⟩ := searchTable_listed _ _ h
    refine ⟨e, he, hl, ?_⟩
    simp only [detectLanguage, searchTable_none _ _ hno, hS hst, hed, if_true, hs]
  · intro hno hst hdo
    simp only [detectLanguage, searchTable_none _ _ hno, hS hst, hD hdo]
  · intro stores2
    simp only [detectLanguage, Bool.false_eq_true, if_false]
  · intro documents2
    simp only [detectLanguage, Bool.false_eq_true, if_false]

/-- Witness for C12: in the sample tables, `main.GO` is Go although the store Templates
lists `.go` and the stores toggle is on; `data.json` is JSON with the stores toggle on;
`README.md` is Markdown with the documents toggle on; `notes.txt` has no type. -/
theorem detectLanguage_spec_witness :
    (∃ e ∈ tablesConfig.Languages.entries, lit ".go" ∈ e.2.Extensions ∧
      detectLanguage sampleWorld (lit "main.GO") tablesConfig true true = (e.1, e.2.Comment))
    ∧ (∃ e ∈ tablesConfig.Stores.entries, lit ".json" ∈ e.2.Extensions ∧
      detectLanguage sampleWorld (lit "data.json") tablesConfig true false = (e.1, e.2.Comment))
    ∧ (∃ e ∈ tablesConfig.Documents.entries, lit ".md" ∈ e.2.Extensions ∧
      detectLanguage sampleWorld (lit "README.md") tablesConfig true true = (e.1, e.2.Comment))
    ∧ detectLanguage sampleWorld (lit "notes.txt") tablesConfig true true = ([], []) :=
  ⟨(detectLanguage_spec sampleWorld (lit "main.GO") tablesConfig true true (lit ".go")
      (by decide)).1 (by decide),
   (detectLanguage_spec sampleWorld (lit "data.json") tablesConfig true false (lit ".json")
      (by decide)).2.1 (by decide) rfl (by decide),
   (detectLanguage_spec sampleWorld (lit "README.md") tablesConfig true true (lit ".md")
      (by decide)).2.2.1 (by decide) (fun _ => by decide) rfl (by decide),
   (detectLanguage_spec sampleWorld (lit "notes.txt") tablesConfig true true (lit ".txt")
      (by decide)).2.2.2.1 (by decide) (fun _ => by decide) (fun _ => by decide)⟩

/-- C13, the failing input. The language Go lists its extension as `go`, without the dot,
the way the doc comment of `LanguageConfig.Extensions` writes it; `filepath.Ext` gives
`.go` for `main.go`, the comparison `e == ext` fails, and `detectLanguage` returns the
empty type: the file is not classified and `shouldIncludeFile` rejects it.  With the
extension written `.go` the same file is classified as Go. -/
theorem detectLanguage_dot_free :
    dotFreeConfig.Languages.get? (lit "Go") = some { Extensions := [lit "go"], Comment := [lit "//"] }
    ∧ filepathExt (lit "main.go") = lit ".go"
    ∧ detectLanguage sampleWorld (lit "main.go") dotFreeConfig false false = ([], [])
    ∧ shouldIncludeFile sampleWorld dotFreeConfig (lit "main.go") 10 false false = false
    ∧ detectLanguage sampleWorld (lit "main.go") plainConfig false false
        = (lit "Go", [lit "//"]) := by
  refine ⟨by decide, by decide, by decide, by decide, by decide⟩

/-! ## Normalization of the filters -/

theorem simpleFilter_fold (rules : List Value) (acc : AList (fun _ : GoString => List GoString))
    (k : GoString) :
    (Value.str k ∈ rules →
      (rules.foldl
        (fun filterMap item =>
          match item with
          | Value.str filename => filterMap.insert filename []
          | _ => filterMap)
        acc).lookup k = some [])
    ∧ (Value.str k ∉ rules →
      (rules.foldl
        (fun filterMap item =>
          match item with
          | Value.str filename => filterMap.insert filename []
          | _ => filterMap)
        acc).lookup k = acc.lookup k) := by
  induction rules generalizing acc with
  | nil => simp
  | cons item rest ih =>
    rw [List.foldl_cons]
    by_cases hrest : Value.str k ∈ rest
    · constructor
      · intro _
        exact (ih _).1 hrest
      · intro hno
        exact absurd (List.mem_cons_of_mem _ hrest) hno
    · constructor
      · intro hmem
        rcases List.mem_cons.1 hmem with hhead | hin
        · subst hhead
          rw [(ih _).2 hrest]
          exact AList.lookup_insert _
        · exact absurd hin hrest
      · intro hno
        rw [(ih _).2 hrest]
        have hne : item ≠ Value.str k := fun h => hno (h ▸ List.mem_cons_self _ _)
        cases item with
        | str filename =>
          have hk : k ≠ filename := fun h => hne (h ▸ rfl)
          exact AList.lookup_insert_ne hk
        | _ => rfl

/-- The keys of `processSimpleFilter rules` are the string elements of `rules`, each with
the empty word list. -/
theorem processSimpleFilter_lookup (rules : List Value) (k : GoString) :
    (Value.str k ∈ rules → (processSimpleFilter rules).lookup k = some [])
    ∧ (Value.str k ∉ rules → (processSimpleFilter rules).lookup k = none) := by
  have h := simpleFilter_fold rules ∅ k
  exact ⟨h.1, fun hno => (h.2 hno).trans (AList.lookup_empty k)⟩

theorem matchesFilter_simple (w : World) (rules : List Value) (fileName relPath : GoString) :
    matchesFilter w (Value.filter (GoMap.made (processSimpleFilter rules))) fileName relPath
      = true ↔ Value.str fileName ∈ rules := by
  constructor
  · intro h
    by_contra hno
    have hl := (processSimpleFilter_lookup rules fileName).2 hno
    simp [matchesFilter, GoMap.get?, hl] at h
  · intro hmem
    have hl := (processSimpleFilter_lookup rules fileName).1 hmem
    simp [matchesFilter, GoMap.get?, hl]

theorem processDetailedFilter_eq (rules : List (Value × Value)) :
    processDetailedFilter rules = rules.foldlM detailedStep ∅ := rfl

theorem processFilter_made (cells : AList (fun _ : GoString => Value)) :
    processFilter (GoMap.made cells) =
      (cells.entries.foldlM filterStep cells).map GoMap.made := rfl

theorem foldlM_cons_ok {ε σ α : Type} (f : σ → α → Except ε σ) (a : α) (rest : List α)
    (s s2 : σ) (h : f s a = Except.ok s2) :
    (a :: rest).foldlM f s = rest.foldlM f s2 := by
  rw [List.foldlM_cons, h]
  rfl

theorem foldlM_cons_error {ε σ α : Type} (f : σ → α → Except ε σ) (a : α) (rest : List α)
    (s : σ) (p : ε) (h : f s a = Except.error p) :
    (a :: rest).foldlM f s = Except.error p := by
  rw [List.foldlM_cons, h]
  rfl

/-- On a string-keyed mapping with distinct keys the loop of `processDetailedFilter`
completes; the result sends each filename whose value is a list to the strings of that
list and leaves the other keys of the accumulator as they were. -/
theorem detailed_fold (rules : List (Value × Value))
    (acc : AList (fun _ : GoString => List GoString))
    (hkeys : stringKeyed rules = true) (hnd : (rules.map Prod.fst).Nodup) :
    ∃ m, rules.foldlM detailedStep acc = Except.ok m ∧
      (∀ name items, (Value.str name, Value.list items) ∈ rules →
        m.lookup name = some (wordlistOf items)) ∧
      (∀ name, (∀ items, (Value.str name, Value.list items) ∉ rules) →
        m.lookup name = acc.lookup name) := by
  induction rules generalizing acc with
  | nil => exact ⟨acc, rfl, by simp, fun _ _ => rfl⟩
  | cons rule rest ih =>
    obtain ⟨key, val⟩ := rule
    rw [List.map_cons, List.nodup_cons] at hnd
    have hrest : stringKeyed rest = true := by
      unfold stringKeyed at hkeys ⊢
      rw [List.all_cons, Bool.and_eq_true] at hkeys
      exact hkeys.2
    have hhead : stringKeyedRule (key, val) = true := by
      unfold stringKeyed at hkeys
      rw [List.all_cons, Bool.and_eq_true] at hkeys
      exact hkeys.1
    -- a key that is the head's key does not occur in the rest
    have hfresh : ∀ items, (key, Value.list items) ∉ rest := fun items hin =>
      hnd.1 (List.mem_map.2 ⟨(key, Value.list items), hin, rfl⟩)
    by_cases hlist : ∃ items, val = Value.list items
    · obtain ⟨items, rfl⟩ := hlist
      cases key with
      | str filename =>
        have hstep : detailedStep acc (Value.str filename, Value.list items)
            = Except.ok (acc.insert filename (wordlistOf items)) := rfl
        obtain ⟨m, hm, hin, hout⟩ := ih (acc.insert filename (wordlistOf items)) hrest hnd.2
        refine ⟨m, (foldlM_cons_ok _ _ _ _ _ hstep).trans hm, ?_, ?_⟩
        · intro name items2 hmem
          rcases List.mem_cons.1 hmem with heq | hmem2
          · cases heq
            rw [hout filename (fun items3 => hfresh items3)]
            exact AList.lookup_insert _
          · exact hin name items2 hmem2
        · intro name hno
          have hne : name ≠ filename := by
            rintro rfl
            exact hno items (List.mem_cons_self _ _)
          rw [hout name (fun items3 h3 => hno items3 (List.mem_cons_of_mem _ h3))]
          exact AList.lookup_insert_ne hne
      | null => simp [stringKeyedRule] at hhead
      | bool b => simp [stringKeyedRule] at hhead
      | int n => simp [stringKeyedRule] at hhead
      | float bits => simp [stringKeyedRule] at hhead
      | list l => simp [stringKeyedRule] at hhead
      | dict d => simp [stringKeyedRule] at hhead
      | filter f => simp [stringKeyedRule] at hhead
      | strings s => simp [stringKeyedRule] at hhead
      | fileExclusions f => simp [stringKeyedRule] at hhead
      | mapping mp => simp [stringKeyedRule] at hhead
    · have hstep : detailedStep acc (key, val) = Except.ok acc := by
        unfold detailedStep
        cases val with
        | list items => exact absurd ⟨items, rfl⟩ hlist
        | _ => rfl
      obtain ⟨m, hm, hin, hout⟩ := ih acc hrest hnd.2
      refine ⟨m, (foldlM_cons_ok _ _ _ _ _ hstep).trans hm, ?_, ?_⟩
      · intro name items2 hmem
        rcases List.mem_cons.1 hmem with heq | hmem2
        · cases heq
          exact absurd ⟨items2, rfl⟩ hlist
        · exact hin name items2 hmem2
      · intro name hno
        exact hout name (fun items3 h3 => hno items3 (List.mem_cons_of_mem _ h3))

theorem processDetailedFilter_ok (rules : List (Value × Value))
    (hkeys : stringKeyed rules = true) (hnd : (rules.map Prod.fst).Nodup) :
    ∃ m, processDetailedFilter rules = Except.ok m ∧
      (∀ name items, (Value.str name, Value.list items) ∈ rules →
        m.lookup name = some (wordlistOf items)) ∧
      (∀ name, (∀ items, (Value.str name, Value.list items) ∉ rules) →
        m.lookup name = none) := by
  obtain ⟨m, hm, hin, hout⟩ := detailed_fold rules ∅ hkeys hnd
  exact ⟨m, hm, hin, fun name hno => (hout name hno).trans (AList.lookup_empty name)⟩

theorem detailed_fold_total (rules : List (Value × Value))
    (acc : AList (fun _ : GoString => List GoString)) (hkeys : stringKeyed rules = true) :
    ∃ m, rules.foldlM detailedStep acc = Except.ok m := by
  induction rules generalizing acc with
  | nil => exact ⟨acc, rfl⟩
  | cons rule rest ih =>
    unfold stringKeyed at hkeys
    rw [List.all_cons, Bool.and_eq_true] at hkeys
    have hstep : ∃ acc2, detailedStep acc rule = Except.ok acc2 := by
      obtain ⟨key, val⟩ := rule
      have hhead := hkeys.1
      cases val <;> cases key <;>
        first
          | exact ⟨_, rfl⟩
          | simp [stringKeyedRule] at hhead
    obtain ⟨acc2, h2⟩ := hstep
    obtain ⟨m, hm⟩ := ih acc2 hkeys.2
    exact ⟨m, (foldlM_cons_ok _ _ _ _ _ h2).trans hm⟩

theorem normalized_ok_of_stringKeyed (v : Value)
    (h : ∀ pairs, v = Value.dict pairs → stringKeyed pairs = true) :
    ∃ v2, normalized v = Except.ok v2 := by
  cases v with
  | dict pairs =>
    obtain ⟨m, hm⟩ := detailed_fold_total pairs ∅ (h pairs rfl)
    refine ⟨Value.filter (GoMap.made m), ?_⟩
    have hp : processDetailedFilter pairs = Except.ok m := hm
    show Except.map _ (processDetailedFilter pairs) = _
    rw [hp]
    rfl
  | _ => exact ⟨_, rfl⟩

/-- One turn of the loop of `processFilter`, on a key that still holds its raw value. -/
theorem filterStep_ok (acc : AList (fun _ : GoString => Value)) (e : (_ : GoString) × Value)
    (v2 : Value) (hn : normalized e.2 = Except.ok v2) (hacc : acc.lookup e.1 = some e.2) :
    ∃ acc2, filterStep acc e = Except.ok acc2 ∧
      ∀ k, acc2.lookup k = if k = e.1 then some v2 else acc.lookup k := by
  obtain ⟨key, val⟩ := e
  have hins : ∀ v : Value, ∀ k, (acc.insert key v).lookup k
      = if k = key then some v else acc.lookup k := by
    intro v k
    by_cases hk : k = key
    · subst hk
      rw [if_pos rfl]
      exact AList.lookup_insert _
    · rw [if_neg hk]
      exact AList.lookup_insert_ne hk
  have hsame : ∀ k, acc.lookup k = if k = key then some val else acc.lookup k := by
    intro k
    by_cases hk : k = key
    · subst hk
      rw [if_pos rfl]
      exact hacc
    · rw [if_neg hk]
  cases val with
  | list rules =>
    cases hn
    exact ⟨_, rfl, hins _⟩
  | dict pairs =>
    have hn2 : Except.map (fun m => Value.filter (GoMap.made m))
        (processDetailedFilter pairs) = Except.ok v2 := hn
    cases hp : processDetailedFilter pairs with
    | error p =>
      rw [hp] at hn2
      cases hn2
    | ok m =>
      rw [hp] at hn2
      cases hn2
      refine ⟨acc.insert key (Value.filter (GoMap.made m)), ?_, hins _⟩
      show Except.map _ (processDetailedFilter pairs) = _
      rw [hp]
      rfl
  | null => cases hn; exact ⟨acc, rfl, hsame⟩
  | bool b => cases hn; exact ⟨acc, rfl, hsame⟩
  | int n => cases hn; exact ⟨acc, rfl, hsame⟩
  | float bits => cases hn; exact ⟨acc, rfl, hsame⟩
  | str s => cases hn; exact ⟨acc, rfl, hsame⟩
  | filter f => cases hn; exact ⟨acc, rfl, hsame⟩
  | strings s => cases hn; exact ⟨acc, rfl, hsame⟩
  | fileExclusions f => cases hn; exact ⟨acc, rfl, hsame⟩
  | mapping mp => cases hn; exact ⟨acc, rfl, hsame⟩

/-- The loop of `processFilter` over entries with distinct keys that still hold their raw
values, when every raw value has a normal form: it completes, and the result holds the
normal form under every key of the entries and the accumulator's value elsewhere. -/
theorem filter_fold (es : List ((_ : GoString) × Value)) (hnd : es.NodupKeys)
    (acc : AList (fun _ : GoString => Value))
    (hacc : ∀ e ∈ es, acc.lookup e.1 = some e.2)
    (hok : ∀ e ∈ es, ∃ v2, normalized e.2 = Except.ok v2) :
    ∃ r, es.foldlM filterStep acc = Except.ok r ∧
      ∀ k, r.lookup k =
        match es.dlookup k with
        | some v => (normalized v).toOption
        | none => acc.lookup k := by
  induction es generalizing acc with
  | nil => exact ⟨acc, rfl, fun k => rfl⟩
  | cons e rest ih =>
    rw [List.nodupKeys_cons] at hnd
    obtain ⟨v2, hv2⟩ := hok e (List.mem_cons_self _ _)
    obtain ⟨acc2, hstep, hacc2⟩ := filterStep_ok acc e v2 hv2 (hacc e (List.mem_cons_self _ _))
    have hne : ∀ e2 ∈ rest, e2.1 ≠ e.1 := by
      intro e2 he2 heq
      exact hnd.1 (heq ▸ List.mem_keys_of_mem he2)
    obtain ⟨r, hr, hlook⟩ := ih hnd.2 acc2
      (fun e2 he2 => by
        rw [hacc2, if_neg (hne e2 he2)]
        exact hacc e2 (List.mem_cons_of_mem _ he2))
      (fun e2 he2 => hok e2 (List.mem_cons_of_mem _ he2))
    refine ⟨r, (foldlM_cons_ok _ _ _ _ _ hstep).trans hr, ?_⟩
    intro k
    rw [hlook k]
    obtain ⟨key, val⟩ := e
    by_cases hk : k = key
    · subst hk
      have hnone : List.dlookup k rest = none := List.dlookup_eq_none.2 hnd.1
      rw [hnone, List.dlookup_cons_eq]
      simp only
      rw [hacc2, if_pos rfl, hv2]
      rfl
    · rw [List.dlookup_cons_ne _ _ hk]
      cases List.dlookup k rest with
      | some v => rfl
      | none =>
        simp only
        rw [hacc2, if_neg hk]

/-- `processFilter` on a map whose mapping rule-sets are string-keyed: it completes, the
result is nil exactly when the map is, and under every key the result holds the normal
form of the raw value. -/
theorem processFilter_ok (filter : GoMap Value) (h : stringKeyedSets filter = true) :
    ∃ r, processFilter filter = Except.ok r ∧ r.isSet = filter.isSet ∧
      ∀ k, r.get? k =
        match filter.get? k with
        | some v => (normalized v).toOption
        | none => none := by
  cases filter with
  | nil => exact ⟨GoMap.nil, rfl, rfl, fun k => rfl⟩
  | made cells =>
    have hok : ∀ e ∈ cells.entries, ∃ v2, normalized e.2 = Except.ok v2 := by
      intro e he
      apply normalized_ok_of_stringKeyed
      intro pairs hp
      unfold stringKeyedSets at h
      have := List.all_eq_true.1 h e he
      rw [hp] at this
      exact this
    obtain ⟨r, hr, hlook⟩ := filter_fold cells.entries cells.nodupKeys cells
      (fun e he => by
        have : e.2 ∈ cells.lookup e.1 := AList.mem_lookup_iff.2 he
        exact this)
      hok
    refine ⟨GoMap.made r, ?_, rfl, ?_⟩
    · rw [processFilter_made, hr]
      rfl
    · intro k
      show r.lookup k = _
      rw [hlook k]
      show _ = match cells.lookup k with
        | some v => (normalized v).toOption
        | none => none
      cases hc : cells.lookup k with
      | some v =>
        have : List.dlookup k cells.entries = some v := hc
        rw [this]
      | none =>
        have : List.dlookup k cells.entries = none := hc
        rw [this]

/-- C14. The normal form of a list rule-set (`processSimpleFilter`) has as keys exactly
the string elements of the list, each with the empty word list; `matchesFilter` on it
matches a file exactly when its file name is one of the listed strings, the same in every
world, so without regard to any file content; and `processFilter`, when the mapping
rule-sets of the map are string-keyed, completes and stores that normal form under the
key of the list.  The list `["a.txt", "b.txt"]` gives two entries with empty word
lists. -/
theorem processSimpleFilter_spec (rules : List Value) (fileName relPath : GoString) :
    (∀ k, (Value.str k ∈ rules → (processSimpleFilter rules).lookup k = some [])
        ∧ (Value.str k ∉ rules → (processSimpleFilter rules).lookup k = none))
    ∧ (∀ w : World,
        matchesFilter w (Value.filter (GoMap.made (processSimpleFilter rules))) fileName relPath
          = true ↔ Value.str fileName ∈ rules)
    ∧ (∀ w1 w2 : World,
        matchesFilter w1 (Value.filter (GoMap.made (processSimpleFilter rules))) fileName relPath
          = matchesFilter w2 (Value.filter (GoMap.made (processSimpleFilter rules)))
              fileName relPath)
    ∧ (∀ (filter : GoMap Value) (lang : GoString), stringKeyedSets filter = true →
        filter.get? lang = some (Value.list rules) →
        ∃ r, processFilter filter = Except.ok r ∧
          r.get? lang = some (Value.filter (GoMap.made (processSimpleFilter rules))))
    ∧ (processSimpleFilter abList).lookup (lit "a.txt") = some []
    ∧ (processSimpleFilter abList).lookup (lit "b.txt") = some []
    ∧ (processSimpleFilter abList).keys.length = 2 := by
  refine ⟨fun k => processSimpleFilter_lookup rules k,
    fun w => matchesFilter_simple w rules fileName relPath, ?_, ?_,
    by decide, by decide, by decide⟩
  · intro w1 w2
    rw [Bool.eq_iff_iff, matchesFilter_simple, matchesFilter_simple]
  · intro filter lang hk hl
    obtain ⟨r, hr, _, hget⟩ := processFilter_ok filter hk
    refine ⟨r, hr, ?_⟩
    rw [hget lang, hl]
    rfl

/-- Witness for C14: in the sample configuration of several shapes, the list under `Go`
is replaced by its normal form, in which `a.txt` matches in a world without readable
files and `z.txt`, which the list does not name, does not. -/
theorem processSimpleFilter_spec_witness :
    (∃ r, processFilter shapesConfig.Excludes = Except.ok r ∧
      r.get? (lit "Go") = some (Value.filter (GoMap.made
        (processSimpleFilter [Value.str (lit "a.txt"), Value.int 3]))))
    ∧ matchesFilter sampleWorld (Value.filter (GoMap.made
        (processSimpleFilter [Value.str (lit "a.txt"), Value.int 3]))) (lit "a.txt")
        (lit "lib/a.txt") = true
    ∧ ¬ matchesFilter sampleWorld (Value.filter (GoMap.made
        (processSimpleFilter [Value.str (lit "a.txt"), Value.int 3]))) (lit "z.txt")
        (lit "lib/z.txt") = true :=
  ⟨(processSimpleFilter_spec [Value.str (lit "a.txt"), Value.int 3] (lit "a.txt")
      (lit "lib/a.txt")).2.2.2.1 shapesConfig.Excludes (lit "Go") (by decide) rfl,
   ((processSimpleFilter_spec [Value.str (lit "a.txt"), Value.int 3] (lit "a.txt")
      (lit "lib/a.txt")).2.1 sampleWorld).2 (List.mem_cons_self _ _),
   fun h =>
    absurd (((processSimpleFilter_spec [Value.str (lit "a.txt"), Value.int 3] (lit "z.txt")
      (lit "lib/z.txt")).2.1 sampleWorld).1 h) (by simp [lit]; decide)⟩

theorem wordlistOf_strings (items : List Value) :
    (wordlistOf items).map Value.str = items.filter Value.isStr := by
  induction items with
  | nil => rfl
  | cons item rest ih =>
    unfold wordlistOf at ih ⊢
    cases item <;> simp [List.filterMap_cons, List.filter_cons, Value.isStr, ih]

theorem matchesFilter_wordlist (w : World) (m : AList (fun _ : GoString => List GoString))
    (name relPath : GoString) (words : List GoString) (h : m.lookup name = some words) :
    matchesFilter w (Value.filter (GoMap.made m)) name relPath = true ↔
      words = [] ∨ ∃ content, w.readFile relPath = some content ∧
        ∃ word ∈ words, word <:+: content := by
  by_cases hw : words = []
  · subst hw
    simp [matchesFilter, GoMap.get?, h]
  · have hlen : ¬ words.length = 0 := fun hl => hw (List.length_eq_zero.1 hl)
    cases hr : w.readFile relPath with
    | none => simp [matchesFilter, GoMap.get?, h, hlen, hr, hw]
    | some content =>
      simp only [matchesFilter, GoMap.get?, h, hlen, hr, hw, if_false, false_or,
        Option.some.injEq, exists_eq_left', List.any_eq_true, contains_iff]

/-- C15, counterexample. The mapping `{"c.txt": ["TODO", 7], "d.txt": [7]}` is normalized
to `c.txt` with the word `TODO` and `d.txt` with no word at all, the number being
skipped; `d.txt` then matches the readable file `src/d.txt`, whose content holds none of
the required words (there is none left): the match is unconditional. -/
theorem processDetailedFilter_counterexample :
    ∃ m, processDetailedFilter todoRules = Except.ok m ∧
      m.lookup (lit "d.txt") = some [] ∧
      plainWorld.readFile (lit "src/d.txt") = some (lit "nothing to do") ∧
      matchesFilter plainWorld (Value.filter (GoMap.made m)) (lit "d.txt") (lit "src/d.txt")
        = true ∧
      ¬ ∃ word ∈ ([] : List GoString), word <:+: lit "nothing to do" :=
  ⟨_, rfl, by decide, by decide, by decide, by simp⟩

/-- C15, amended. For a mapping from filenames (strings, pairwise distinct) to lists,
`processDetailedFilter` completes and returns a mapping whose keys are those filenames;
each filename is sent to the string elements of its list, in their order, the other
elements being skipped; and `matchesFilter` on the result matches a file of that name
exactly when that word list is empty or the file can be read and its content holds one of
the words. -/
theorem processDetailedFilter_spec (rules : List (Value × Value))
    (hshape : ∀ rule ∈ rules, ∃ name items, rule = (Value.str name, Value.list items))
    (hnd : (rules.map Prod.fst).Nodup) :
    ∃ m, processDetailedFilter rules = Except.ok m ∧
      (∀ name items, (Value.str name, Value.list items) ∈ rules →
        m.lookup name = some (wordlistOf items)
        ∧ (wordlistOf items).map Value.str = items.filter Value.isStr
        ∧ ∀ (w : World) (relPath : GoString),
            (matchesFilter w (Value.filter (GoMap.made m)) name relPath = true ↔
              wordlistOf items = [] ∨
                ∃ content, w.readFile relPath = some content ∧
                  ∃ word ∈ wordlistOf items, word <:+: content))
      ∧ (∀ name, (∀ items, (Value.str name, Value.list items) ∉ rules) →
          m.lookup name = none) := by
  have hkeys : stringKeyed rules = true := by
    unfold stringKeyed
    rw [List.all_eq_true]
    intro rule hr
    obtain ⟨name, items, rfl⟩ := hshape rule hr
    rfl
  obtain ⟨m, hm, hin, hout⟩ := processDetailedFilter_ok rules hkeys hnd
  refine ⟨m, hm, ?_, hout⟩
  intro name items hmem
  exact ⟨hin name items hmem, wordlistOf_strings items,
    fun w relPath => matchesFilter_wordlist w m name relPath _ (hin name items hmem)⟩

/-- Witness for C15: in the sample mapping, `c.txt` gets the word list `["TODO"]` and
matches `src/c.txt` in the sample world, whose content holds `TODO`, but not in the world
where the content is `nothing to do`. -/
theorem processDetailedFilter_spec_witness :
    ∃ m, processDetailedFilter todoRules = Except.ok m ∧
      m.lookup (lit "c.txt") = some [lit "TODO"] ∧
      matchesFilter sampleWorld (Value.filter (GoMap.made m)) (lit "c.txt") (lit "src/c.txt")
        = true ∧
      ¬ matchesFilter plainWorld (Value.filter (GoMap.made m)) (lit "c.txt") (lit "src/c.txt")
        = true := by
  obtain ⟨m, hm, hin, _⟩ := processDetailedFilter_spec todoRules
    (by
      intro rule hr
      simp only [todoRules, List.mem_cons, List.mem_singleton, List.not_mem_nil, or_false] at hr
      rcases hr with rfl | rfl
      · exact ⟨_, _, rfl⟩
      · exact ⟨_, _, rfl⟩)
    (by simp [todoRules, lit]; decide)
  obtain ⟨hl, _, hmatch⟩ := hin (lit "c.txt") [Value.str (lit "TODO"), Value.int 7]
    (List.mem_cons_self _ _)
  refine ⟨m, hm, hl, (hmatch sampleWorld (lit "src/c.txt")).2 ?_, ?_⟩
  · exact Or.inr ⟨lit "fix: TODO later", by decide, lit "TODO", by decide, by decide⟩
  · intro h
    rcases (hmatch plainWorld (lit "src/c.txt")).1 h with hempty | ⟨content, hc, word, hw, hinf⟩
    · exact absurd hempty (by decide)
    · have hc2 : content = lit "nothing to do" := by
        have : plainWorld.readFile (lit "src/c.txt") = some (lit "nothing to do") := by decide
        rw [this] at hc
        exact (Option.some.inj hc).symm
      have hw2 : word = lit "TODO" := by
        have : wordlistOf [Value.str (lit "TODO"), Value.int 7] = [lit "TODO"] := by decide
        rw [this] at hw
        exact List.mem_singleton.1 hw
      subst hc2 hw2
      revert hinf
      decide

/-- C17, the failing input. On the rule-set `locc: {1: ["TODO"]}`, a mapping with a
number as key and a list as value, the assertion `filename.(string)` of
`processDetailedFilter` fails and `processFilters` panics.  The other shapes complete: a
list with a number in it, a mapping with a number key on a scalar, a mapping with a
scalar value, a scalar and null. -/
theorem processFilters_number_key :
    processFilters numberKeyConfig = Except.error Panic.typeAssertion
    ∧ processDetailedFilter [(Value.int 1, Value.list [Value.str (lit "TODO")])]
        = Except.error Panic.typeAssertion
    ∧ ∃ c, processFilters shapesConfig = Except.ok c :=
  ⟨rfl, rfl, _, rfl⟩

theorem processFilters_ok (config : Config) (hE : stringKeyedSets config.Excludes = true)
    (hI : stringKeyedSets config.Includes = true) :
    ∃ excludes includes, processFilter config.Excludes = Except.ok excludes ∧
      processFilter config.Includes = Except.ok includes ∧
      processFilters config =
        Except.ok { config with Excludes := excludes, Includes := includes } := by
  obtain ⟨excludes, hex, _, _⟩ := processFilter_ok config.Excludes hE
  obtain ⟨includes, hin, _, _⟩ := processFilter_ok config.Includes hI
  refine ⟨excludes, includes, hex, hin, ?_⟩
  unfold processFilters
  rw [hex, hin]
  rfl

/-- What `processFilter` leaves under each key, by the shape of the raw value. -/
theorem processFilter_by_shape (raw result : GoMap Value) (hk : stringKeyedSets raw = true)
    (hr : processFilter raw = Except.ok result) (k : GoString) :
    (raw.get? k = none → result.get? k = none)
    ∧ (∀ rules, raw.get? k = some (Value.list rules) →
        result.get? k = some (Value.filter (GoMap.made (processSimpleFilter rules))))
    ∧ (∀ pairs, raw.get? k = some (Value.dict pairs) →
        ∃ m, processDetailedFilter pairs = Except.ok m ∧
          result.get? k = some (Value.filter (GoMap.made m)))
    ∧ (∀ v, raw.get? k = some v → (∀ rules, v ≠ Value.list rules) →
        (∀ pairs, v ≠ Value.dict pairs) → result.get? k = some v) := by
  obtain ⟨r, hr2, _, hget⟩ := processFilter_ok raw hk
  rw [hr] at hr2
  cases hr2
  refine ⟨?_, ?_, ?_, ?_⟩
  · intro h
    rw [hget k, h]
  · intro rules h
    rw [hget k, h]
    rfl
  · intro pairs h
    have hkeyed : stringKeyed pairs = true := by
      cases raw with
      | nil => cases h
      | made cells =>
        have hmem : (⟨k, Value.dict pairs⟩ : (_ : GoString) × Value) ∈ cells.entries :=
          AList.mem_lookup_iff.1 h
        unfold stringKeyedSets at hk
        exact List.all_eq_true.1 hk _ hmem
    obtain ⟨m, hm⟩ := detailed_fold_total pairs ∅ hkeyed
    have hp : processDetailedFilter pairs = Except.ok m := hm
    refine ⟨m, hp, ?_⟩
    rw [hget k, h]
    show (Except.map _ (processDetailedFilter pairs)).toOption = _
    rw [hp]
    rfl
  · intro v h hnl hnd
    rw [hget k, h]
    cases v with
    | list rules => exact absurd rfl (hnl rules)
    | dict pairs => exact absurd rfl (hnd pairs)
    | _ => rfl

theorem matchesFilter_scalar (w : World) (v : Value) (h : v.isScalar = true)
    (fileName relPath : GoString) :
    matchesFilter w v fileName relPath = false ∧ containsPath v relPath = false := by
  cases v <;> first | exact ⟨rfl, rfl⟩ | cases h

/-- C18, counterexample. In the sample configuration of several shapes the rule-set `C`
is the scalar string `vendor` and the rule-set `Rust` is null; after `processFilters` both
keys are still present and hold those raw values, which are not filename mappings. -/
theorem processFilters_keeps_scalars :
    ∃ c, processFilters shapesConfig = Except.ok c ∧
      c.Excludes.get? (lit "C") = some (Value.str (lit "vendor")) ∧
      c.Excludes.get? (lit "Rust") = some Value.null :=
  ⟨_, rfl, rfl, rfl⟩

/-- C18, amended. On a configuration whose mapping rule-sets are string-keyed,
`processFilters` completes, and in `excludes` and in `includes` alike: a key that was
absent stays absent; a raw list is replaced by its normal form; a raw mapping is replaced
by its normal form; and a raw value that is neither a list nor a mapping stays under its
key as it is, where, if it is nil or a scalar, `matchesFilter` and `containsPath` never
match on it.  The other fields of the configuration are unchanged. -/
theorem processFilters_shapes (config : Config)
    (hE : stringKeyedSets config.Excludes = true)
    (hI : stringKeyedSets config.Includes = true) :
    ∃ c, processFilters config = Except.ok c ∧
      c.Languages = config.Languages ∧ c.Stores = config.Stores ∧
      c.Documents = config.Documents ∧ c.MaxFileSize = config.MaxFileSize ∧
      ∀ raw result : GoMap Value,
        (raw = config.Excludes ∧ result = c.Excludes) ∨
          (raw = config.Includes ∧ result = c.Includes) →
        ∀ k,
          (raw.get? k = none → result.get? k = none)
          ∧ (∀ rules, raw.get? k = some (Value.list rules) →
              result.get? k = some (Value.filter (GoMap.made (processSimpleFilter rules))))
          ∧ (∀ pairs, raw.get? k = some (Value.dict pairs) →
              ∃ m, processDetailedFilter pairs = Except.ok m ∧
                result.get? k = some (Value.filter (GoMap.made m)))
          ∧ (∀ v, raw.get? k = some v → (∀ rules, v ≠ Value.list rules) →
              (∀ pairs, v ≠ Value.dict pairs) →
              result.get? k = some v ∧
                (v.isScalar = true → ∀ (w : World) (fileName relPath : GoString),
                  matchesFilter w v fileName relPath = false ∧
                    containsPath v relPath = false)) := by
  obtain ⟨excludes, includes, hex, hin, hc⟩ := processFilters_ok config hE hI
  refine ⟨_, hc, rfl, rfl, rfl, rfl, ?_⟩
  intro raw result hcase k
  have key : stringKeyedSets raw = true ∧ processFilter raw = Except.ok result := by
    rcases hcase with ⟨rfl, rfl⟩ | ⟨rfl, rfl⟩
    · exact ⟨hE, hex⟩
    · exact ⟨hI, hin⟩
  obtain ⟨h1, h2, h3, h4⟩ := processFilter_by_shape raw result key.1 key.2 k
  refine ⟨h1, h2, h3, ?_⟩
  intro v hv hnl hnd
  exact ⟨h4 v hv hnl hnd, fun hs w fileName relPath => matchesFilter_scalar w v hs fileName relPath⟩

/-- Witness for C18: in the sample configuration of several shapes, after
`processFilters` the list under `Go` and the include list are normal forms, and the
scalar under `C` is still there. -/
theorem processFilters_shapes_witness :
    ∃ c, processFilters shapesConfig = Except.ok c ∧
      c.Excludes.get? (lit "Go") = some (Value.filter (GoMap.made
        (processSimpleFilter [Value.str (lit "a.txt"), Value.int 3]))) ∧
      c.Includes.get? (lit "locc") = some (Value.filter (GoMap.made
        (processSimpleFilter [Value.str (lit "keep.txt")]))) ∧
      c.Excludes.get? (lit "C") = some (Value.str (lit "vendor")) ∧
      c.Excludes.get? (lit "Swift") = none := by
  obtain ⟨c, hc, _, _, _, _, hall⟩ :=
    processFilters_shapes shapesConfig (by decide) (by decide)
  exact ⟨c, hc,
    (hall shapesConfig.Excludes c.Excludes (Or.inl ⟨rfl, rfl⟩) (lit "Go")).2.1 _ rfl,
    (hall shapesConfig.Includes c.Includes (Or.inr ⟨rfl, rfl⟩) (lit "locc")).2.1 _ rfl,
    ((hall shapesConfig.Excludes c.Excludes (Or.inl ⟨rfl, rfl⟩) (lit "C")).2.2.2 _ rfl
      (fun _ h => by cases h) (fun _ h => by cases h)).1,
    (hall shapesConfig.Excludes c.Excludes (Or.inl ⟨rfl, rfl⟩) (lit "Swift")).1 rfl⟩

/-- C20. With the global exclude list `["src/gen/main.go", "gen.go"]`, normalized, the
file with relative path `src/gen/main.go` passes the size check, is matched by no include
rule (there is none), and is included as Go source although the rule-set holds its exact
relative path: the lookup in the rule-set uses the file name `main.go`, which the list
does not hold. The entry `gen.go` of the same list does reject the file
`src/gen/gen.go`. -/
theorem shouldIncludeFile_path_entry :
    ∃ c, processFilters pathExcludeConfig = Except.ok c ∧
      c.Excludes.get? (lit "locc") = some (Value.filter (GoMap.made
        (processSimpleFilter [Value.str (lit "src/gen/main.go"), Value.str (lit "gen.go")]))) ∧
      (processSimpleFilter [Value.str (lit "src/gen/main.go"), Value.str (lit "gen.go")]).lookup
        (lit "src/gen/main.go") = some [] ∧
      c.Includes.get? (lit "locc") = none ∧ c.Includes.get? (lit "Go") = none ∧
      filepathBase (lit "src/gen/main.go") = lit "main.go" ∧
      shouldIncludeFile sampleWorld c (lit "src/gen/main.go") 10 false false = true ∧
      shouldIncludeFile sampleWorld c (lit "src/gen/gen.go") 10 false false = false :=
  ⟨_, rfl, rfl, by decide, rfl, rfl, by decide, by decide, by decide⟩

/-- What the code does with a list of names: for a file that passes the size check and
that no include rule-set (global or of its detected type) matches, if the global exclude
rule-set is the normal form of a list that holds the file's name, that is the last element
of its relative path, `shouldIncludeFile` rejects the file. -/
theorem shouldIncludeFile_name_entry (w : World) (config : Config) (relPath : GoString)
    (size : Int) (enableStores enableDocuments : Bool) (rules : List Value)
    (hsize : ¬ (config.MaxFileSize > 0 ∧ size > config.MaxFileSize))
    (hglobal : ∀ f, config.Includes.get? (lit "locc") = some f →
      matchesFilter w f (filepathBase relPath) relPath = false)
    (htype : ∀ f,
      config.Includes.get? (detectLanguage w relPath config enableStores enableDocuments).1
        = some f →
      matchesFilter w f (filepathBase relPath) relPath = false)
    (hrules : config.Excludes.get? (lit "locc")
      = some (Value.filter (GoMap.made (processSimpleFilter rules))))
    (hname : Value.str (filepathBase relPath) ∈ rules) :
    shouldIncludeFile w config relPath size enableStores enableDocuments = false := by
  have hg : (match config.Includes.get? (lit "locc") with
      | some globalIncludes => matchesFilter w globalIncludes (filepathBase relPath) relPath
      | none => false) = false := by
    cases h : config.Includes.get? (lit "locc") with
    | none => rfl
    | some f => exact hglobal f h
  have ht : (match config.Includes.get?
        (detectLanguage w relPath config enableStores enableDocuments).1 with
      | some includes => matchesFilter w includes (filepathBase relPath) relPath
      | none => false) = false := by
    cases h : config.Includes.get?
        (detectLanguage w relPath config enableStores enableDocuments).1 with
    | none => rfl
    | some f => exact htype f h
  have hx := (matchesFilter_simple w rules (filepathBase relPath) relPath).2 hname
  unfold shouldIncludeFile
  rw [if_neg hsize]
  simp only [hg, ht, hrules, hx, Bool.false_eq_true, if_false, if_true]

/-- An instance: with the exclude list `["src/gen/main.go", "gen.go"]`, the file
`src/gen/gen.go`, whose name `gen.go` is in the list, is rejected. -/
theorem shouldIncludeFile_name_entry_witness :
    ∃ c, processFilters pathExcludeConfig = Except.ok c ∧
      shouldIncludeFile sampleWorld c (lit "src/gen/gen.go") 10 false false = false :=
  ⟨_, rfl,
    shouldIncludeFile_name_entry sampleWorld _ (lit "src/gen/gen.go") 10 false false
      [Value.str (lit "src/gen/main.go"), Value.str (lit "gen.go")]
      (by decide) (fun f h => by cases h) (fun f h => by cases h) rfl
      (List.mem_cons_of_mem _ (List.mem_cons_self _ _))⟩

/-! ## The counting pass -/

mutual
/-- Every path that the walk adds to the work list is a file that `shouldIncludeFile`
selected. -/
theorem walkTree_selected (w : World) (flags : Flags) (config : Config) (rootDir : GoString) :
    ∀ (t : FileTree) (path : GoString) (acc res : List GoString),
      walkTree w flags config rootDir path t acc = Except.ok res →
      ∀ p ∈ res, p ∈ acc ∨
        ∃ size, shouldIncludeFile w config (filepathRel rootDir p) size flags.enableStores
          flags.enableDocuments = true
  | .failed _, path, acc, res, h => by simp [walkTree] at h
  | .file _ size, path, acc, res, h => by
    simp only [walkTree] at h
    intro p hp
    split at h
    · cases h
      rcases List.mem_append.1 hp with h1 | h1
      · exact Or.inl h1
      · rw [List.mem_singleton] at h1
        subst h1
        exact Or.inr ⟨size, by assumption⟩
    · cases h
      exact Or.inl hp
  | .dir _ children, path, acc, res, h => by
    simp only [walkTree] at h
    split at h
    · cases h
      exact fun p hp => Or.inl hp
    · exact walkChildren_selected w flags config rootDir children path acc res h
/-- The same for the entries of a directory. -/
theorem walkChildren_selected (w : World) (flags : Flags) (config : Config)
    (rootDir : GoString) :
    ∀ (ts : List FileTree) (path : GoString) (acc res : List GoString),
      walkChildren w flags config rootDir path ts acc = Except.ok res →
      ∀ p ∈ res, p ∈ acc ∨
        ∃ size, shouldIncludeFile w config (filepathRel rootDir p) size flags.enableStores
          flags.enableDocuments = true
  | [], path, acc, res, h => by
    simp only [walkChildren] at h
    cases h
    exact fun p hp => Or.inl hp
  | c :: rest, path, acc, res, h => by
    simp only [walkChildren] at h
    split at h
    · cases h
    · rename_i more h2
      intro p hp
      rcases walkChildren_selected w flags config rootDir rest path more res h p hp with h3 | h3
      · exact walkTree_selected w flags config rootDir c _ acc more h2 p h3
      · exact Or.inr h3
end

mutual
/-- On a readable tree the walk returns a work list. -/
theorem walkTree_readable (w : World) (flags : Flags) (config : Config) (rootDir : GoString) :
    ∀ (t : FileTree) (path : GoString) (acc : List GoString), t.readable = true →
      ∃ res, walkTree w flags config rootDir path t acc = Except.ok res
  | .failed _, path, acc, h => by simp [FileTree.readable] at h
  | .file _ size, path, acc, _ => by
    simp only [walkTree]
    split
    · exact ⟨_, rfl⟩
    · exact ⟨_, rfl⟩
  | .dir _ children, path, acc, h => by
    simp only [walkTree]
    split
    · exact ⟨_, rfl⟩
    · simp only [FileTree.readable] at h
      exact walkChildren_readable w flags config rootDir children path acc h
/-- The same for the entries of a directory. -/
theorem walkChildren_readable (w : World) (flags : Flags) (config : Config)
    (rootDir : GoString) :
    ∀ (ts : List FileTree) (path : GoString) (acc : List GoString), readableAll ts = true →
      ∃ res, walkChildren w flags config rootDir path ts acc = Except.ok res
  | [], path, acc, _ => ⟨acc, by simp only [walkChildren]⟩
  | c :: rest, path, acc, h => by
    simp only [readableAll, Bool.and_eq_true] at h
    obtain ⟨more, hm⟩ := walkTree_readable w flags config rootDir c (joinPath path c.name) acc h.1
    obtain ⟨res, hr⟩ := walkChildren_readable w flags config rootDir rest path more h.2
    exact ⟨res, by simp only [walkChildren, hm, hr]⟩
end

/-- The loop of `countLinesOfCode` over a work list whose files can all be read: it
completes; every path with a detected type adds its record to the buffer and its count to
the total, and a path without detected type adds nothing. -/
theorem countFile_loop (w : World) (flags : Flags) (config : Config)
    (enableStores enableDocuments : Bool) (cwd : GoString) (files : List GoString)
    (hread : ∀ p ∈ files, ∃ content, w.readFile p = some content) (st : Report) :
    ∃ st2, files.foldlM (countFile w flags config enableStores enableDocuments cwd) st
        = Except.ok st2 ∧
      st2.output = st.output ++ files.flatMap (fun p =>
        if (detectLanguage w p config enableStores enableDocuments).1 = [] then []
        else formatRecord (filepathRel cwd p)
          (detectLanguage w p config enableStores enableDocuments).1
          (countNonEmptyLines ((w.readFile p).getD []))) ∧
      st2.totalLines = st.totalLines + (files.map (fun p =>
        if (detectLanguage w p config enableStores enableDocuments).1 = [] then 0
        else countNonEmptyLines ((w.readFile p).getD []))).sum ∧
      st2.written = st.written := by
  induction files generalizing st with
  | nil => exact ⟨st, rfl, by simp, by simp, rfl⟩
  | cons p rest ih =>
    obtain ⟨content, hc⟩ := hread p (List.mem_cons_self _ _)
    have hrest : ∀ q ∈ rest, ∃ content, w.readFile q = some content :=
      fun q hq => hread q (List.mem_cons_of_mem _ hq)
    by_cases hl : (detectLanguage w p config enableStores enableDocuments).1 = []
    · have hstep : countFile w flags config enableStores enableDocuments cwd st p
          = Except.ok st := by
        simp only [countFile, hl, if_true]
      obtain ⟨st2, h2, ho, ht, hw⟩ := ih hrest st
      refine ⟨st2, (foldlM_cons_ok _ _ _ _ _ hstep).trans h2, ?_, ?_, hw⟩
      · rw [ho, List.flatMap_cons, if_pos hl, List.nil_append]
      · rw [ht, List.map_cons, List.sum_cons, if_pos hl, Nat.zero_add]
    · obtain ⟨st1, hstep, ho1, ht1, hw1⟩ : ∃ st1,
          countFile w flags config enableStores enableDocuments cwd st p = Except.ok st1 ∧
          st1.output = st.output ++ formatRecord (filepathRel cwd p)
            (detectLanguage w p config enableStores enableDocuments).1
            (countNonEmptyLines content) ∧
          st1.totalLines = st.totalLines + countNonEmptyLines content ∧
          st1.written = st.written := by
        refine ⟨{ st with
            totalLines := st.totalLines + countNonEmptyLines content,
            stdout :=
              if flags.verbose then
                st.stdout ++ (lit "File: " ++ filepathRel cwd p ++ lit ", Language: "
                  ++ (detectLanguage w p config enableStores enableDocuments).1
                  ++ lit ", Lines: " ++ decimal (countNonEmptyLines content) ++ lit "\n")
              else st.stdout,
            output := st.output ++ formatRecord (filepathRel cwd p)
              (detectLanguage w p config enableStores enableDocuments).1
              (countNonEmptyLines content) }, ?_, rfl, rfl, rfl⟩
        simp only [countFile, hl, if_false, hc]
      obtain ⟨st2, h2, ho, ht, hw⟩ := ih hrest st1
      refine ⟨st2, (foldlM_cons_ok _ _ _ _ _ hstep).trans h2, ?_, ?_, hw.trans hw1⟩
      · rw [ho, ho1, List.flatMap_cons, if_neg hl, hc, Option.getD_some, List.append_assoc]
      · rw [ht, ht1, List.map_cons, List.sum_cons, if_neg hl, hc, Option.getD_some,
          Nat.add_assoc]

/-- C16, counterexample. In the directory `/work` with the files `Makefile` and
`main.go`, both readable, and a configuration whose global include rule names `Makefile`,
`shouldIncludeFile` selects `Makefile` (it is on the work list), yet `countLinesOfCode`
appends no record for it and does not add its two non-blank lines to the total: the type
of `Makefile` is empty and the loop skips it.  Only `main.go` is recorded. -/
theorem countLinesOfCode_skips_untyped :
    shouldIncludeFile workWorld makefileConfig (lit "Makefile") 18 false false = true
    ∧ buildFileList workWorld defaultFlags workDisk.tree makefileConfig (lit "/work")
        = Except.ok [lit "/work/Makefile", lit "/work/main.go"]
    ∧ workWorld.readFile (lit "/work/Makefile") = some (lit "all:\n\tgo build\n")
    ∧ countNonEmptyLines (lit "all:\n\tgo build\n") = 2
    ∧ ∃ report, countLinesOfCode workWorld workDisk defaultFlags makefileConfig false false
          = Except.ok report ∧
        report.output = lit "main.go,Go,2\n" ∧ report.totalLines = 2 :=
  ⟨by decide, rfl, by decide, by decide, _, rfl, by decide, by decide⟩

mutual
/-- On a readable tree the walk with the callback of `buildFileList` appends to the work
list the paths of the visited files that `shouldIncludeFile` selects, each once, in the
order of the walk. -/
theorem walkTree_visited (w : World) (flags : Flags) (config : Config) (rootDir : GoString) :
    ∀ (t : FileTree) (path : GoString) (acc : List GoString), t.readable = true →
      walkTree w flags config rootDir path t acc = Except.ok (acc ++
        ((visitedFiles (fun p => shouldExcludeDir config (filepathRel rootDir p)) path t).filter
          (fun e => shouldIncludeFile w config (filepathRel rootDir e.1) e.2
            flags.enableStores flags.enableDocuments)).map Prod.fst)
  | .failed _, path, acc, h => by simp [FileTree.readable] at h
  | .file _ size, path, acc, _ => by
    simp only [walkTree, visitedFiles, List.filter_cons, List.filter_nil]
    split
    · rfl
    · simp
  | .dir _ children, path, acc, h => by
    simp only [walkTree, visitedFiles]
    split
    · simp
    · simp only [FileTree.readable] at h
      exact walkChildren_visited w flags config rootDir children path acc h
/-- The same for the entries of a directory. -/
theorem walkChildren_visited (w : World) (flags : Flags) (config : Config)
    (rootDir : GoString) :
    ∀ (ts : List FileTree) (path : GoString) (acc : List GoString), readableAll ts = true →
      walkChildren w flags config rootDir path ts acc = Except.ok (acc ++
        ((visitedChildren (fun p => shouldExcludeDir config (filepathRel rootDir p)) path
            ts).filter
          (fun e => shouldIncludeFile w config (filepathRel rootDir e.1) e.2
            flags.enableStores flags.enableDocuments)).map Prod.fst)
  | [], path, acc, _ => by simp [walkChildren, visitedChildren]
  | c :: rest, path, acc, h => by
    simp only [readableAll, Bool.and_eq_true] at h
    simp only [walkChildren, visitedChildren,
      walkTree_visited w flags config rootDir c (joinPath path c.name) acc h.1,
      walkChildren_visited w flags config rootDir rest path _ h.2,
      List.filter_append, List.map_append, List.append_assoc]
end

/-- The records of the typed files among the selected ones, written out. -/
theorem records_flatMap (l : List (GoString × Int)) (sel : GoString × Int → Bool)
    (lang rel : GoString → GoString) (cnt : GoString → Nat) :
    ((l.filter sel).map Prod.fst).flatMap
        (fun p => if lang p = [] then [] else formatRecord (rel p) (lang p) (cnt p))
      = ((l.filter (fun e => sel e && decide (lang e.1 ≠ []))).map
          (fun e => (rel e.1, lang e.1, cnt e.1))).flatMap
        (fun r => formatRecord r.1 r.2.1 r.2.2) := by
  induction l with
  | nil => rfl
  | cons e rest ih =>
    rw [List.filter_cons, List.filter_cons]
    cases hs : sel e
    · simpa using ih
    · by_cases ht : lang e.1 = []
      · simpa [ht] using ih
      · simp only [if_true, Bool.true_and, ht, ne_eq, not_false_eq_true, decide_True,
          List.map_cons, List.flatMap_cons, if_false]
        rw [ih]

/-- The counts of the typed files among the selected ones, summed. -/
theorem records_sum (l : List (GoString × Int)) (sel : GoString × Int → Bool)
    (lang rel : GoString → GoString) (cnt : GoString → Nat) :
    (((l.filter sel).map Prod.fst).map (fun p => if lang p = [] then 0 else cnt p)).sum
      = (((l.filter (fun e => sel e && decide (lang e.1 ≠ []))).map
          (fun e => (rel e.1, lang e.1, cnt e.1))).map (fun r => r.2.2)).sum := by
  induction l with
  | nil => rfl
  | cons e rest ih =>
    rw [List.filter_cons, List.filter_cons]
    cases hs : sel e
    · simpa using ih
    · by_cases ht : lang e.1 = []
      · simpa [ht] using ih
      · simp only [if_true, Bool.true_and, ht, ne_eq, not_false_eq_true, decide_True,
          List.map_cons, List.sum_cons, if_false]
        rw [ih]

/-- C16, amended. When the working directory is known, the walk meets no entry that it
cannot examine, every selected file can be read and the output file, if one is asked for,
can be written: the work list of `buildFileList` holds, in the order of the walk, the path
of every file that the walk meets and `shouldIncludeFile` selects, once for each such
file; `countLinesOfCode` succeeds; its output buffer holds one record
`relativePath,type,count` for each of these files whose detected type is not empty, in the
same order, and none for a selected file without detected type; and its total is the sum of
the counts of the recorded files. -/
theorem countLinesOfCode_records (w : World) (d : Disk) (flags : Flags) (config : Config)
    (cwd : GoString) (hcwd : d.getwd = some cwd) (htree : d.tree.readable = true)
    (hread : ∀ e ∈ walkedFiles config cwd d.tree,
      shouldIncludeFile w config (filepathRel cwd e.1) e.2 flags.enableStores
        flags.enableDocuments = true →
      ∃ content, w.readFile e.1 = some content)
    (hwrite : flags.outputFile ≠ [] → ∀ data, d.writeFile flags.outputFile data = true) :
    ∃ (report : Report) (records : List (GoString × GoString × Nat)),
      buildFileList w flags d.tree config cwd = Except.ok
        (((walkedFiles config cwd d.tree).filter
          (fun e => shouldIncludeFile w config (filepathRel cwd e.1) e.2 flags.enableStores
            flags.enableDocuments)).map Prod.fst) ∧
      countLinesOfCode w d flags config flags.enableStores flags.enableDocuments
        = Except.ok report ∧
      records =
        ((walkedFiles config cwd d.tree).filter
          (fun e => shouldIncludeFile w config (filepathRel cwd e.1) e.2 flags.enableStores
              flags.enableDocuments &&
            decide ((detectLanguage w e.1 config flags.enableStores
              flags.enableDocuments).1 ≠ []))).map
          (fun e => (filepathRel cwd e.1,
            (detectLanguage w e.1 config flags.enableStores flags.enableDocuments).1,
            countNonEmptyLines ((w.readFile e.1).getD []))) ∧
      report.output = records.flatMap (fun r => formatRecord r.1 r.2.1 r.2.2) ∧
      report.totalLines = (records.map (fun r => r.2.2)).sum := by
  have hb : buildFileList w flags d.tree config cwd = Except.ok
      (((walkedFiles config cwd d.tree).filter
        (fun e => shouldIncludeFile w config (filepathRel cwd e.1) e.2 flags.enableStores
          flags.enableDocuments)).map Prod.fst) := by
    have h := walkTree_visited w flags config cwd d.tree cwd [] htree
    rw [List.nil_append] at h
    exact h
  have hreadable : ∀ p ∈ ((walkedFiles config cwd d.tree).filter
        (fun e => shouldIncludeFile w config (filepathRel cwd e.1) e.2 flags.enableStores
          flags.enableDocuments)).map Prod.fst,
      ∃ content, w.readFile p = some content := by
    intro p hp
    obtain ⟨e, he, rfl⟩ := List.mem_map.1 hp
    rw [List.mem_filter] at he
    exact hread e he.1 he.2
  obtain ⟨st, hst, ho, ht, _⟩ := countFile_loop w flags config flags.enableStores
    flags.enableDocuments cwd _ hreadable
    { totalLines := 0, output := [], stdout := [], written := none }
  simp only [List.nil_append, Nat.zero_add] at ho ht
  have ho2 : st.output =
      (((walkedFiles config cwd d.tree).filter
          (fun e => shouldIncludeFile w config (filepathRel cwd e.1) e.2 flags.enableStores
              flags.enableDocuments &&
            decide ((detectLanguage w e.1 config flags.enableStores
              flags.enableDocuments).1 ≠ []))).map
          (fun e => (filepathRel cwd e.1,
            (detectLanguage w e.1 config flags.enableStores flags.enableDocuments).1,
            countNonEmptyLines ((w.readFile e.1).getD [])))).flatMap
        (fun r => formatRecord r.1 r.2.1 r.2.2) := by
    rw [ho]
    exact records_flatMap (walkedFiles config cwd d.tree) _
      (fun p => (detectLanguage w p config flags.enableStores flags.enableDocuments).1)
      (filepathRel cwd) (fun p => countNonEmptyLines ((w.readFile p).getD []))
  have ht2 : st.totalLines =
      ((((walkedFiles config cwd d.tree).filter
          (fun e => shouldIncludeFile w config (filepathRel cwd e.1) e.2 flags.enableStores
              flags.enableDocuments &&
            decide ((detectLanguage w e.1 config flags.enableStores
              flags.enableDocuments).1 ≠ []))).map
          (fun e => (filepathRel cwd e.1,
            (detectLanguage w e.1 config flags.enableStores flags.enableDocuments).1,
            countNonEmptyLines ((w.readFile e.1).getD [])))).map (fun r => r.2.2)).sum := by
    rw [ht]
    exact records_sum (walkedFiles config cwd d.tree) _
      (fun p => (detectLanguage w p config flags.enableStores flags.enableDocuments).1)
      (filepathRel cwd) (fun p => countNonEmptyLines ((w.readFile p).getD []))
  by_cases hout : flags.outputFile = []
  · refine ⟨{ st with
        stdout := st.stdout ++ (lit "Total lines of code: " ++ decimal st.totalLines
          ++ lit "\n") }, _, hb, ?_, rfl, ho2, ht2⟩
    simp only [countLinesOfCode, hcwd, hb, hst, hout, ne_eq, not_true_eq_false, if_false]
  · refine ⟨{ st with
        stdout := st.stdout ++ (lit "Total lines of code: " ++ decimal st.totalLines
          ++ lit "\n") ++ (lit "Output written to " ++ flags.outputFile ++ lit "\n"),
        written := some (flags.outputFile, st.output) }, _, hb, ?_, rfl, ho2, ht2⟩
    simp only [countLinesOfCode, hcwd, hb, hst, hout, ne_eq, not_false_eq_true, if_true,
      hwrite hout st.output]

/-- Witness for C16: in the directory `/work` with `main.go` and the directory `sub`
holding `b.go` and `Makefile`, with the global include rule `Makefile`, the walk enters
`sub`; the work list holds the three files, the buffer the records of the two Go files in
the order of the walk, and the total is the sum of their counts. -/
theorem countLinesOfCode_records_witness :
    nestedDisk.tree.readable = true ∧
    buildFileList nestedWorld defaultFlags nestedDisk.tree makefileConfig (lit "/work")
      = Except.ok [lit "/work/main.go", lit "/work/sub/b.go", lit "/work/sub/Makefile"] ∧
    ∃ report, countLinesOfCode nestedWorld nestedDisk defaultFlags makefileConfig false false
        = Except.ok report ∧
      report.output = lit "main.go,Go,2\nsub/b.go,Go,1\n" ∧
      report.totalLines = 3 := by
  have hwalk : walkedFiles makefileConfig (lit "/work") nestedDisk.tree =
      [(lit "/work/main.go", 30), (lit "/work/sub/b.go", 12), (lit "/work/sub/Makefile", 18)] := by
    decide
  have htree : nestedDisk.tree.readable = true := by decide
  obtain ⟨report, records, hb, hr, hrec, ho, ht⟩ := countLinesOfCode_records nestedWorld
    nestedDisk defaultFlags makefileConfig (lit "/work") rfl htree
    (by
      rw [hwalk]
      intro e he _
      simp only [List.mem_cons, List.mem_singleton, List.not_mem_nil, or_false] at he
      rcases he with rfl | rfl | rfl
      · exact ⟨_, rfl⟩
      · exact ⟨_, rfl⟩
      · exact ⟨_, rfl⟩)
    (fun h => absurd rfl h)
  have hrecords : records =
      [(lit "main.go", lit "Go", 2), (lit "sub/b.go", lit "Go", 1)] := by
    rw [hrec, hwalk]
    decide
  refine ⟨htree, hb.trans ?_, report, hr, ?_, ?_⟩
  · rw [hwalk]
    exact congrArg Except.ok (by decide)
  · rw [ho, hrecords]
    decide
  · rw [ht, hrecords]
    decide

/-! ## Rule-sets of other types, enumeration order -/

/-- C21. For a file of detected type `T`, `shouldIncludeFile` gives the same result on
two configurations with the same tables and size limit whose include and exclude
rule-sets agree under the keys `locc` and `T`, whatever they hold under the other keys:
a rule-set keyed by another type name has no effect on the file. -/
theorem shouldIncludeFile_other_keys (w : World) (c1 c2 : Config) (relPath : GoString)
    (size : Int) (enableStores enableDocuments : Bool) (T : GoString)
    (hT : (detectLanguage w relPath c1 enableStores enableDocuments).1 = T)
    (hL : c1.Languages = c2.Languages) (hS : c1.Stores = c2.Stores)
    (hD : c1.Documents = c2.Documents) (hM : c1.MaxFileSize = c2.MaxFileSize)
    (hI : ∀ k, k = lit "locc" ∨ k = T → c1.Includes.get? k = c2.Includes.get? k)
    (hE : ∀ k, k = lit "locc" ∨ k = T → c1.Excludes.get? k = c2.Excludes.get? k) :
    shouldIncludeFile w c1 relPath size enableStores enableDocuments =
      shouldIncludeFile w c2 relPath size enableStores enableDocuments := by
  have hdet : detectLanguage w relPath c2 enableStores enableDocuments
      = detectLanguage w relPath c1 enableStores enableDocuments := by
    simp only [detectLanguage, hL, hS, hD]
  subst hT
  simp only [shouldIncludeFile, hdet, hM.symm, (hI _ (Or.inl rfl)).symm,
    (hI _ (Or.inr rfl)).symm, (hE _ (Or.inl rfl)).symm, (hE _ (Or.inr rfl)).symm]

/-- Witness for C21: `notes.md`, of type Markdown with the documents toggle on, is
included both with the sample tables alone and with the rule-sets for Go and JSON added;
`main.go`, of type Go, is excluded by the rule-set keyed Go. -/
theorem shouldIncludeFile_other_keys_witness :
    shouldIncludeFile sampleWorld tablesConfig (lit "notes.md") 5 true true =
      shouldIncludeFile sampleWorld keyedConfig (lit "notes.md") 5 true true
    ∧ shouldIncludeFile sampleWorld tablesConfig (lit "notes.md") 5 true true = true
    ∧ shouldIncludeFile sampleWorld keyedConfig (lit "main.go") 5 true true = false :=
  ⟨shouldIncludeFile_other_keys sampleWorld tablesConfig keyedConfig (lit "notes.md") 5 true
      true (lit "Markdown") (by decide) rfl rfl rfl rfl
      (fun k hk => by rcases hk with rfl | rfl <;> rfl)
      (fun k hk => by rcases hk with rfl | rfl <;> rfl),
   by decide, by decide⟩

theorem find?_perm_unique {α : Type} (p : α → Bool) (l1 l2 : List α) (hperm : l1.Perm l2)
    (huniq : ∀ a ∈ l1, ∀ b ∈ l1, p a = true → p b = true → a = b) :
    l1.find? p = l2.find? p := by
  cases h1 : l1.find? p with
  | none =>
    rw [List.find?_eq_none] at h1
    symm
    rw [List.find?_eq_none]
    intro x hx
    exact h1 x (hperm.mem_iff.2 hx)
  | some a =>
    have ha : a ∈ l1 := List.mem_of_find?_eq_some h1
    have hpa : p a = true := List.find?_some h1
    cases h2 : l2.find? p with
    | none =>
      rw [List.find?_eq_none] at h2
      exact absurd hpa (h2 a (hperm.mem_iff.1 ha))
    | some b =>
      have hb : b ∈ l1 := hperm.mem_iff.2 (List.mem_of_find?_eq_some h2)
      have hpb : p b = true := List.find?_some h2
      rw [huniq a ha b hb hpa hpb]

theorem searchTable_perm (t1 t2 : GoMap LanguageConfig) (ext : GoString)
    (hperm : t1.entries.Perm t2.entries)
    (huniq : ∀ a ∈ t1.entries, ∀ b ∈ t1.entries, ext ∈ a.2.Extensions →
      ext ∈ b.2.Extensions → a = b) :
    searchTable t1 ext = searchTable t2 ext := by
  unfold searchTable
  rw [find?_perm_unique _ _ _ hperm]
  intro a ha b hb hpa hpb
  exact huniq a ha b hb (List.elem_iff.1 hpa) (List.elem_iff.1 hpb)

/-- C26. Let two configurations hold the same three tables, enumerated in possibly
different orders, and let no extension be listed by two entries of the same table.  Then
`detectLanguage` returns the same type and the same comment tokens on both, for every
file name and every setting of the toggles. -/
theorem detectLanguage_order (w : World) (c1 c2 : Config)
    (hL : c1.Languages.entries.Perm c2.Languages.entries)
    (hS : c1.Stores.entries.Perm c2.Stores.entries)
    (hD : c1.Documents.entries.Perm c2.Documents.entries)
    (huniq : ∀ table, table = c1.Languages ∨ table = c1.Stores ∨ table = c1.Documents →
      ∀ a ∈ table.entries, ∀ b ∈ table.entries, ∀ ext,
        ext ∈ a.2.Extensions → ext ∈ b.2.Extensions → a = b)
    (filename : GoString) (enableStores enableDocuments : Bool) :
    detectLanguage w filename c1 enableStores enableDocuments =
      detectLanguage w filename c2 enableStores enableDocuments := by
  have h1 := searchTable_perm c1.Languages c2.Languages (toLower w (filepathExt filename)) hL
    (fun a ha b hb => huniq _ (Or.inl rfl) a ha b hb _)
  have h2 := searchTable_perm c1.Stores c2.Stores (toLower w (filepathExt filename)) hS
    (fun a ha b hb => huniq _ (Or.inr (Or.inl rfl)) a ha b hb _)
  have h3 := searchTable_perm c1.Documents c2.Documents (toLower w (filepathExt filename)) hD
    (fun a ha b hb => huniq _ (Or.inr (Or.inr rfl)) a ha b hb _)
  simp only [detectLanguage, h1, h2, h3]

/-- Witness for C26: the sample tables and the same tables with the two stores enumerated
in the other order classify `data.json` alike, as JSON. -/
theorem detectLanguage_order_witness :
    tablesConfig.Stores.entries ≠ tablesConfigReordered.Stores.entries
    ∧ detectLanguage sampleWorld (lit "data.json") tablesConfig true true =
        detectLanguage sampleWorld (lit "data.json") tablesConfigReordered true true
    ∧ detectLanguage sampleWorld (lit "data.json") tablesConfig true true = (lit "JSON", []) :=
  ⟨by decide,
   detectLanguage_order sampleWorld tablesConfig tablesConfigReordered
    (List.Perm.refl _) (by decide) (List.Perm.refl _)
    (fun table ht => by
      rcases ht with rfl | rfl | rfl <;> decide)
    (lit "data.json") true true,
   by decide⟩

/-! ## `processFilters` applied twice -/

theorem normalized_not_raw (v v2 : Value) (h : normalized v = Except.ok v2) :
    v2.isListOrDict = false := by
  cases v with
  | list rules => cases h; rfl
  | dict pairs =>
    have h2 : Except.map (fun m => Value.filter (GoMap.made m))
        (processDetailedFilter pairs) = Except.ok v2 := h
    cases hp : processDetailedFilter pairs with
    | error p => rw [hp] at h2; cases h2
    | ok m => rw [hp] at h2; cases h2; rfl
  | null => cases h; rfl
  | bool b => cases h; rfl
  | int n => cases h; rfl
  | float bits => cases h; rfl
  | str s => cases h; rfl
  | filter f => cases h; rfl
  | strings s => cases h; rfl
  | fileExclusions f => cases h; rfl
  | mapping mp => cases h; rfl

theorem filterStep_ok_normalized (acc acc2 : AList (fun _ : GoString => Value))
    (e : (_ : GoString) × Value) (h : filterStep acc e = Except.ok acc2) :
    ∃ v2, normalized e.2 = Except.ok v2 := by
  obtain ⟨key, val⟩ := e
  cases val with
  | dict pairs =>
    have h2 : Except.map (fun m => acc.insert key (Value.filter (GoMap.made m)))
        (processDetailedFilter pairs) = Except.ok acc2 := h
    cases hp : processDetailedFilter pairs with
    | error p => rw [hp] at h2; cases h2
    | ok m =>
      refine ⟨Value.filter (GoMap.made m), ?_⟩
      show Except.map _ (processDetailedFilter pairs) = _
      rw [hp]
      rfl
  | _ => exact ⟨_, rfl⟩

theorem filter_fold_normalized (es : List ((_ : GoString) × Value))
    (acc r : AList (fun _ : GoString => Value))
    (h : es.foldlM filterStep acc = Except.ok r) :
    ∀ e ∈ es, ∃ v2, normalized e.2 = Except.ok v2 := by
  induction es generalizing acc with
  | nil => intro e he; cases he
  | cons e rest ih =>
    cases hstep : filterStep acc e with
    | error p =>
      rw [foldlM_cons_error _ _ _ _ _ hstep] at h
      cases h
    | ok acc2 =>
      rw [foldlM_cons_ok _ _ _ _ _ hstep] at h
      intro e2 he2
      rcases List.mem_cons.1 he2 with rfl | hin
      · exact filterStep_ok_normalized acc acc2 _ hstep
      · exact ih acc2 h e2 hin

theorem filter_fold_untouched (es : List ((_ : GoString) × Value))
    (acc : AList (fun _ : GoString => Value))
    (h : ∀ e ∈ es, e.2.isListOrDict = false) :
    es.foldlM filterStep acc = Except.ok acc := by
  induction es with
  | nil => rfl
  | cons e rest ih =>
    have hstep : filterStep acc e = Except.ok acc := by
      have he := h e (List.mem_cons_self _ _)
      obtain ⟨key, val⟩ := e
      cases val <;> first | rfl | cases he
    rw [foldlM_cons_ok _ _ _ _ _ hstep]
    exact ih (fun e2 he2 => h e2 (List.mem_cons_of_mem _ he2))

/-- A map that `processFilter` returned is returned as it is by `processFilter`. -/
theorem processFilter_twice (filter r : GoMap Value)
    (h : processFilter filter = Except.ok r) : processFilter r = Except.ok r := by
  cases filter with
  | nil => cases h; rfl
  | made cells =>
    rw [processFilter_made] at h
    cases hf : cells.entries.foldlM filterStep cells with
    | error p => rw [hf] at h; cases h
    | ok r2 =>
      rw [hf] at h
      cases h
      have hok := filter_fold_normalized cells.entries cells r2 hf
      obtain ⟨r3, hr3, hlook⟩ := filter_fold cells.entries cells.nodupKeys cells
        (fun e he => by
          have : e.2 ∈ cells.lookup e.1 := AList.mem_lookup_iff.2 he
          exact this)
        hok
      rw [hf] at hr3
      cases hr3
      have hshape : ∀ e ∈ r2.entries, e.2.isListOrDict = false := by
        intro e he
        have hl : r2.lookup e.1 = some e.2 := AList.mem_lookup_iff.2 he
        rw [hlook e.1] at hl
        cases hd : List.dlookup e.1 cells.entries with
        | none =>
          rw [hd] at hl
          have hl2 : cells.lookup e.1 = some e.2 := hl
          have : cells.lookup e.1 = none := hd
          rw [this] at hl2
          cases hl2
        | some v =>
          rw [hd] at hl
          have hl2 : (normalized v).toOption = some e.2 := hl
          cases hn : normalized v with
          | error p => rw [hn] at hl2; cases hl2
          | ok v2 =>
            rw [hn] at hl2
            cases hl2
            exact normalized_not_raw v _ hn
      rw [processFilter_made, filter_fold_untouched r2.entries r2 hshape]
      rfl

/-- C25. If `processFilters` returns a configuration, applying it to that configuration
returns the same configuration again: the second application completes and leaves
`excludes` and `includes`, and every other field, as the first left them.  The first
application returns whenever the mapping rule-sets are string-keyed. -/
theorem processFilters_idempotent (config : Config) :
    (∀ c1, processFilters config = Except.ok c1 → processFilters c1 = Except.ok c1)
    ∧ (stringKeyedSets config.Excludes = true → stringKeyedSets config.Includes = true →
        ∃ c1, processFilters config = Except.ok c1 ∧ processFilters c1 = Except.ok c1) := by
  have key : ∀ c1, processFilters config = Except.ok c1 →
      processFilters c1 = Except.ok c1 := by
    intro c1 h
    unfold processFilters at h
    cases he : processFilter config.Excludes with
    | error p => rw [he] at h; cases h
    | ok excludes =>
      cases hi : processFilter config.Includes with
      | error p => rw [he, hi] at h; cases h
      | ok includes =>
        rw [he, hi] at h
        cases h
        have h1 := processFilter_twice _ _ he
        have h2 := processFilter_twice _ _ hi
        show processFilters { config with Excludes := excludes, Includes := includes } = _
        unfold processFilters
        simp only [h1, h2]
        rfl
  refine ⟨key, ?_⟩
  intro hE hI
  obtain ⟨excludes, includes, _, _, hc⟩ := processFilters_ok config hE hI
  exact ⟨_, hc, key _ hc⟩

/-- Witness for C25: the sample configuration of several shapes is normalized, and a
second application returns the same configuration. -/
theorem processFilters_idempotent_witness :
    ∃ c1, processFilters shapesConfig = Except.ok c1 ∧ processFilters c1 = Except.ok c1 ∧
      c1.Excludes.get? (lit "Go") = some (Value.filter (GoMap.made
        (processSimpleFilter [Value.str (lit "a.txt"), Value.int 3]))) :=
  match (processFilters_idempotent shapesConfig).2 (by decide) (by decide) with
  | ⟨c1, h1, h2⟩ =>
    ⟨c1, h1, h2, by
      have h3 : processFilters shapesConfig = Except.ok _ := rfl
      rw [h3] at h1
      cases h1
      rfl⟩

/-! ## The grand total -/

theorem countFile_stdout (w : World) (flags : Flags) (config : Config)
    (enableStores enableDocuments : Bool) (cwd : GoString) (st st1 : Report) (p : GoString)
    (h : countFile w flags config enableStores enableDocuments cwd st p = Except.ok st1) :
    ∃ extra, st1.stdout = st.stdout ++ extra := by
  unfold countFile at h
  simp only at h
  split at h
  · cases h
    exact ⟨[], (List.append_nil _).symm⟩
  · split at h
    · cases h
    · cases h
      by_cases hv : flags.verbose = true
      · simp only [hv, if_true]
        exact ⟨_, rfl⟩
      · simp only [hv, if_false]
        exact ⟨[], (List.append_nil _).symm⟩

theorem countFile_fold_stdout (w : World) (flags : Flags) (config : Config)
    (enableStores enableDocuments : Bool) (cwd : GoString) (files : List GoString)
    (st st2 : Report)
    (h : files.foldlM (countFile w flags config enableStores enableDocuments cwd) st
      = Except.ok st2) :
    ∃ extra, st2.stdout = st.stdout ++ extra := by
  induction files generalizing st with
  | nil =>
    cases h
    exact ⟨[], (List.append_nil _).symm⟩
  | cons p rest ih =>
    cases hstep : countFile w flags config enableStores enableDocuments cwd st p with
    | error e =>
      rw [foldlM_cons_error _ _ _ _ _ hstep] at h
      cases h
    | ok st1 =>
      rw [foldlM_cons_ok _ _ _ _ _ hstep] at h
      obtain ⟨x1, h1⟩ := countFile_stdout w flags config enableStores enableDocuments cwd st st1
        p hstep
      obtain ⟨x2, h2⟩ := ih st1 h
      exact ⟨x1 ++ x2, by rw [h2, h1, List.append_assoc]⟩

theorem flatMap_typed {α : Type} (files : List GoString) (typed : GoString → Bool)
    (f : GoString → List α) :
    files.flatMap (fun p => if typed p = false then [] else f p)
      = (files.filter typed).flatMap f := by
  induction files with
  | nil => rfl
  | cons p rest ih =>
    rw [List.flatMap_cons, ih, List.filter_cons]
    cases typed p <;> simp

theorem sum_typed (files : List GoString) (typed : GoString → Bool) (f : GoString → Nat) :
    (files.map (fun p => if typed p = false then 0 else f p)).sum
      = ((files.filter typed).map f).sum := by
  induction files with
  | nil => rfl
  | cons p rest ih =>
    rw [List.map_cons, List.sum_cons, ih, List.filter_cons]
    cases typed p <;> simp

/-- C24. For a work list whose files can all be read (and an output file, if asked for,
that can be written), `countLinesOfCode` succeeds; the records of its output buffer are
those of the paths of the work list with a detected type, in the order of the work list,
each with the relative path, the type and the count of its file; and the grand total it
prints in the line `Total lines of code: N` is the sum of the counts of these records. -/
theorem countLinesOfCode_total (w : World) (d : Disk) (flags : Flags) (config : Config)
    (enableStores enableDocuments : Bool) (cwd : GoString) (files : List GoString)
    (hcwd : d.getwd = some cwd)
    (hfiles : buildFileList w flags d.tree config cwd = Except.ok files)
    (hread : ∀ p ∈ files, ∃ content, w.readFile p = some content)
    (hwrite : flags.outputFile ≠ [] → ∀ data, d.writeFile flags.outputFile data = true) :
    ∃ (report : Report) (records : List (GoString × GoString × Nat)) (before after : GoString),
      countLinesOfCode w d flags config enableStores enableDocuments = Except.ok report ∧
      records =
        (files.filter (fun p =>
            decide ((detectLanguage w p config enableStores enableDocuments).1 ≠ []))).map
          (fun p => (filepathRel cwd p,
            (detectLanguage w p config enableStores enableDocuments).1,
            countNonEmptyLines ((w.readFile p).getD []))) ∧
      report.output = records.flatMap (fun r => formatRecord r.1 r.2.1 r.2.2) ∧
      report.totalLines = (records.map (fun r => r.2.2)).sum ∧
      report.stdout = before ++
        (lit "Total lines of code: " ++ decimal (records.map (fun r => r.2.2)).sum ++ lit "\n")
        ++ after := by
  obtain ⟨st, hst, ho, ht, _⟩ := countFile_loop w flags config enableStores enableDocuments
    cwd files hread { totalLines := 0, output := [], stdout := [], written := none }
  simp only [List.nil_append, Nat.zero_add] at ho ht
  have hcond : ∀ p : GoString,
      ((detectLanguage w p config enableStores enableDocuments).1 = []) ↔
        decide ((detectLanguage w p config enableStores enableDocuments).1 ≠ []) = false := by
    intro p
    simp
  have ho2 : st.output =
      ((files.filter (fun p =>
          decide ((detectLanguage w p config enableStores enableDocuments).1 ≠ []))).map
        (fun p => (filepathRel cwd p,
          (detectLanguage w p config enableStores enableDocuments).1,
          countNonEmptyLines ((w.readFile p).getD [])))).flatMap
        (fun r => formatRecord r.1 r.2.1 r.2.2) := by
    rw [ho, List.flatMap_map, ← flatMap_typed]
    congr 1
    funext p
    by_cases hp : (detectLanguage w p config enableStores enableDocuments).1 = []
    · rw [if_pos hp, if_pos ((hcond p).1 hp)]
    · rw [if_neg hp, if_neg (fun h => hp ((hcond p).2 h))]
  have ht2 : st.totalLines =
      (((files.filter (fun p =>
          decide ((detectLanguage w p config enableStores enableDocuments).1 ≠ []))).map
        (fun p => (filepathRel cwd p,
          (detectLanguage w p config enableStores enableDocuments).1,
          countNonEmptyLines ((w.readFile p).getD [])))).map (fun r => r.2.2)).sum := by
    rw [ht, List.map_map, ← sum_typed]
    congr 2
    funext p
    by_cases hp : (detectLanguage w p config enableStores enableDocuments).1 = []
    · rw [if_pos hp, if_pos ((hcond p).1 hp)]
    · rw [if_neg hp, if_neg (fun h => hp ((hcond p).2 h))]
      rfl
  by_cases hout : flags.outputFile = []
  · refine ⟨{ st with
        stdout := st.stdout ++ (lit "Total lines of code: " ++ decimal st.totalLines
          ++ lit "\n") }, _, st.stdout, [], ?_, rfl, ho2, ht2, ?_⟩
    · simp only [countLinesOfCode, hcwd, hfiles, hst, hout, ne_eq, not_true_eq_false,
        if_false]
    · show st.stdout ++ (lit "Total lines of code: " ++ decimal st.totalLines ++ lit "\n") = _
      rw [List.append_nil, ht2]
  · refine ⟨{ st with
        stdout := st.stdout ++ (lit "Total lines of code: " ++ decimal st.totalLines
          ++ lit "\n") ++ (lit "Output written to " ++ flags.outputFile ++ lit "\n"),
        written := some (flags.outputFile, st.output) }, _, st.stdout,
        lit "Output written to " ++ flags.outputFile ++ lit "\n", ?_, rfl, ho2, ht2, ?_⟩
    · simp only [countLinesOfCode, hcwd, hfiles, hst, hout, ne_eq, not_false_eq_true,
        if_true, hwrite hout st.output]
    · show st.stdout ++ (lit "Total lines of code: " ++ decimal st.totalLines ++ lit "\n")
        ++ (lit "Output written to " ++ flags.outputFile ++ lit "\n") = _
      rw [ht2]

/-- Witness for C24: in the directory `/work` with `Makefile` and `main.go`, Go being the
only language, the buffer holds the record `main.go,Go,2` and the program prints
`Total lines of code: 2`. -/
theorem countLinesOfCode_total_witness :
    ∃ report, countLinesOfCode workWorld workDisk defaultFlags makefileConfig false false
        = Except.ok report ∧
      report.output = lit "main.go,Go,2\n" ∧
      report.stdout = lit "Total lines of code: 2\n" := by
  obtain ⟨report, records, before, after, hr, hrec, ho, _, _⟩ :=
    countLinesOfCode_total workWorld workDisk defaultFlags makefileConfig false false
      (lit "/work") [lit "/work/Makefile", lit "/work/main.go"] rfl rfl
      (by
        intro p hp
        simp only [List.mem_cons, List.mem_singleton, List.not_mem_nil, or_false] at hp
        rcases hp with rfl | rfl
        · exact ⟨_, rfl⟩
        · exact ⟨_, rfl⟩)
      (fun h => absurd rfl h)
  have h2 : countLinesOfCode workWorld workDisk defaultFlags makefileConfig false false
      = Except.ok _ := rfl
  rw [h2] at hr
  cases hr
  exact ⟨_, h2, by decide, by decide⟩

/-! ## Counting line by line -/

theorem indexByte_lt (data : GoString) (c i : Nat) (h : indexByte data c = some i) :
    i < data.length := by
  induction data generalizing i with
  | nil => cases h
  | cons b rest ih =>
    unfold indexByte at h
    split at h
    · cases h
      exact Nat.succ_pos _
    · cases hr : indexByte rest c with
      | none => rw [hr] at h; cases h
      | some j =>
        rw [hr] at h
        cases h
        exact Nat.succ_lt_succ (ih j hr)

/-- A call of `Scan` that returns true consumes at least one byte. -/
theorem scanStep_length (maxTok : Nat) (data text rest : GoString)
    (h : scanStep maxTok data = some (text, rest)) : rest.length < data.length := by
  unfold scanStep at h
  split at h
  · cases h
  · rename_i hne
    split at h
    · rename_i i hi
      split at h
      · cases h
        have := indexByte_lt data 10 i hi
        rw [List.length_drop]
        omega
      · cases h
    · split at h
      · cases h
        exact List.length_pos.2 hne
      · cases h

/-- Any fuel that covers the length of the data gives the same count. -/
theorem countLoop_fuel (maxTok : Nat) (fuel1 fuel2 : Nat) (data : GoString) (n : Nat)
    (h1 : data.length ≤ fuel1) (h2 : data.length ≤ fuel2) :
    countLoop maxTok fuel1 data n = countLoop maxTok fuel2 data n := by
  induction fuel1 generalizing fuel2 data n with
  | zero =>
    have hnil : data = [] := List.length_eq_zero.1 (Nat.le_zero.1 h1)
    subst hnil
    cases fuel2 with
    | zero => rfl
    | succ k => simp [countLoop, scanStep]
  | succ k ih =>
    cases hs : scanStep maxTok data with
    | none => rw [countLoop_stop _ _ hs, countLoop_stop _ _ hs]
    | some tr =>
      obtain ⟨text, rest⟩ := tr
      have hlen := scanStep_length maxTok data text rest hs
      cases fuel2 with
      | zero => omega
      | succ k2 =>
        simp only [countLoop, hs]
        exact ih k2 rest _ (by omega) (by omega)

theorem countLoop_acc (maxTok : Nat) (fuel : Nat) (data : GoString) (n : Nat) :
    countLoop maxTok fuel data n = n + countLoop maxTok fuel data 0 := by
  induction fuel generalizing data n with
  | zero => simp [countLoop]
  | succ k ih =>
    cases hs : scanStep maxTok data with
    | none => simp [countLoop, hs]
    | some tr =>
      obtain ⟨text, rest⟩ := tr
      simp only [countLoop, hs]
      rw [ih rest (if 0 < (trimSpace text).length then n + 1 else n),
        ih rest (if 0 < (trimSpace text).length then 0 + 1 else 0)]
      split <;> omega

/-- The count after one more call of `Scan`. -/
theorem countLoop_step (maxTok : Nat) (data text rest : GoString)
    (h : scanStep maxTok data = some (text, rest)) :
    countLoop maxTok data.length data 0 =
      (if 0 < (trimSpace text).length then 1 else 0) + countLoop maxTok rest.length rest 0 := by
  have hlen := scanStep_length maxTok data text rest h
  obtain ⟨k, hk⟩ : ∃ k, data.length = k + 1 := ⟨data.length - 1, by omega⟩
  rw [hk]
  simp only [countLoop, h]
  rw [countLoop_acc, countLoop_fuel maxTok k rest.length rest 0 (by omega) (le_refl _)]

theorem first_newline (a : GoString) (h : 10 ∈ a) :
    ∃ line rest, a = line ++ 10 :: rest ∧ 10 ∉ line := by
  induction a with
  | nil => cases h
  | cons b tail ih =>
    by_cases hb : b = 10
    · exact ⟨[], tail, by rw [hb]; rfl, by simp⟩
    · rcases List.mem_cons.1 h with h1 | h1
      · exact absurd h1.symm hb
      · obtain ⟨line, rest, hsplit, hno⟩ := ih h1
        refine ⟨b :: line, rest, by rw [hsplit]; rfl, ?_⟩
        intro hmem
        rcases List.mem_cons.1 hmem with h2 | h2
        · exact hb h2.symm
        · exact hno h2

theorem indexByte_first (line rest : GoString) (h : 10 ∉ line) :
    indexByte (line ++ 10 :: rest) 10 = some line.length := by
  induction line with
  | nil => simp [indexByte]
  | cons b tail ih =>
    rw [List.mem_cons, not_or] at h
    have hb : ¬ b = 10 := fun hb => h.1 hb.symm
    simp only [List.cons_append, indexByte, hb, if_false]
    change Option.map (· + 1) (indexByte (tail ++ 10 :: rest) 10) = _
    rw [ih h.2]
    rfl

/-- `Scan` on a line that ends with a newline within the buffer: the token is the line
and the input left is what follows the newline. -/
theorem scanStep_line (maxTok : Nat) (line rest : GoString) (hno : 10 ∉ line)
    (hlen : line.length < maxTok) :
    scanStep maxTok (line ++ 10 :: rest) = some (dropCR line, rest) := by
  have hne : ¬ line ++ 10 :: rest = [] := by simp
  unfold scanStep
  rw [if_neg hne, indexByte_first line rest hno]
  simp only [hlen, if_true]
  have htake : List.take line.length (line ++ 10 :: rest) = line := List.take_left' rfl
  have hdrop : List.drop (line.length + 1) (line ++ 10 :: rest) = rest := by
    rw [← List.drop_drop, List.drop_left' rfl]
    rfl
  rw [htake, hdrop]

/-- `Scan` on a last line without newline that fits in the buffer. -/
theorem scanStep_last (maxTok : Nat) (a : GoString) (hno : 10 ∉ a) (hne : a ≠ [])
    (hlen : a.length < maxTok) : scanStep maxTok a = some (dropCR a, []) := by
  unfold scanStep
  rw [if_neg hne, indexByte_eq_none a 10 hno]
  simp only [hlen, if_true]

theorem splitOn_first (line rest : GoString) (hno : 10 ∉ line) :
    (line ++ 10 :: rest).splitOn 10 = line :: rest.splitOn 10 := by
  unfold List.splitOn
  apply List.splitOnP_first
  · intro x hx hx10
    rw [beq_iff_eq] at hx10
    exact hno (hx10 ▸ hx)
  · exact beq_self_eq_true 10

theorem splitOn_single (a : GoString) (hno : 10 ∉ a) : a.splitOn 10 = [a] := by
  unfold List.splitOn
  apply List.splitOnP_eq_single
  intro x hx hx10
  rw [beq_iff_eq] at hx10
  exact hno (hx10 ▸ hx)

/-- The count of `a ++ "\n" ++ b` for any token limit: the scan of `a` ends exactly at
the newline that was put between the two, and goes on with `b` from a fresh line. -/
theorem countLoop_append (maxTok : Nat) (n : Nat) :
    ∀ a : GoString, a.length ≤ n → (∀ line ∈ a.splitOn 10, line.length < maxTok) →
      ∀ b : GoString,
        countLoop maxTok (a ++ 10 :: b).length (a ++ 10 :: b) 0 =
          countLoop maxTok a.length a 0 + countLoop maxTok b.length b 0 := by
  induction n with
  | zero =>
    intro a ha _ b
    have hnil : a = [] := List.length_eq_zero.1 (Nat.le_zero.1 ha)
    subst hnil
    have hs : scanStep maxTok ([] ++ 10 :: b) = some (dropCR [], b) := by
      cases maxTok with
      | zero => exact absurd (‹∀ line ∈ ([] : GoString).splitOn 10, line.length < 0› [] (by decide)) (Nat.not_lt_zero _)
      | succ k => exact scanStep_line (k + 1) [] b (by simp) (Nat.succ_pos k)
    rw [countLoop_step maxTok _ _ _ hs]
    rfl
  | succ k ih =>
    intro a ha hlines b
    by_cases hmem : 10 ∈ a
    · obtain ⟨line, rest, hsplit, hno⟩ := first_newline a hmem
      subst hsplit
      rw [splitOn_first line rest hno] at hlines
      have hline : line.length < maxTok := hlines line (List.mem_cons_self _ _)
      have hrest : ∀ l ∈ rest.splitOn 10, l.length < maxTok :=
        fun l hl => hlines l (List.mem_cons_of_mem _ hl)
      have hlen : rest.length ≤ k := by
        rw [List.length_append, List.length_cons] at ha
        omega
      have hs1 : scanStep maxTok (line ++ 10 :: rest ++ 10 :: b) =
          some (dropCR line, rest ++ 10 :: b) := by
        have h := scanStep_line maxTok line (rest ++ 10 :: b) hno hline
        rw [List.append_assoc]
        exact h
      rw [countLoop_step maxTok _ _ _ hs1,
        countLoop_step maxTok _ _ _ (scanStep_line maxTok line rest hno hline),
        ih rest hlen hrest b, Nat.add_assoc]
    · rw [splitOn_single a hmem] at hlines
      have hshort : a.length < maxTok := hlines a (List.mem_singleton_self a)
      rw [countLoop_step maxTok _ _ _ (scanStep_line maxTok a b hmem hshort)]
      by_cases hne : a = []
      · subst hne
        rfl
      · rw [countLoop_step maxTok _ _ _ (scanStep_last maxTok a hmem hne hshort)]
        rfl

/-- C27: for all byte sequences `a` and `b`, every line of `a` being shorter than the 64 KiB
token limit of the scanner (`b` may be anything, long lines included),
`countNonEmptyLines (a ++ "\n" ++ b) = countNonEmptyLines a + countNonEmptyLines b`; in
particular a trailing newline appended to `a` leaves its count unchanged. -/
theorem countNonEmptyLines_append (a b : GoString)
    (ha : ∀ line ∈ a.splitOn 10, line.length < maxScanTokenSize) :
    countNonEmptyLines (a ++ lit "\n" ++ b) = countNonEmptyLines a + countNonEmptyLines b ∧
      countNonEmptyLines (a ++ lit "\n") = countNonEmptyLines a := by
  have hnl : lit "\n" = [10] := by decide
  have h := countLoop_append maxScanTokenSize a.length a (le_refl _) ha
  constructor
  · rw [hnl, List.append_assoc]
    exact h b
  · rw [hnl]
    exact h []

/-- Witness of C27: `"a\r\n\n  b"` counts 2, `"c\n \n"` counts 1, joined by a newline
they count 3. -/
theorem countNonEmptyLines_append_witness :
    (∀ line ∈ (lit "a\r\n\n  b").splitOn 10, line.length < maxScanTokenSize) ∧
      countNonEmptyLines (lit "a\r\n\n  b") = 2 ∧
      countNonEmptyLines (lit "c\n \n") = 1 ∧
      countNonEmptyLines (lit "a\r\n\n  b" ++ lit "\n" ++ lit "c\n \n") = 3 ∧
      countNonEmptyLines (lit "a\r\n\n  b" ++ lit "\n") = 2 := by
  have hlines : ∀ line ∈ (lit "a\r\n\n  b").splitOn 10, line.length < maxScanTokenSize := by
    decide
  have h := countNonEmptyLines_append (lit "a\r\n\n  b") (lit "c\n \n") hlines
  have h1 : countNonEmptyLines (lit "a\r\n\n  b") = 2 := by decide
  have h2 : countNonEmptyLines (lit "c\n \n") = 1 := by decide
  refine ⟨hlines, h1, h2, ?_, ?_⟩
  · rw [h.1, h1, h2]
  · rw [h.2, h1]

/-! ## `runInit` -/

/-- C22, counterexample: in a file system that holds no file at `./.locc.yaml` and in which
the write fails, `runInit` does not succeed: it returns the error of the write and prints
nothing. -/
theorem runInit_write_refused :
    lockedFs.stat (lit "./.locc.yaml") = StatResult.notExist ∧
      (runInit (some sampleLocalTemplate) lockedFs (lit "./.locc.yaml")).err =
        some InitError.writeFailed ∧
      (runInit (some sampleLocalTemplate) lockedFs (lit "./.locc.yaml")).err ≠ none ∧
      (runInit (some sampleLocalTemplate) lockedFs (lit "./.locc.yaml")).stdout = [] := by
  refine ⟨rfl, rfl, ?_, rfl⟩
  intro h
  cases h

/-- C22, amended: for every answer of the file system, template and path: when `os.Stat`
finds a file at the path, `runInit` fails with "local config file already exists at <path>"
and makes no write at all, so that file and the rest of the file system stay as they are;
when `os.Stat` finds none and the write of the template to the path succeeds, `runInit`
succeeds, having made exactly one write, of exactly the bytes of the template, to the path;
when that write fails, `runInit` fails with the error of the write. -/
theorem runInit_cases (template : GoString) (fs : FileSystem) (filename : GoString) :
    (fs.stat filename = StatResult.found →
      (runInit (some template) fs filename).err =
          some (InitError.alreadyExists
            (lit "local config file already exists at " ++ filename)) ∧
        (runInit (some template) fs filename).writes = []) ∧
    (fs.stat filename ≠ StatResult.found → fs.writeFile filename template = true →
      (runInit (some template) fs filename).err = none ∧
        (runInit (some template) fs filename).writes = [(filename, template)]) ∧
    (fs.stat filename ≠ StatResult.found → fs.writeFile filename template = false →
      (runInit (some template) fs filename).err = some InitError.writeFailed) := by
  refine ⟨?_, ?_, ?_⟩
  · intro hs
    simp only [runInit, hs, and_self]
  · intro hs hw
    cases hst : fs.stat filename with
    | found => exact absurd hst hs
    | notExist => simp only [runInit, hst, hw, if_true, and_self]
    | failed => simp only [runInit, hst, hw, if_true, and_self]
  · intro hs hw
    cases hst : fs.stat filename with
    | found => exact absurd hst hs
    | notExist => simp [runInit, hst, hw]
    | failed => simp [runInit, hst, hw]

/-- Witness of C22 (amended): a second `runInit` on a project that holds `./.locc.yaml`
fails and writes nothing; where the file is missing and writes succeed it writes the
template to the path; where the write fails it returns the error of the write. -/
theorem runInit_cases_witness :
    projectFs.stat (lit "./.locc.yaml") = StatResult.found ∧
      (runInit (some sampleLocalTemplate) projectFs (lit "./.locc.yaml")).err =
        some (InitError.alreadyExists
          (lit "local config file already exists at ./.locc.yaml")) ∧
      (runInit (some sampleLocalTemplate) projectFs (lit "./.locc.yaml")).writes = [] ∧
      freshFs.stat (lit "./.locc.yaml") ≠ StatResult.found ∧
      (runInit (some sampleLocalTemplate) freshFs (lit "./.locc.yaml")).err = none ∧
      (runInit (some sampleLocalTemplate) freshFs (lit "./.locc.yaml")).writes =
        [(lit "./.locc.yaml", sampleLocalTemplate)] ∧
      (runInit (some sampleLocalTemplate) lockedFs (lit "./.locc.yaml")).err =
        some InitError.writeFailed := by
  have hfound : projectFs.stat (lit "./.locc.yaml") = StatResult.found := by decide
  have hfresh : freshFs.stat (lit "./.locc.yaml") ≠ StatResult.found := by decide
  have hlocked : lockedFs.stat (lit "./.locc.yaml") ≠ StatResult.found := by decide
  have h1 := (runInit_cases sampleLocalTemplate projectFs (lit "./.locc.yaml")).1 hfound
  have h2 :=
    (runInit_cases sampleLocalTemplate freshFs (lit "./.locc.yaml")).2.1 hfresh rfl
  have h3 :=
    (runInit_cases sampleLocalTemplate lockedFs (lit "./.locc.yaml")).2.2 hlocked rfl
  exact ⟨hfound, h1.1, h1.2, hfresh, h2.1, h2.2, h3⟩

/-! ## The loaders -/

theorem orEmpty_isSet {V : Type} (m : GoMap V) : (GoMap.orEmpty m).isSet = true := by
  cases m <;> rfl

/-- The statement `if m == nil { m = make(...) }` keeps every cell of the map. -/
theorem orEmpty_get? {V : Type} (m : GoMap V) (k : GoString) :
    (GoMap.orEmpty m).get? k = m.get? k := by
  cases m <;> rfl

theorem orEmpty_entries {V : Type} (m : GoMap V) : (GoMap.orEmpty m).entries = m.entries := by
  cases m <;> rfl

theorem fillNilMaps_allSet (config : Config) : (fillNilMaps config).allSet = true := by
  simp [Config.allSet, fillNilMaps, orEmpty_isSet]

/-- The branch of the existing file: the configuration that `loadGlobalConfig` returns for
a global file that `os.Stat` finds has its five mappings set. -/
theorem loadGlobalConfig_existing (yaml : Yaml) (template : Option GoString)
    (fs : FileSystem) (globalConfigPath : GoString) (config : Config)
    (hstat : fs.stat globalConfigPath = StatResult.found)
    (h : (loadGlobalConfig yaml template fs globalConfigPath).1 = Except.ok config) :
    config.allSet = true ∧
      ∃ data parsed, fs.readFile globalConfigPath = some data ∧
        yaml.unmarshal data = some parsed ∧ config = fillNilMaps parsed := by
  simp only [loadGlobalConfig, hstat] at h
  cases hr : fs.readFile globalConfigPath with
  | none => rw [hr] at h; cases h
  | some data =>
    rw [hr] at h
    cases hu : yaml.unmarshal data with
    | none => simp only [hu] at h; cases h
    | some parsed =>
      simp only [hu] at h
      cases h
      exact ⟨fillNilMaps_allSet parsed, data, parsed, rfl, hu, rfl⟩

/-- Every configuration that `loadLocalConfig` returns, the nil pointer apart, has its five
mappings set. -/
theorem loadLocalConfig_allSet (yaml : Yaml) (fs : FileSystem) (filename : GoString)
    (config : Config) (h : loadLocalConfig yaml fs filename = Except.ok (some config)) :
    config.allSet = true := by
  simp only [loadLocalConfig] at h
  split at h
  · split at h
    · cases h
    · split at h
      · cases h
      · cases h
        exact fillNilMaps_allSet _
  · cases h

/-- The branch of the first run: when `os.Stat` reports that the global file does not
exist, `loadGlobalConfig` returns the configuration decoded from the embedded template as
the decoder left it, after one write, of its encoding, to the path. -/
theorem loadGlobalConfig_seeded (yaml : Yaml) (template : GoString) (fs : FileSystem)
    (globalConfigPath : GoString) (config : Config) (data : GoString)
    (hstat : fs.stat globalConfigPath = StatResult.notExist)
    (hdecode : yaml.unmarshal template = some config)
    (hencode : yaml.marshal config = some data)
    (hwrite : fs.writeFile globalConfigPath data = true) :
    (loadGlobalConfig yaml (some template) fs globalConfigPath).1 = Except.ok config ∧
      (loadGlobalConfig yaml (some template) fs globalConfigPath).2 =
        [(globalConfigPath, data)] := by
  simp only [loadGlobalConfig, hstat, retrieveDefaultConfig, hdecode, hencode,
    hwrite, if_true, and_self]

/-- C23: on the first run (no global file at the path) with an embedded template that does
not name `includes`, `loadGlobalConfig` succeeds and returns a configuration whose
`Includes` mapping is nil, so not all five mappings are set; merging a local configuration
with an include rule into it panics on the assignment to the nil map. The same document
read from an existing global file comes back with its five mappings set, `Includes` being
the empty mapping. -/
theorem loadGlobalConfig_first_run :
    freshFs.stat (lit "/home/u/.locc.yaml") = StatResult.notExist ∧
      (loadGlobalConfig sampleYaml (some seedTemplate) freshFs (lit "/home/u/.locc.yaml")).1
        = Except.ok seedConfig ∧
      seedConfig.Includes.isSet = false ∧
      seedConfig.allSet = false ∧
      mergeConfigs (some seedConfig) (some includeLocal)
        = Except.error Panic.nilMapAssignment ∧
      (loadGlobalConfig sampleYaml (some seedTemplate) (homeFs seedTemplate)
        (lit "/home/u/.locc.yaml")).1 = Except.ok (fillNilMaps seedConfig) ∧
      (fillNilMaps seedConfig).allSet = true ∧
      (fillNilMaps seedConfig).Includes.entries = [] := by
  refine ⟨rfl, ?_, rfl, rfl, rfl, ?_, fillNilMaps_allSet seedConfig, rfl⟩
  swap
  · simp [loadGlobalConfig, homeFs, sampleYaml]
  exact (loadGlobalConfig_seeded sampleYaml seedTemplate freshFs (lit "/home/u/.locc.yaml")
    seedConfig seedDocument rfl (by simp [sampleYaml]) rfl rfl).1

end Locc
